import Mathlib

/-!
Verification of the WordPress → Ecossistema migration scripts
(`src/migration/wp_migrate.py` and `src/migration/wp_import_images.py`).

Python strings are modelled as `List Char` (`Str`), dictionaries as
association lists with `List.lookup`, and each script's observable side
effects (remote writes, local-cache writes, state-file writes) as explicit
effect traces returned alongside the updated in-memory state.  External
collaborators (the WordPress API, Keycloak, the SI/WN backends, MinIO,
PostgreSQL, the filesystem and the Pillow image library) are modelled as
oracles passed in as functions.
-/

set_option maxRecDepth 10000

/-- Python strings are lists of characters. -/
abbrev Str := List Char

/-- Characters that Python's `str.strip()` removes. -/
def pyIsSpace (c : Char) : Bool :=
  c = ' ' || c = '\t' || c = '\n' || c = '\r' || c = '\x0b' || c = '\x0c'

/-- Python `str.lstrip()`. -/
def pyLStrip (s : Str) : Str := s.dropWhile pyIsSpace

/-- Python `str.rstrip()`. -/
def pyRStrip (s : Str) : Str := (pyLStrip s.reverse).reverse

/-- Python `str.strip()`. -/
def pyStrip (s : Str) : Str := pyRStrip (pyLStrip s)

/-- `str(n)` for a natural number, as in the scripts' `str(wp_id)` keys. -/
def pyStr (n : Nat) : Str := (toString n).toList

-- ── State ledger of wp_migrate.py (class MigrationState) ────────────────────

/-- In-memory shape of `MigrationState.data` in `wp_migrate.py`
(auxiliary keys that no claim touches are kept to mirror the source). -/
structure MigrationState where
  wp_categories : List (Str × Str)
  wn_author_id : Option Str
  wp_posts : List (Str × Str)
  wp_pages : List (Str × Str)
  wp_media_si : List (Str × Str)
  wp_media_wn : List (Str × Str)
  si_menus : List (Str × Str)
  si_contacts : List Str
  completed_steps : List Str
deriving Repr, DecidableEq

/-- The empty ledger produced by `MigrationState.__init__` when no state
file exists. -/
def MigrationState.empty : MigrationState :=
  ⟨[], none, [], [], [], [], [], [], []⟩

/-- Side effects of `wp_migrate.py` that the claims talk about: remote
creation calls and writes of the state file.  `mapInsert` records the
in-memory ledger mutation `state.data[...][str(wp_id)] = id` that
precedes a save; `postAuthor` is the author-creation POST of
`create_wn_author`. -/
inductive MEffect where
  | postCategory (wpId : Nat) : MEffect
  | postAuthor : MEffect
  | mapInsert (key : Str) (value : Str) : MEffect
  | saveFile : MEffect
deriving Repr, DecidableEq

/-- `MigrationState.is_done`: membership test in `completed_steps`. -/
def MigrationState.is_done (st : MigrationState) (step : Str) : Bool :=
  decide (step ∈ st.completed_steps)

/-- `MigrationState.mark_step`: append the step name to `completed_steps`
and save, only when it is not already present.  Returns the new state and
the effect trace of the call. -/
def MigrationState.mark_step (st : MigrationState) (step : Str) :
    MigrationState × List MEffect :=
  if step ∈ st.completed_steps then (st, [])
  else ({ st with completed_steps := st.completed_steps ++ [step] }, [.saveFile])

-- ── Claim C10 ───────────────────────────────────────────────────────────────

/-- Claim C10: `mark_step` is idempotent on the ledger: it appends the step
name only when not already present, so a ledger without duplicates stays
without duplicates, a second `mark_step` call for the same name leaves the
state unchanged and performs no save, and `completed_steps` never gains a
duplicate. -/
theorem c10_mark_step_idempotent (st : MigrationState) (step : Str) :
    (((st.mark_step step).1.mark_step step).1 = (st.mark_step step).1 ∧
      ((st.mark_step step).1.mark_step step).2 = []) ∧
    (st.completed_steps.Nodup → (st.mark_step step).1.completed_steps.Nodup) ∧
    (step ∈ st.completed_steps → st.mark_step step = (st, [])) := by
  constructor
  · by_cases h : step ∈ st.completed_steps
    · constructor <;> simp [MigrationState.mark_step, h]
    · constructor <;> simp [MigrationState.mark_step, h]
  constructor
  · intro hnd
    unfold MigrationState.mark_step
    by_cases h : step ∈ st.completed_steps
    · simpa [h] using hnd
    · simp only [h, if_false]
      refine List.Nodup.append hnd (List.nodup_singleton _) ?_
      intro a ha hb
      simp only [List.mem_singleton] at hb
      subst hb
      exact h ha
  · intro hmem
    unfold MigrationState.mark_step
    simp [hmem]

/-- Witness for C10 at a concrete ledger. -/
theorem c10_witness :
    ((MigrationState.empty.mark_step "categories".toList).1.mark_step
        "categories".toList).1 =
      (MigrationState.empty.mark_step "categories".toList).1 ∧
    (MigrationState.empty.mark_step "categories".toList).1.completed_steps.Nodup := by
  refine ⟨(c10_mark_step_idempotent MigrationState.empty "categories".toList).1.1, ?_⟩
  exact (c10_mark_step_idempotent MigrationState.empty "categories".toList).2.1
    (by decide)

-- ── Association-list lookup (Python dict membership / indexing) ─────────────

/-- Lookup in an association list, modelling Python's
`key in dict` / `dict[key]` for the scripts' JSON-backed dictionaries. -/
def alookup (k : Str) : List (Str × Str) → Option Str
  | [] => none
  | (k', v) :: rest => if k = k' then some v else alookup k rest

theorem alookup_cons_of_ne {k k' : Str} {v : Str} {l : List (Str × Str)}
    (h : k ≠ k') : alookup k ((k', v) :: l) = alookup k l := by
  simp [alookup, h]

theorem alookup_cons_fresh {k k' : Str} {v w : Str} {l : List (Str × Str)}
    (hfresh : alookup k' l = none) (h : alookup k l = some v) :
    alookup k ((k', w) :: l) = some v := by
  have hne : k ≠ k' := by
    intro heq
    rw [← heq, h] at hfresh
    exact Option.noConfusion hfresh
  simpa [alookup, hne] using h

-- ── WordPress categories and the curated metadata table ─────────────────────

/-- One WordPress category as returned by `wp_fetch_all("categories")`
(the fields `migrate_categories` reads). -/
structure WpCat where
  id : Nat
  slug : Str
  name : Str
  description : Str
  count : Nat
deriving Repr, DecidableEq

/-- One entry of `WP_CATEGORY_MAP`. -/
structure CatMeta where
  nomePt : Str
  nomeEn : Str
  nomeDe : Str
  cor : Str
deriving Repr, DecidableEq

/-- The literal `WP_CATEGORY_MAP` table of `wp_migrate.py`. -/
def WP_CATEGORY_MAP (s : Str) : Option CatMeta :=
  if s = "diplomacia".toList then
    some ⟨"Diplomacia".toList, "Diplomacy".toList, "Diplomatie".toList, "#1a237e".toList⟩
  else if s = "politica".toList then
    some ⟨"Política".toList, "Politics".toList, "Politik".toList, "#b71c1c".toList⟩
  else if s = "economia".toList then
    some ⟨"Economia".toList, "Economy".toList, "Wirtschaft".toList, "#1b5e20".toList⟩
  else if s = "cultura".toList then
    some ⟨"Cultura".toList, "Culture".toList, "Kultur".toList, "#e65100".toList⟩
  else if s = "desporto".toList then
    some ⟨"Desporto".toList, "Sports".toList, "Sport".toList, "#0d47a1".toList⟩
  else if s = "turismo".toList then
    some ⟨"Turismo".toList, "Tourism".toList, "Tourismus".toList, "#00695c".toList⟩
  else if s = "diaspora".toList then
    some ⟨"Angolanos na Diáspora".toList, "Angolans Abroad".toList,
      "Angolaner im Ausland".toList, "#4a148c".toList⟩
  else if s = "reportagem".toList then
    some ⟨"Reportagem".toList, "Report".toList, "Reportage".toList, "#263238".toList⟩
  else if s = "responsabilidade-social".toList then
    some ⟨"Responsabilidade Social".toList, "Social Responsibility".toList,
      "Soziale Verantwortung".toList, "#880e4f".toList⟩
  else if s = "webinares".toList then
    some ⟨"Webinares".toList, "Webinars".toList, "Webinare".toList, "#311b92".toList⟩
  else if s = "destaques".toList then
    some ⟨"Destaques".toList, "Highlights".toList, "Highlights".toList, "#cc092f".toList⟩
  else none

/-- The category creation payload built in `migrate_categories`. -/
structure CatPayload where
  slug : Str
  nomePt : Str
  nomeEn : Str
  nomeDe : Str
  nomeCs : Str
  descricaoPt : Str
  cor : Str
  sortOrder : Nat
deriving Repr, DecidableEq

/-- Payload construction of `migrate_categories` (lines 299–309 of
`wp_migrate.py`): curated metadata if the slug is in `WP_CATEGORY_MAP`,
otherwise the source's own name with default colour. -/
def buildCatPayload (cat : WpCat) : CatPayload :=
  let mapping := WP_CATEGORY_MAP cat.slug
  { slug := cat.slug
    nomePt := (mapping.map CatMeta.nomePt).getD cat.name
    nomeEn := (mapping.map CatMeta.nomeEn).getD []
    nomeDe := (mapping.map CatMeta.nomeDe).getD []
    nomeCs := []
    descricaoPt := cat.description
    cor := (mapping.map CatMeta.cor).getD "#607d8b".toList
    sortOrder := cat.count }

/-- The step name literal of `migrate_categories`. -/
def stepCategories : Str := "categories".toList

/-- The slug skipped by `migrate_categories`. -/
def slugUncategorized : Str := "uncategorized".toList

/-- The per-category loop of `migrate_categories`: skip `uncategorized`,
skip ids already in the `wp_categories` id map, in dry-run only print,
otherwise POST the payload (`oracle` is the WN backend's response: `some`
new id on 200/201, `none` on an error status) and on success record the
mapping and save the state file at once. -/
def categoriesLoop (oracle : Nat → Option Str) (st : MigrationState)
    (cats : List WpCat) (dry : Bool) : MigrationState × List MEffect :=
  match cats with
  | [] => (st, [])
  | cat :: rest =>
    let step :
        MigrationState × List MEffect :=
      if cat.slug = slugUncategorized then (st, [])
      else if (alookup (pyStr cat.id) st.wp_categories).isSome then (st, [])
      else if dry then (st, [])
      else
        match oracle cat.id with
        | some wnId =>
            ({ st with wp_categories := (pyStr cat.id, wnId) :: st.wp_categories },
              [.postCategory cat.id, .mapInsert (pyStr cat.id) wnId, .saveFile])
        | none => (st, [.postCategory cat.id])
    let next := categoriesLoop oracle step.1 rest dry
    (next.1, step.2 ++ next.2)

/-- `migrate_categories` (lines 276–328 of `wp_migrate.py`): short-circuit
when the step is already in the ledger, run the per-category loop, then
mark the step done unless in dry-run. -/
def migrate_categories (oracle : Nat → Option Str) (st : MigrationState)
    (cats : List WpCat) (dry : Bool) : MigrationState × List MEffect :=
  if st.is_done stepCategories then (st, [])
  else
    let body := categoriesLoop oracle st cats dry
    if dry then body
    else
      let marked := body.1.mark_step stepCategories
      (marked.1, body.2 ++ marked.2)

theorem categoriesLoop_nil (oracle : Nat → Option Str) (st : MigrationState)
    (dry : Bool) : categoriesLoop oracle st [] dry = (st, []) := rfl

theorem categoriesLoop_cons_skip (oracle : Nat → Option Str)
    (st : MigrationState) (cat : WpCat) (rest : List WpCat) (dry : Bool)
    (h : cat.slug = slugUncategorized ∨
      (alookup (pyStr cat.id) st.wp_categories).isSome = true) :
    categoriesLoop oracle st (cat :: rest) dry =
      categoriesLoop oracle st rest dry := by
  rcases h with h | h
  · simp [categoriesLoop, h]
  · by_cases h1 : cat.slug = slugUncategorized <;> simp [categoriesLoop, h1, h]

theorem categoriesLoop_cons_dry (oracle : Nat → Option Str)
    (st : MigrationState) (cat : WpCat) (rest : List WpCat)
    (h1 : ¬ cat.slug = slugUncategorized)
    (h2 : alookup (pyStr cat.id) st.wp_categories = none) :
    categoriesLoop oracle st (cat :: rest) true =
      categoriesLoop oracle st rest true := by
  simp [categoriesLoop, h1, h2]

theorem categoriesLoop_cons_ok (oracle : Nat → Option Str)
    (st : MigrationState) (cat : WpCat) (rest : List WpCat) (wnId : Str)
    (h1 : ¬ cat.slug = slugUncategorized)
    (h2 : alookup (pyStr cat.id) st.wp_categories = none)
    (horc : oracle cat.id = some wnId) :
    categoriesLoop oracle st (cat :: rest) false =
      ((categoriesLoop oracle
          { st with wp_categories := (pyStr cat.id, wnId) :: st.wp_categories }
          rest false).1,
        [MEffect.postCategory cat.id, MEffect.mapInsert (pyStr cat.id) wnId,
          MEffect.saveFile] ++
        (categoriesLoop oracle
          { st with wp_categories := (pyStr cat.id, wnId) :: st.wp_categories }
          rest false).2) := by
  simp [categoriesLoop, h1, h2, horc]

theorem categoriesLoop_cons_err (oracle : Nat → Option Str)
    (st : MigrationState) (cat : WpCat) (rest : List WpCat)
    (h1 : ¬ cat.slug = slugUncategorized)
    (h2 : alookup (pyStr cat.id) st.wp_categories = none)
    (horc : oracle cat.id = none) :
    categoriesLoop oracle st (cat :: rest) false =
      ((categoriesLoop oracle st rest false).1,
        MEffect.postCategory cat.id :: (categoriesLoop oracle st rest false).2) := by
  simp [categoriesLoop, h1, h2, horc]

/-- Through the category loop the id map only grows: an existing mapping
keeps its value. -/
theorem categoriesLoop_mono (oracle : Nat → Option Str) (cats : List WpCat)
    (st : MigrationState) (dry : Bool) (k v : Str)
    (h : alookup k st.wp_categories = some v) :
    alookup k (categoriesLoop oracle st cats dry).1.wp_categories = some v := by
  induction cats generalizing st with
  | nil => simpa [categoriesLoop_nil]
  | cons cat rest ih =>
    by_cases h1 : cat.slug = slugUncategorized
    · rw [categoriesLoop_cons_skip oracle st cat rest dry (Or.inl h1)]
      exact ih st h
    · cases h2 : alookup (pyStr cat.id) st.wp_categories with
      | some w =>
        rw [categoriesLoop_cons_skip oracle st cat rest dry (Or.inr (by simp [h2]))]
        exact ih st h
      | none =>
        cases dry with
        | true =>
          rw [categoriesLoop_cons_dry oracle st cat rest h1 h2]
          exact ih st h
        | false =>
          cases horc : oracle cat.id with
          | some wnId =>
            rw [categoriesLoop_cons_ok oracle st cat rest wnId h1 h2 horc]
            exact ih _ (alookup_cons_fresh h2 h)
          | none =>
            rw [categoriesLoop_cons_err oracle st cat rest h1 h2 horc]
            exact ih st h

/-- Every remote category-creation call in the loop's trace is for a
WordPress id that was unmapped in the state the loop started from. -/
theorem categoriesLoop_creates_only_unmapped (oracle : Nat → Option Str)
    (cats : List WpCat) (st : MigrationState) (dry : Bool) (i : Nat)
    (he : MEffect.postCategory i ∈ (categoriesLoop oracle st cats dry).2) :
    alookup (pyStr i) st.wp_categories = none := by
  induction cats generalizing st with
  | nil => simp [categoriesLoop_nil] at he
  | cons cat rest ih =>
    by_cases h1 : cat.slug = slugUncategorized
    · rw [categoriesLoop_cons_skip oracle st cat rest dry (Or.inl h1)] at he
      exact ih st he
    · cases h2 : alookup (pyStr cat.id) st.wp_categories with
      | some w =>
        rw [categoriesLoop_cons_skip oracle st cat rest dry (Or.inr (by simp [h2]))] at he
        exact ih st he
      | none =>
        cases dry with
        | true =>
          rw [categoriesLoop_cons_dry oracle st cat rest h1 h2] at he
          exact ih st he
        | false =>
          cases horc : oracle cat.id with
          | some wnId =>
            rw [categoriesLoop_cons_ok oracle st cat rest wnId h1 h2 horc] at he
            simp only [List.cons_append, List.nil_append, List.mem_cons] at he
            rcases he with he | he | he | he
            · rw [MEffect.postCategory.inj he]; exact h2
            · exact absurd he (by simp)
            · exact absurd he (by simp)
            · have hrec := ih _ he
              cases hl : alookup (pyStr i) st.wp_categories with
              | none => rfl
              | some w =>
                rw [alookup_cons_fresh (w := wnId) h2 hl] at hrec
                exact Option.noConfusion hrec
          | none =>
            rw [categoriesLoop_cons_err oracle st cat rest h1 h2 horc] at he
            simp only [List.mem_cons] at he
            rcases he with he | he
            · rw [MEffect.postCategory.inj he]; exact h2
            · exact ih st he

-- ── Claim C1 ────────────────────────────────────────────────────────────────

/-- Claim C1: a second identical run is free of new side effects: when the
step is already in `completed_steps`, `migrate_categories` returns right
after the ledger membership test with the state unchanged and an empty
effect trace (no remote write, no ledger mutation); and in a not-yet-done
step, every category whose id is already in the `wp_categories` id map is
skipped — every creation call in the trace is for an id that was unmapped
at entry. -/
theorem c1_second_run_no_side_effects (oracle : Nat → Option Str)
    (st : MigrationState) (cats : List WpCat) (dry : Bool) :
    (st.is_done stepCategories = true →
      migrate_categories oracle st cats dry = (st, [])) ∧
    (∀ i : Nat, MEffect.postCategory i ∈ (migrate_categories oracle st cats dry).2 →
      alookup (pyStr i) st.wp_categories = none) := by
  constructor
  · intro hdone
    simp [migrate_categories, hdone]
  · intro i he
    by_cases hdone : st.is_done stepCategories = true
    · simp [migrate_categories, hdone] at he
    · simp only [migrate_categories, hdone, Bool.false_eq_true, if_false] at he
      cases dry with
      | true =>
        simp only [if_true] at he
        exact categoriesLoop_creates_only_unmapped oracle cats st true i he
      | false =>
        simp only [Bool.false_eq_true, if_false, List.mem_append] at he
        rcases he with he | he
        · exact categoriesLoop_creates_only_unmapped oracle cats st false i he
        · exfalso
          unfold MigrationState.mark_step at he
          by_cases hm : stepCategories ∈
              (categoriesLoop oracle st cats false).1.completed_steps
          · simp [hm] at he
          · simp [hm] at he

/-- Witness for C1: a done ledger short-circuits `migrate_categories`. -/
theorem c1_witness :
    ({ MigrationState.empty with completed_steps := [stepCategories] }.is_done
        stepCategories = true ∧
      migrate_categories (fun _ => some "X".toList)
        { MigrationState.empty with completed_steps := [stepCategories] }
        [⟨5, "diplomacia".toList, "Diplomacia".toList, [], 3⟩] false =
        ({ MigrationState.empty with completed_steps := [stepCategories] }, [])) := by
  refine ⟨by decide, ?_⟩
  exact (c1_second_run_no_side_effects (fun _ => some "X".toList)
    { MigrationState.empty with completed_steps := [stepCategories] }
    [⟨5, "diplomacia".toList, "Diplomacia".toList, [], 3⟩] false).1 (by decide)

-- ── Article transformer: category resolution (migrate_posts) ────────────────

/-- The category-resolution loop of `migrate_posts` (lines 400–406 of
`wp_migrate.py`): walk the post's WordPress category ids in order and take
the target id of the first one already present in the `wp_categories`
id map. -/
def resolveCategory (catMap : List (Str × Str)) : List Nat → Option Str
  | [] => none
  | wc :: rest =>
    match alookup (pyStr wc) catMap with
    | some v => some v
    | none => resolveCategory catMap rest

/-- The reference fields of the article payload of `migrate_posts`
(lines 400–433): optional keys are `none` when the corresponding
`if …: payload[…] = …` guard does not fire, i.e. the key is absent.
The text fields built from `wp_clean_html` / `wp_extract_excerpt` are
modelled separately with the sanitizer. -/
structure PostPayload where
  slug : Str
  categoryId : Option Str
  authorId : Option Str
  featuredImageId : Option Str
deriving Repr, DecidableEq

/-- Builds the reference part of an article payload as `migrate_posts`
does: slug truncated to 290 when longer, the category resolved by
`resolveCategory`, the author id from the ledger, and the featured image
only when the WordPress media id is truthy and already mapped. -/
def buildPostPayload (st : MigrationState) (slug : Str) (wpCatIds : List Nat)
    (featuredMedia : Nat) : PostPayload :=
  { slug := if 290 < slug.length then slug.take 290 else slug
    categoryId := resolveCategory st.wp_categories wpCatIds
    authorId := st.wn_author_id
    featuredImageId :=
      if featuredMedia ≠ 0 then alookup (pyStr featuredMedia) st.wp_media_wn
      else none }

-- ── Claim C9 ────────────────────────────────────────────────────────────────

/-- Claim C9: the article transformer resolves the category reference to
the target id of the first source category id in the post's list that has
a mapping (first-found-wins: ids before it are unmapped), and when no
listed id has a mapping the `categoryId` field is absent from the payload
instead of failing the entity. -/
theorem c9_category_first_found_wins (st : MigrationState) (slug : Str)
    (featuredMedia : Nat) :
    (∀ (ids1 ids2 : List Nat) (wc : Nat) (t : Str),
      (∀ y ∈ ids1, alookup (pyStr y) st.wp_categories = none) →
      alookup (pyStr wc) st.wp_categories = some t →
      (buildPostPayload st slug (ids1 ++ wc :: ids2) featuredMedia).categoryId =
        some t) ∧
    (∀ ids : List Nat,
      (∀ y ∈ ids, alookup (pyStr y) st.wp_categories = none) →
      (buildPostPayload st slug ids featuredMedia).categoryId = none) := by
  have hnone : ∀ ids : List Nat,
      (∀ y ∈ ids, alookup (pyStr y) st.wp_categories = none) →
      resolveCategory st.wp_categories ids = none := by
    intro ids h
    induction ids with
    | nil => rfl
    | cons y rest ih =>
      have hy := h y (by simp)
      simp only [resolveCategory, hy]
      exact ih (fun z hz => h z (by simp [hz]))
  constructor
  · intro ids1 ids2 wc t h1 h2
    show resolveCategory st.wp_categories (ids1 ++ wc :: ids2) = some t
    induction ids1 with
    | nil => simp [resolveCategory, h2]
    | cons y rest ih =>
      have hy := h1 y (by simp)
      simp only [List.cons_append, resolveCategory, hy]
      exact ih (fun z hz => h1 z (by simp [hz]))
  · intro ids h
    show resolveCategory st.wp_categories ids = none
    exact hnone ids h

/-- Witness for C9: with only the second listed category mapped, the
payload resolves to its target id; with none mapped, the field is absent. -/
theorem c9_witness :
    (buildPostPayload
        { MigrationState.empty with wp_categories := [(pyStr 7, "T7".toList)] }
        "post-a".toList [3, 7] 0).categoryId = some "T7".toList ∧
    (buildPostPayload MigrationState.empty "post-a".toList [3, 7] 0).categoryId =
      none := by
  constructor
  · exact (c9_category_first_found_wins
      { MigrationState.empty with wp_categories := [(pyStr 7, "T7".toList)] }
      "post-a".toList 0).1 [3] [] 7 "T7".toList (by decide) (by decide)
  · exact (c9_category_first_found_wins MigrationState.empty
      "post-a".toList 0).2 [3, 7] (by decide)

-- ── Image transform of wp_import_images.py (resize_image) ───────────────────

/-- `MAX_WIDTH` of `wp_import_images.py`. -/
def MAX_WIDTH : Nat := 1200

/-- `MAX_HEIGHT` of `wp_import_images.py`. -/
def MAX_HEIGHT : Nat := 800

/-- The dimension computation of `resize_image`: when either dimension
exceeds its bound, scale both by `min(MAX_WIDTH / w, MAX_HEIGHT / h)` and
truncate (`int(...)`), otherwise keep the dimensions.  Python's float
arithmetic is modelled over `ℚ` (exact for the spec's concrete
instances). -/
def resize_dims (w h : Nat) : Nat × Nat :=
  if MAX_WIDTH < w ∨ MAX_HEIGHT < h then
    let r : ℚ := min ((MAX_WIDTH : ℚ) / w) ((MAX_HEIGHT : ℚ) / h)
    ((⌊(w : ℚ) * r⌋).toNat, (⌊(h : ℚ) * r⌋).toNat)
  else (w, h)

/-- The output of `resize_image`: the image is always re-encoded to JPEG
at quality 85 with the computed dimensions. -/
structure EncodedImg where
  format : Str
  quality : Nat
  width : Nat
  height : Nat
deriving Repr, DecidableEq

/-- `resize_image` (lines 159–179 of `wp_import_images.py`), successful
path: convert to RGB, resize only above the bounds, re-encode as JPEG
quality 85. -/
def resize_image (w h : Nat) : EncodedImg :=
  { format := "JPEG".toList
    quality := 85
    width := (resize_dims w h).1
    height := (resize_dims w h).2 }

-- ── Claim C8 ────────────────────────────────────────────────────────────────

theorem resize_dims_2400_1600 : resize_dims 2400 1600 = (1200, 800) := by
  simp only [resize_dims, MAX_WIDTH, MAX_HEIGHT]
  norm_num
  exact ⟨rfl, rfl⟩

theorem resize_dims_800_600 : resize_dims 800 600 = (800, 600) := by
  simp only [resize_dims, MAX_WIDTH, MAX_HEIGHT]
  norm_num

/-- Claim C8: the transform downsizes only when width exceeds 1200 or
height exceeds 800, scaling by the smaller bound-to-dimension quotient and
never upsizing: 2400×1600 becomes exactly 1200×800, while 800×600 keeps
its dimensions and is still re-encoded (JPEG quality 85). -/
theorem c8_bounded_resize :
    (∀ w h : Nat, ¬ (MAX_WIDTH < w ∨ MAX_HEIGHT < h) →
      resize_image w h = ⟨"JPEG".toList, 85, w, h⟩) ∧
    (∀ w h : Nat, 0 < w → 0 < h →
      (resize_image w h).width ≤ w ∧ (resize_image w h).height ≤ h) ∧
    resize_image 2400 1600 = ⟨"JPEG".toList, 85, 1200, 800⟩ ∧
    resize_image 800 600 = ⟨"JPEG".toList, 85, 800, 600⟩ := by
  refine ⟨?_, ?_, ?_, ?_⟩
  · intro w h hno
    simp [resize_image, resize_dims, hno]
  · intro w h hw hh
    by_cases hc : MAX_WIDTH < w ∨ MAX_HEIGHT < h
    · have hwq : (0 : ℚ) < (w : ℚ) := by exact_mod_cast hw
      have hhq : (0 : ℚ) < (h : ℚ) := by exact_mod_cast hh
      have hr : min ((MAX_WIDTH : ℚ) / w) ((MAX_HEIGHT : ℚ) / h) ≤ 1 := by
        rcases hc with hc | hc
        · refine le_trans (min_le_left _ _) ?_
          rw [div_le_one hwq]
          exact_mod_cast hc.le
        · refine le_trans (min_le_right _ _) ?_
          rw [div_le_one hhq]
          exact_mod_cast hc.le
      have key : ∀ d : Nat, 0 < d →
          (⌊(d : ℚ) * min ((MAX_WIDTH : ℚ) / w) ((MAX_HEIGHT : ℚ) / h)⌋).toNat ≤ d := by
        intro d hd
        have hle : (d : ℚ) * min ((MAX_WIDTH : ℚ) / w) ((MAX_HEIGHT : ℚ) / h) ≤ (d : ℚ) := by
          calc (d : ℚ) * min ((MAX_WIDTH : ℚ) / w) ((MAX_HEIGHT : ℚ) / h)
              ≤ (d : ℚ) * 1 := by
                apply mul_le_mul_of_nonneg_left hr (by positivity)
            _ = (d : ℚ) := by ring
        have hfl : ⌊(d : ℚ) * min ((MAX_WIDTH : ℚ) / w) ((MAX_HEIGHT : ℚ) / h)⌋ ≤
            ⌊(d : ℚ)⌋ := Int.floor_le_floor hle
        rw [Int.floor_natCast] at hfl
        exact_mod_cast Int.toNat_le.mpr hfl
      constructor
      · show (resize_dims w h).1 ≤ w
        simp only [resize_dims, hc, if_true]
        exact key w hw
      · show (resize_dims w h).2 ≤ h
        simp only [resize_dims, hc, if_true]
        exact key h hh
    · constructor <;> simp [resize_image, resize_dims, hc]
  · show resize_image 2400 1600 = ⟨"JPEG".toList, 85, 1200, 800⟩
    simp [resize_image, resize_dims_2400_1600]
  · show resize_image 800 600 = ⟨"JPEG".toList, 85, 800, 600⟩
    simp [resize_image, resize_dims_800_600]

/-- Witness for C8 at the spec's concrete instances. -/
theorem c8_witness :
    resize_image 800 600 = ⟨"JPEG".toList, 85, 800, 600⟩ ∧
    (resize_image 2400 1600).width ≤ 2400 := by
  refine ⟨c8_bounded_resize.1 800 600 (by decide), ?_⟩
  exact (c8_bounded_resize.2.1 2400 1600 (by norm_num) (by norm_num)).1

-- ── wp_import_images.py: state, effects and oracles ─────────────────────────

/-- The persisted state of `wp_import_images.py`
(`{"imported": {}, "failed": [], "skipped": []}`). -/
structure ImgState where
  imported : List (Str × Str)
  failed : List Str
  skipped : List Str
deriving Repr, DecidableEq

/-- Fresh state from `load_state` when no state file exists. -/
def ImgState.empty : ImgState := ⟨[], [], []⟩

/-- Side effects of `wp_import_images.py`: local cache writes, the
object-store write, the relational transaction, and state-file writes. -/
inductive IEff where
  | cacheWrite (key : Str) : IEff
  | cacheUnlink (key : Str) : IEff
  | minioPut (objectKey : Str) : IEff
  | dbInsert (mediaId : Str) : IEff
  | dbLink (slug : Str) : IEff
  | dbCommit : IEff
  | dbRollback : IEff
  | saveState : IEff
deriving Repr, DecidableEq

/-- Remote write calls: the MinIO upload and the relational
insert/update/commit. -/
def isRemoteWrite : IEff → Bool
  | .minioPut _ => true
  | .dbInsert _ => true
  | .dbLink _ => true
  | .dbCommit => true
  | _ => false

/-- A WordPress featured image as returned by `fetch_wp_featured_image`
(the fields the import loop reads). -/
structure WpImg where
  url : Str
  alt : Str
deriving Repr, DecidableEq

/-- One row of `fetch_articles_without_images`. -/
structure ImgArticle where
  id : Str
  slug : Str
  title : Str
deriving Repr, DecidableEq

/-- The external world of `wp_import_images.py`: the WordPress API, the
local cache directory, the network, Pillow, MinIO and PostgreSQL, plus
the uuid supply, all keyed deterministically. -/
structure ImgWorld where
  fetchImg : Str → Option WpImg
  fs : Str → Option Nat
  dlOk : Str → Bool
  resizeOut : Str → Option (Nat × Nat × Nat)
  minioOk : Str → Bool
  dbOk : Str → Bool
  freshId : Str → Str

-- ── URL → cache-key helpers (urlparse / pathlib projections) ────────────────

/-- The path part of a URL before any query or fragment, as
`urlparse(url).path` exposes it for the asset URLs the scripts handle. -/
def urlPathPart (url : Str) : Str :=
  (url.takeWhile (· ≠ '#')).takeWhile (· ≠ '?')

/-- `Path(p).name`: everything after the last slash. -/
def afterLastSlash (s : Str) : Str :=
  (s.reverse.takeWhile (· ≠ '/')).reverse

/-- `Path(urlparse(url).path).name`. -/
def urlBasename (url : Str) : Str := afterLastSlash (urlPathPart url)

/-- `Path(name).suffix`: the extension from the last dot, empty when the
dot is absent, leading or trailing. -/
def pathSuffix (name : Str) : Str :=
  let tailRev := name.reverse.takeWhile (· ≠ '.')
  if tailRev.length < name.length ∧ tailRev ≠ [] ∧ tailRev.length + 1 < name.length
  then '.' :: tailRev.reverse else []

-- ── The two download functions ──────────────────────────────────────────────

/-- `download_media` of `wp_migrate.py` (lines 213–233): cache key is the
URL basename; ANY existing cached file — the size is not consulted — is
returned as a hit without a download; otherwise the file is fetched
(`dlOk` tells whether the GET succeeds) and `None` is returned on
failure. -/
def download_media (fs : Str → Option Nat) (dlOk : Bool) (url : Str) :
    Option Str × List IEff :=
  match fs (urlBasename url) with
  | some _ => (some (urlBasename url), [])
  | none =>
    if dlOk then (some (urlBasename url), [.cacheWrite (urlBasename url)])
    else (none, [])

/-- The cache key of `download_image`: `{slug}{ext}` with the URL's
suffix, defaulting to `.jpg`. -/
def dlKey (url slug : Str) : Str :=
  let ext := pathSuffix (urlBasename url)
  slug ++ (if ext = [] then ".jpg".toList else ext)

/-- Whether the cached file exists and is non-empty
(`cache_path.exists() and cache_path.stat().st_size > 0`). -/
def cachedNonEmpty (fs : Str → Option Nat) (key : Str) : Bool :=
  match fs key with
  | some sz => decide (0 < sz)
  | none => false

/-- `download_image` of `wp_import_images.py` (lines 136–156): a cache hit
requires the file to exist AND be non-empty; otherwise download, and on
failure unlink the partial cache file and return `None`. -/
def download_image (fs : Str → Option Nat) (dlOk : Bool) (url slug : Str) :
    Option Str × List IEff :=
  let key := dlKey url slug
  if cachedNonEmpty fs key then (some key, [])
  else if dlOk then (some key, [.cacheWrite key])
  else (none, [.cacheUnlink key])

/-- The effects of `download_image` are cache-file effects only. -/
theorem download_image_effects (fs : Str → Option Nat) (dlOk : Bool)
    (url slug : Str) :
    ∀ e ∈ (download_image fs dlOk url slug).2,
      e = IEff.cacheWrite (dlKey url slug) ∨ e = IEff.cacheUnlink (dlKey url slug) := by
  intro e he
  unfold download_image at he
  by_cases h1 : cachedNonEmpty fs (dlKey url slug)
  · simp [h1] at he
  · by_cases h2 : dlOk
    · simp [h1, h2] at he
      simp [he]
    · cases h2' : dlOk
      · rw [h2'] at he
        simp [h1] at he
        simp [he]
      · exact absurd h2' (by simpa using h2)

-- ── The import loop of wp_import_images.py (main, lines 241–317) ────────────

/-- The MinIO object key `articles/{media_id}.jpg` for an article. -/
def objectKeyFor (w : ImgWorld) (slug : Str) : Str :=
  "articles/".toList ++ w.freshId slug ++ ".jpg".toList

/-- One iteration of the import loop (lines 241–315): skip slugs already
in the `imported` map; record fetch-misses in `skipped` (this happens even
in dry-run); in dry-run stop before downloading; otherwise download,
resize, upload to MinIO, then run the relational transaction
(insert + link + commit, rolled back as a unit on error), record the
mapping, and save the state file only on every 10th import.  Returns the
new state, the new imported counter, and the effect trace. -/
def processArticle (w : ImgWorld) (dry : Bool) (st : ImgState)
    (imported : Nat) (art : ImgArticle) : ImgState × Nat × List IEff :=
  if (alookup art.slug st.imported).isSome then (st, imported, [])
  else
    match w.fetchImg art.slug with
    | none => ({ st with skipped := st.skipped ++ [art.slug] }, imported, [])
    | some img =>
      if dry then (st, imported + 1, [])
      else
        match download_image w.fs (w.dlOk img.url) img.url art.slug with
        | (none, effs) =>
          ({ st with failed := st.failed ++ [art.slug] }, imported, effs)
        | (some localKey, effs) =>
          match w.resizeOut localKey with
          | none => ({ st with failed := st.failed ++ [art.slug] }, imported, effs)
          | some _ =>
            let mediaId := w.freshId art.slug
            let objectKey := objectKeyFor w art.slug
            if w.minioOk objectKey then
              if w.dbOk art.slug then
                let imp' := imported + 1
                ({ st with imported := (art.slug, mediaId) :: st.imported },
                  imp',
                  effs ++ [.minioPut objectKey, .dbInsert mediaId,
                    .dbLink art.slug, .dbCommit] ++
                  (if imp' % 10 = 0 then [IEff.saveState] else []))
              else
                ({ st with failed := st.failed ++ [art.slug] }, imported,
                  effs ++ [.minioPut objectKey, .dbRollback])
            else
              ({ st with failed := st.failed ++ [art.slug] }, imported,
                effs ++ [.minioPut objectKey])

/-- The article loop, threading state and the imported counter. -/
def importLoop (w : ImgWorld) (dry : Bool) (st : ImgState) (imported : Nat) :
    List ImgArticle → ImgState × Nat × List IEff
  | [] => (st, imported, [])
  | a :: rest =>
    let r := processArticle w dry st imported a
    let r2 := importLoop w dry r.1 r.2.1 rest
    (r2.1, r2.2.1, r.2.2 ++ r2.2.2)

/-- `main` of `wp_import_images.py` after argument parsing: run the loop
with a zero imported counter, then unconditionally rewrite the state file
(line 317) — also in dry-run. -/
def importImagesMain (w : ImgWorld) (dry : Bool) (st : ImgState)
    (arts : List ImgArticle) : ImgState × List IEff :=
  let r := importLoop w dry st 0 arts
  (r.1, r.2.2 ++ [.saveState])

-- ── Dry-run behaviour (claim C2) ────────────────────────────────────────────

/-- In dry-run the category loop changes nothing and emits nothing. -/
theorem categoriesLoop_dry (oracle : Nat → Option Str) (cats : List WpCat) :
    ∀ st : MigrationState, categoriesLoop oracle st cats true = (st, []) := by
  induction cats with
  | nil => intro st; rfl
  | cons cat rest ih =>
    intro st
    by_cases h1 : cat.slug = slugUncategorized
    · rw [categoriesLoop_cons_skip oracle st cat rest true (Or.inl h1)]
      exact ih st
    · cases h2 : alookup (pyStr cat.id) st.wp_categories with
      | some w =>
        rw [categoriesLoop_cons_skip oracle st cat rest true (Or.inr (by simp [h2]))]
        exact ih st
      | none =>
        rw [categoriesLoop_cons_dry oracle st cat rest h1 h2]
        exact ih st

/-- The slugs a dry image-import run appends to `skipped`: articles not
yet imported whose WordPress fetch finds no featured image. -/
def drySkips (w : ImgWorld) (impMap : List (Str × Str))
    (arts : List ImgArticle) : List Str :=
  (arts.filter fun a =>
    (alookup a.slug impMap).isNone && (w.fetchImg a.slug).isNone).map ImgArticle.slug

/-- In dry-run the import loop emits no effects, leaves `imported` and
`failed` unchanged, and appends exactly the fetch-miss slugs to
`skipped`. -/
theorem importLoop_dry (w : ImgWorld) (arts : List ImgArticle) :
    ∀ (st : ImgState) (imp : Nat),
      (importLoop w true st imp arts).1 =
        { st with skipped := st.skipped ++ drySkips w st.imported arts } ∧
      (importLoop w true st imp arts).2.2 = [] := by
  induction arts with
  | nil => intro st imp; constructor <;> simp [importLoop, drySkips]
  | cons a rest ih =>
    intro st imp
    by_cases h0 : (alookup a.slug st.imported).isSome
    · have hstep : processArticle w true st imp a = (st, imp, []) := by
        simp [processArticle, h0]
      have hfilter : drySkips w st.imported (a :: rest) = drySkips w st.imported rest := by
        simp only [drySkips, List.filter_cons]
        rw [if_neg (by
          obtain ⟨v, hv⟩ := Option.isSome_iff_exists.mp h0
          simp [hv])]
      constructor
      · show (importLoop w true st imp (a :: rest)).1 = _
        simp only [importLoop, hstep]
        rw [hfilter]
        exact (ih st imp).1
      · show (importLoop w true st imp (a :: rest)).2.2 = []
        simp only [importLoop, hstep]
        simp [(ih st imp).2]
    · have h0' : alookup a.slug st.imported = none := by
        cases hl : alookup a.slug st.imported with
        | none => rfl
        | some v => rw [hl] at h0; simp at h0
      cases hf : w.fetchImg a.slug with
      | none =>
        have hstep : processArticle w true st imp a =
            ({ st with skipped := st.skipped ++ [a.slug] }, imp, []) := by
          simp [processArticle, h0, hf]
        have hfilter : drySkips w st.imported (a :: rest) =
            a.slug :: drySkips w st.imported rest := by
          simp only [drySkips, List.filter_cons]
          rw [if_pos (by simp [h0', hf])]
          simp [drySkips]
        constructor
        · show (importLoop w true st imp (a :: rest)).1 = _
          simp only [importLoop, hstep]
          have := (ih { st with skipped := st.skipped ++ [a.slug] } imp).1
          rw [this, hfilter]
          simp [drySkips]
        · show (importLoop w true st imp (a :: rest)).2.2 = []
          simp only [importLoop, hstep]
          simp [(ih { st with skipped := st.skipped ++ [a.slug] } imp).2]
      | some img =>
        have hstep : processArticle w true st imp a = (st, imp + 1, []) := by
          simp [processArticle, h0, hf]
        have hfilter : drySkips w st.imported (a :: rest) = drySkips w st.imported rest := by
          simp only [drySkips, List.filter_cons]
          rw [if_neg (by simp [hf])]
        constructor
        · show (importLoop w true st imp (a :: rest)).1 = _
          simp only [importLoop, hstep]
          rw [hfilter]
          exact (ih st (imp + 1)).1
        · show (importLoop w true st imp (a :: rest)).2.2 = []
          simp only [importLoop, hstep]
          simp [(ih st (imp + 1)).2]

-- ── Claim C2 (corrected) ────────────────────────────────────────────────────

/-- A world in which WordPress reports no featured image for any article. -/
def noImgWorld : ImgWorld :=
  ⟨fun _ => none, fun _ => none, fun _ => false, fun _ => none,
    fun _ => false, fun _ => false, fun s => s⟩

/-- The step name of `create_wn_author`. -/
def stepAuthor : Str := "author".toList

/-- Python truthiness of `state.data["wn_author_id"]`: `None` and the
empty string are falsy. -/
def pyTruthyOpt : Option Str → Bool
  | none => false
  | some s => decide (s ≠ [])

/-- `create_wn_author` (lines 332–369 of `wp_migrate.py`): return at once
when the step is done; when an author id is already recorded, call
`mark_step` and return — BEFORE the dry-run check; otherwise a dry run
returns with no effect, and a wet run POSTs the author and on success
records the id, saves, and marks the step.  `oracle` is the id the
backend answers with, `none` for a failed POST. -/
def create_wn_author (oracle : Option Str) (st : MigrationState)
    (dry : Bool) : MigrationState × List MEffect :=
  if st.is_done stepAuthor then (st, [])
  else if pyTruthyOpt st.wn_author_id then st.mark_step stepAuthor
  else if dry then (st, [])
  else
    match oracle with
    | some wnId =>
      let r := ({ st with wn_author_id := some wnId } :
        MigrationState).mark_step stepAuthor
      (r.1, MEffect.postAuthor :: MEffect.saveFile :: r.2)
    | none => (st, [MEffect.postAuthor])

/-- Counterexample to C2 as stated, at both scripts.  In
`wp_import_images.py` a dry run over one article with no WordPress
featured image appends the slug to the persisted `skipped` list and
rewrites the state file (line 317).  In `wp_migrate.py`, a dry run of
`create_wn_author` on a ledger that already records an author id but has
not marked the `author` step (reachable by a kill between `state.save()`
and `state.mark_step` at lines 365–366) appends to `completed_steps` and
writes the state file, because `mark_step` is called at line 343 before
the dry-run check at line 355. -/
theorem c2_counterexample :
    (importImagesMain noImgWorld true ImgState.empty
        [⟨"1".toList, "a".toList, "t".toList⟩]).1.skipped ≠
      ImgState.empty.skipped ∧
    IEff.saveState ∈
      (importImagesMain noImgWorld true ImgState.empty
        [⟨"1".toList, "a".toList, "t".toList⟩]).2 ∧
    (create_wn_author none
        { MigrationState.empty with wn_author_id := some "W".toList }
        true).1.completed_steps ≠
      ({ MigrationState.empty with wn_author_id := some "W".toList } :
        MigrationState).completed_steps ∧
    MEffect.saveFile ∈
      (create_wn_author none
        { MigrationState.empty with wn_author_id := some "W".toList }
        true).2 := by
  refine ⟨by decide, by decide, by decide, by decide⟩

/-- Claim C2 amended: a dry run performs zero remote write calls in both
scripts.  In `wp_migrate.py`, `migrate_categories` under dry-run leaves
the ledger untouched and never writes the state file, but
`create_wn_author` checks dry-run only after its recorded-author
short-circuit: when an author id is recorded and the step is unmarked, a
dry run still marks the step and writes the state file, and in every
other configuration it changes nothing.  In `wp_import_images.py` a dry
run leaves `imported` and `failed` unchanged but appends articles whose
WordPress fetch finds no featured image to the `skipped` list and
rewrites the state file exactly once at the end of the run. -/
theorem c2_dry_run_behaviour (oracle : Nat → Option Str)
    (aoracle : Option Str) (stm sta : MigrationState) (cats : List WpCat)
    (w : ImgWorld) (st : ImgState) (arts : List ImgArticle) :
    migrate_categories oracle stm cats true = (stm, []) ∧
    MEffect.postAuthor ∉ (create_wn_author aoracle sta true).2 ∧
    create_wn_author aoracle sta true =
      (if sta.is_done stepAuthor = false ∧ pyTruthyOpt sta.wn_author_id = true
       then sta.mark_step stepAuthor
       else (sta, [])) ∧
    importImagesMain w true st arts =
      ({ st with skipped := st.skipped ++ drySkips w st.imported arts },
        [IEff.saveState]) ∧
    ∀ e ∈ (importImagesMain w true st arts).2, isRemoteWrite e = false := by
  have hloop := importLoop_dry w arts st 0
  have hmain : importImagesMain w true st arts =
      ({ st with skipped := st.skipped ++ drySkips w st.imported arts },
        [IEff.saveState]) := by
    simp only [importImagesMain]
    rw [hloop.2, hloop.1]
    rfl
  have hauthor : create_wn_author aoracle sta true =
      (if sta.is_done stepAuthor = false ∧ pyTruthyOpt sta.wn_author_id = true
       then sta.mark_step stepAuthor
       else (sta, [])) := by
    unfold create_wn_author
    by_cases hdone : sta.is_done stepAuthor = true
    · rw [if_pos hdone, if_neg (by simp [hdone])]
    · rw [if_neg hdone]
      by_cases htr : pyTruthyOpt sta.wn_author_id = true
      · rw [if_pos htr,
          if_pos ⟨Bool.eq_false_iff.mpr hdone, htr⟩]
      · rw [if_neg htr, if_pos rfl, if_neg (by simp [htr])]
  refine ⟨?_, ?_, hauthor, hmain, ?_⟩
  · by_cases hdone : stm.is_done stepCategories = true
    · simp [migrate_categories, hdone]
    · simp only [migrate_categories, hdone, Bool.false_eq_true, if_false,
        if_true]
      exact categoriesLoop_dry oracle cats stm
  · rw [hauthor]
    by_cases hc : sta.is_done stepAuthor = false ∧
        pyTruthyOpt sta.wn_author_id = true
    · rw [if_pos hc]
      unfold MigrationState.mark_step
      by_cases hmem : stepAuthor ∈ sta.completed_steps
      · simp [hmem]
      · simp [hmem]
    · rw [if_neg hc]
      simp
  · intro e he
    rw [hmain] at he
    simp only [List.mem_singleton] at he
    rw [he]
    rfl

/-- Witness for the amended C2 at concrete dry runs of all three
functions. -/
theorem c2_witness :
    migrate_categories (fun _ => some "X".toList) MigrationState.empty
      [⟨5, "diplomacia".toList, "Diplomacia".toList, [], 3⟩] true =
      (MigrationState.empty, []) ∧
    create_wn_author none MigrationState.empty true =
      (MigrationState.empty, []) ∧
    create_wn_author none
        { MigrationState.empty with wn_author_id := some "W".toList } true =
      ({ MigrationState.empty with
          wn_author_id := some "W".toList,
          completed_steps := [stepAuthor] }, [MEffect.saveFile]) ∧
    importImagesMain noImgWorld true ImgState.empty
        [⟨"1".toList, "a".toList, "t".toList⟩] =
      ({ ImgState.empty with skipped := ["a".toList] }, [IEff.saveState]) := by
  refine ⟨?_, ?_, ?_, ?_⟩
  · exact (c2_dry_run_behaviour (fun _ => some "X".toList) none
      MigrationState.empty MigrationState.empty
      [⟨5, "diplomacia".toList, "Diplomacia".toList, [], 3⟩] noImgWorld
      ImgState.empty []).1
  · have h := (c2_dry_run_behaviour (fun _ => some "X".toList) none
      MigrationState.empty MigrationState.empty [] noImgWorld
      ImgState.empty []).2.2.1
    rw [h]
    decide
  · have h := (c2_dry_run_behaviour (fun _ => some "X".toList) none
      MigrationState.empty
      { MigrationState.empty with wn_author_id := some "W".toList } []
      noImgWorld ImgState.empty []).2.2.1
    rw [h]
    decide
  · have h := (c2_dry_run_behaviour (fun _ => some "X".toList) none
      MigrationState.empty MigrationState.empty [] noImgWorld ImgState.empty
      [⟨"1".toList, "a".toList, "t".toList⟩]).2.2.2.1
    rw [h]
    decide

-- ── Claim C3 (corrected): persistence of new mappings ───────────────────────

/-- The claim's property for `wp_import_images.py`: between any two
committed imports the state file is saved (the mapping of the first was
persisted before the next entity completed). -/
def immediatePersist (tr : List IEff) : Prop :=
  ∀ i j : Fin tr.length, i.val < j.val →
    tr.get i = IEff.dbCommit → tr.get j = IEff.dbCommit →
    ∃ k : Fin tr.length, i.val < k.val ∧ k.val < j.val ∧ tr.get k = IEff.saveState

instance (tr : List IEff) : Decidable (immediatePersist tr) := by
  unfold immediatePersist
  infer_instance

/-- A world in which every stage succeeds for every article. -/
def allOkWorld : ImgWorld :=
  ⟨fun s => some ⟨"http://x/".toList ++ s ++ ".jpg".toList, []⟩,
    fun _ => none, fun _ => true, fun _ => some (100, 10, 10),
    fun _ => true, fun _ => true, fun s => s⟩

/-- Counterexample to C3 as stated: a run of `wp_import_images.py` over
two articles that both import successfully commits the second import with
no state-file save after the first commit — the mapping is only persisted
by the every-10th-import save (line 312) or the final save (line 317), so
persistence is batched, not immediate. -/
theorem c3_counterexample :
    ¬ immediatePersist
      (importImagesMain allOkWorld false ImgState.empty
        [⟨"1".toList, "a".toList, "t".toList⟩,
          ⟨"2".toList, "b".toList, "t".toList⟩]).2 := by
  decide

/-- In a trace the element after any `mapInsert` is a `saveFile`, and the
trace does not end in a `mapInsert`. -/
def persistPattern (tr : List MEffect) : Prop :=
  (∀ (i : Nat) (k v : Str), tr[i]? = some (MEffect.mapInsert k v) →
    tr[i + 1]? = some MEffect.saveFile) ∧
  (∀ k v : Str, tr.getLast? ≠ some (MEffect.mapInsert k v))

theorem persistPattern_nil : persistPattern [] := by
  constructor
  · intro i k v h
    simp at h
  · intro k v
    simp

theorem persistPattern_append {b t : List MEffect} (hb : persistPattern b)
    (ht : persistPattern t) : persistPattern (b ++ t) := by
  constructor
  · intro i k v h
    by_cases hi : i < b.length
    · by_cases hi1 : i + 1 < b.length
      · rw [List.getElem?_append_left hi] at h
        rw [List.getElem?_append_left hi1]
        exact hb.1 i k v h
      · have hieq : i + 1 = b.length := by omega
        rw [List.getElem?_append_left hi] at h
        exfalso
        have hbne : b ≠ [] := by
          intro hb0
          rw [hb0] at hi
          simp at hi
        have hlast : b.getLast? = b[b.length - 1]? := List.getLast?_eq_getElem? b
        have : b.getLast? = some (MEffect.mapInsert k v) := by
          rw [hlast]
          have : b.length - 1 = i := by omega
          rw [this]
          exact h
        exact hb.2 k v this
    · have hi' : b.length ≤ i := by omega
      rw [List.getElem?_append_right hi'] at h
      rw [List.getElem?_append_right (by omega : b.length ≤ i + 1)]
      have : i + 1 - b.length = (i - b.length) + 1 := by omega
      rw [this]
      exact ht.1 (i - b.length) k v h
  · intro k v
    rcases ht' : t with _ | ⟨x, xs⟩
    · simpa using hb.2 k v
    · rw [← ht']
      have htne : t ≠ [] := by rw [ht']; simp
      rw [List.getLast?_append_of_ne_nil b htne]
      exact ht.2 k v

theorem persistPattern_block_ok (i : Nat) (k v : Str) :
    persistPattern [MEffect.postCategory i, MEffect.mapInsert k v,
      MEffect.saveFile] := by
  constructor
  · intro n k' v' h
    match n with
    | 0 => simp at h
    | 1 => rfl
    | 2 => simp at h
    | n + 3 => simp at h
  · intro k' v'
    simp [List.getLast?]

theorem persistPattern_block_err (i : Nat) :
    persistPattern [MEffect.postCategory i] := by
  constructor
  · intro n k' v' h
    match n with
    | 0 => simp at h
    | n + 1 => simp at h
  · intro k' v'
    simp [List.getLast?]

theorem persistPattern_block_save : persistPattern [MEffect.saveFile] := by
  constructor
  · intro n k' v' h
    match n with
    | 0 => simp at h
    | n + 1 => simp at h
  · intro k' v'
    simp [List.getLast?]

/-- The category loop saves the state file immediately after every
mapping insertion. -/
theorem categoriesLoop_persist (oracle : Nat → Option Str) (cats : List WpCat)
    (dry : Bool) : ∀ st : MigrationState,
    persistPattern (categoriesLoop oracle st cats dry).2 := by
  induction cats with
  | nil => intro st; exact persistPattern_nil
  | cons cat rest ih =>
    intro st
    by_cases h1 : cat.slug = slugUncategorized
    · rw [categoriesLoop_cons_skip oracle st cat rest dry (Or.inl h1)]
      exact ih st
    · cases h2 : alookup (pyStr cat.id) st.wp_categories with
      | some w =>
        rw [categoriesLoop_cons_skip oracle st cat rest dry (Or.inr (by simp [h2]))]
        exact ih st
      | none =>
        cases dry with
        | true =>
          rw [categoriesLoop_cons_dry oracle st cat rest h1 h2]
          exact ih st
        | false =>
          cases horc : oracle cat.id with
          | some wnId =>
            rw [categoriesLoop_cons_ok oracle st cat rest wnId h1 h2 horc]
            exact persistPattern_append (persistPattern_block_ok cat.id _ wnId)
              (ih _)
          | none =>
            rw [categoriesLoop_cons_err oracle st cat rest h1 h2 horc]
            have := persistPattern_append (persistPattern_block_err cat.id) (ih st)
            simpa using this

/-- Claim C3 amended: in `wp_migrate.py` every new mapping is persisted
immediately — in any `migrate_categories` trace each in-memory map
insertion is followed at once by a state-file save, before any further
work; in `wp_import_images.py` mappings are persisted in batches: the
state file is saved only after every 10th successful import and once at
the end of the run (so a kill can lose up to ten mappings). -/
theorem c3_persistence (oracle : Nat → Option Str) (st : MigrationState)
    (cats : List WpCat) (dry : Bool) (w : ImgWorld) (ist : ImgState)
    (arts : List ImgArticle) (dry2 : Bool) :
    persistPattern (migrate_categories oracle st cats dry).2 ∧
    ∃ b, (importImagesMain w dry2 ist arts).2 = b ++ [IEff.saveState] := by
  constructor
  · by_cases hdone : st.is_done stepCategories = true
    · simp only [migrate_categories, hdone, if_true]
      exact persistPattern_nil
    · simp only [migrate_categories, hdone, Bool.false_eq_true, if_false]
      cases dry with
      | true =>
        simp only [if_true]
        exact categoriesLoop_persist oracle cats true st
      | false =>
        simp only [Bool.false_eq_true, if_false]
        refine persistPattern_append (categoriesLoop_persist oracle cats false st) ?_
        unfold MigrationState.mark_step
        by_cases hm : stepCategories ∈
            (categoriesLoop oracle st cats false).1.completed_steps
        · simp only [hm, if_true]
          exact persistPattern_nil
        · simp only [hm, if_false]
          exact persistPattern_block_save
  · exact ⟨(importLoop w dry2 ist 0 arts).2.2, rfl⟩

/-- Witness for the amended C3: in a concrete successful category
migration the effect right after the map insertion is the save. -/
theorem c3_witness :
    (migrate_categories (fun _ => some "X".toList) MigrationState.empty
        [⟨5, "diplomacia".toList, "Diplomacia".toList, [], 3⟩] false).2[2]? =
      some MEffect.saveFile := by
  exact (c3_persistence (fun _ => some "X".toList) MigrationState.empty
    [⟨5, "diplomacia".toList, "Diplomacia".toList, [], 3⟩] false
    allOkWorld ImgState.empty [] false).1.1 1 (pyStr 5) "X".toList (by decide)

-- ── Claim C4: publish ordering and failure frame ────────────────────────────

/-- Claim C4: in the media publish sequence the object-store write comes
before the relational insert (any `dbInsert` in the trace sits after a
`minioPut`); when the object-store write fails no relational record is
inserted; and the `imported` map changes only on complete success of the
download/resize/object-store/database sequence — any failure leaves it
unchanged. -/
theorem c4_publish_order_and_frame (w : ImgWorld) (st : ImgState)
    (imported : Nat) (art : ImgArticle) :
    (∀ id : Str,
      IEff.dbInsert id ∈ (processArticle w false st imported art).2.2 →
      ∃ pre post, (processArticle w false st imported art).2.2 =
        pre ++ IEff.minioPut (objectKeyFor w art.slug) :: post ∧
        IEff.dbInsert id ∈ post) ∧
    (w.minioOk (objectKeyFor w art.slug) = false →
      ∀ id : Str, IEff.dbInsert id ∉ (processArticle w false st imported art).2.2) ∧
    ((processArticle w false st imported art).1.imported = st.imported ∨
      ((processArticle w false st imported art).1.imported =
          (art.slug, w.freshId art.slug) :: st.imported ∧
        w.minioOk (objectKeyFor w art.slug) = true ∧ w.dbOk art.slug = true ∧
        IEff.dbCommit ∈ (processArticle w false st imported art).2.2)) := by
  by_cases h0 : (alookup art.slug st.imported).isSome
  · have hres : processArticle w false st imported art = (st, imported, []) := by
      simp [processArticle, h0]
    rw [hres]
    refine ⟨?_, ?_, Or.inl rfl⟩
    · intro id hid; simp at hid
    · intro hm id hid; simp at hid
  · cases hf : w.fetchImg art.slug with
    | none =>
      have hres : processArticle w false st imported art =
          ({ st with skipped := st.skipped ++ [art.slug] }, imported, []) := by
        simp [processArticle, h0, hf]
      rw [hres]
      refine ⟨?_, ?_, Or.inl rfl⟩
      · intro id hid; simp at hid
      · intro hm id hid; simp at hid
    | some img =>
      have heffs := download_image_effects w.fs (w.dlOk img.url) img.url art.slug
      have hnoins : ∀ id : Str,
          IEff.dbInsert id ∉ (download_image w.fs (w.dlOk img.url) img.url art.slug).2 := by
        intro id hid
        rcases heffs _ hid with h | h <;> exact IEff.noConfusion h
      rcases hdl : download_image w.fs (w.dlOk img.url) img.url art.slug with ⟨o, effs⟩
      rw [hdl] at hnoins
      cases o with
      | none =>
        have hres : processArticle w false st imported art =
            ({ st with failed := st.failed ++ [art.slug] }, imported, effs) := by
          simp [processArticle, h0, hf, hdl]
        rw [hres]
        refine ⟨?_, ?_, Or.inl rfl⟩
        · intro id hid
          exact absurd hid (hnoins id)
        · intro hm id hid
          exact absurd hid (hnoins id)
      | some localKey =>
        cases hrz : w.resizeOut localKey with
        | none =>
          have hres : processArticle w false st imported art =
              ({ st with failed := st.failed ++ [art.slug] }, imported, effs) := by
            simp [processArticle, h0, hf, hdl, hrz]
          rw [hres]
          refine ⟨?_, ?_, Or.inl rfl⟩
          · intro id hid
            exact absurd hid (hnoins id)
          · intro hm id hid
            exact absurd hid (hnoins id)
        | some dims =>
          by_cases hm : w.minioOk (objectKeyFor w art.slug)
          · by_cases hdb : w.dbOk art.slug
            · have hres : processArticle w false st imported art =
                  ({ st with imported := (art.slug, w.freshId art.slug) :: st.imported },
                    imported + 1,
                    effs ++ [.minioPut (objectKeyFor w art.slug),
                      .dbInsert (w.freshId art.slug), .dbLink art.slug, .dbCommit] ++
                    (if (imported + 1) % 10 = 0 then [IEff.saveState] else [])) := by
                simp [processArticle, h0, hf, hdl, hrz, hm, hdb]
              rw [hres]
              refine ⟨?_, ?_, ?_⟩
              · intro id hid
                refine ⟨effs, [IEff.dbInsert (w.freshId art.slug), IEff.dbLink art.slug,
                  IEff.dbCommit] ++ (if (imported + 1) % 10 = 0 then [IEff.saveState] else []),
                  by simp, ?_⟩
                simp only [List.append_assoc, List.mem_append] at hid
                rcases hid with hid | hid
                · exact absurd hid (hnoins id)
                · simp only [List.mem_append] at hid ⊢
                  rcases hid with hid | hid
                  · left
                    simpa using hid
                  · right
                    exact hid
              · intro hmf
                rw [hm] at hmf
                exact absurd hmf (by simp)
              · right
                refine ⟨rfl, hm, (by simpa using hdb), ?_⟩
                simp
            · have hres : processArticle w false st imported art =
                  ({ st with failed := st.failed ++ [art.slug] }, imported,
                    effs ++ [.minioPut (objectKeyFor w art.slug), .dbRollback]) := by
                simp [processArticle, h0, hf, hdl, hrz, hm, hdb]
              rw [hres]
              refine ⟨?_, ?_, Or.inl rfl⟩
              · intro id hid
                simp only [List.mem_append, List.mem_cons] at hid
                rcases hid with hid | hid | hid | hid
                · exact absurd hid (hnoins id)
                · exact IEff.noConfusion hid
                · exact IEff.noConfusion hid
                · simp at hid
              · intro hmf
                rw [hm] at hmf
                exact absurd hmf (by simp)
          · have hres : processArticle w false st imported art =
                ({ st with failed := st.failed ++ [art.slug] }, imported,
                  effs ++ [.minioPut (objectKeyFor w art.slug)]) := by
              simp [processArticle, h0, hf, hdl, hrz, hm]
            rw [hres]
            refine ⟨?_, ?_, Or.inl rfl⟩
            · intro id hid
              simp only [List.mem_append, List.mem_cons] at hid
              rcases hid with hid | hid | hid
              · exact absurd hid (hnoins id)
              · exact IEff.noConfusion hid
              · simp at hid
            · intro hmf id hid
              simp only [List.mem_append, List.mem_cons] at hid
              rcases hid with hid | hid | hid
              · exact absurd hid (hnoins id)
              · exact IEff.noConfusion hid
              · simp at hid

/-- A world identical to `allOkWorld` except that the object-store write
fails. -/
def minioFailWorld : ImgWorld :=
  { allOkWorld with minioOk := fun _ => false }

/-- Witness for C4: with a failing object store no relational insert
happens for a concrete article. -/
theorem c4_witness :
    IEff.dbInsert "a".toList ∉
      (processArticle minioFailWorld false ImgState.empty 0
        ⟨"1".toList, "a".toList, "t".toList⟩).2.2 := by
  exact (c4_publish_order_and_frame minioFailWorld ImgState.empty 0
    ⟨"1".toList, "a".toList, "t".toList⟩).2.1 (by decide) "a".toList

-- ── Claim C5 (corrected): cache-hit semantics of the two downloads ──────────

/-- The cache directory of the counterexample: the asset's cached file
exists but is zero bytes. -/
def zeroByteCache : Str → Option Nat :=
  fun k => if k = "img.jpg".toList then some 0 else none

/-- Counterexample to C5 as stated: `download_media` of `wp_migrate.py`
returns the cached path with no download for a cached file of size zero —
a zero-byte cached file IS treated as a cache hit there, so the claimed
"exactly when the cached file exists and is non-empty" fails on the code. -/
theorem c5_counterexample :
    ¬ (∀ (fs : Str → Option Nat) (dlOk : Bool) (url : Str),
        download_media fs dlOk url = (some (urlBasename url), []) ↔
          cachedNonEmpty fs (urlBasename url) = true) := by
  intro h
  have hhit : download_media zeroByteCache false "http://x/img.jpg".toList =
      (some (urlBasename "http://x/img.jpg".toList), []) := by decide
  have := (h zeroByteCache false "http://x/img.jpg".toList).mp hhit
  have hne : cachedNonEmpty zeroByteCache (urlBasename "http://x/img.jpg".toList) =
      false := by decide
  rw [this] at hne
  exact Bool.noConfusion hne

/-- Claim C5 amended: `download_image` of `wp_import_images.py` skips the
download and returns the cached path exactly when the cached file exists
and is non-empty (zero-byte files are re-downloaded), while
`download_media` of `wp_migrate.py` treats ANY existing cached file —
including a zero-byte one — as a hit. -/
theorem c5_cache_hit_semantics (fs : Str → Option Nat) (dlOk : Bool)
    (url slug : Str) :
    (download_image fs dlOk url slug = (some (dlKey url slug), []) ↔
      cachedNonEmpty fs (dlKey url slug) = true) ∧
    (download_media fs dlOk url = (some (urlBasename url), []) ↔
      (fs (urlBasename url)).isSome = true) := by
  constructor
  · constructor
    · intro h
      by_cases hc : cachedNonEmpty fs (dlKey url slug) = true
      · exact hc
      · exfalso
        unfold download_image at h
        rw [if_neg hc] at h
        by_cases hd : dlOk
        · rw [if_pos hd] at h
          have := congrArg Prod.snd h
          simp at this
        · rw [if_neg hd] at h
          have := congrArg Prod.fst h
          simp at this
    · intro hc
      unfold download_image
      rw [if_pos hc]
  · constructor
    · intro h
      unfold download_media at h
      cases hfs : fs (urlBasename url) with
      | some sz => simp
      | none =>
        exfalso
        rw [hfs] at h
        by_cases hd : dlOk
        · rw [if_pos hd] at h
          have := congrArg Prod.snd h
          simp at this
        · rw [if_neg hd] at h
          have := congrArg Prod.fst h
          simp at this
    · intro hc
      obtain ⟨sz, hsz⟩ := Option.isSome_iff_exists.mp hc
      unfold download_media
      rw [hsz]

/-- Witness for the amended C5: a zero-byte cached file is a hit for
`download_media` but not for `download_image`. -/
theorem c5_witness :
    download_media zeroByteCache false "http://x/img.jpg".toList =
      (some "img.jpg".toList, []) ∧
    ¬ download_image (fun k => if k = "a.jpg".toList then some 0 else none) false
        "http://x/z.jpg".toList "a".toList =
      (some (dlKey "http://x/z.jpg".toList "a".toList), []) := by
  constructor
  · have h := (c5_cache_hit_semantics zeroByteCache false
      "http://x/img.jpg".toList "a".toList).2.mpr (by decide)
    have hbase : urlBasename "http://x/img.jpg".toList = "img.jpg".toList := by decide
    rw [hbase] at h
    exact h
  · intro hcontra
    have h := (c5_cache_hit_semantics
      (fun k => if k = "a.jpg".toList then some 0 else none) false
      "http://x/z.jpg".toList "a".toList).1.mp hcontra
    have : cachedNonEmpty (fun k => if k = "a.jpg".toList then some 0 else none)
        (dlKey "http://x/z.jpg".toList "a".toList) = false := by decide
    rw [h] at this
    exact Bool.noConfusion this

-- ── HTML model for wp_clean_html / wp_extract_excerpt ───────────────────────
-- `wp_clean_html` parses with BeautifulSoup, unwraps Divi wrapper divs,
-- decomposes empty divs, re-serializes, collapses runs of 3+ newlines and
-- strips the result; `wp_extract_excerpt` extracts space-separated text.
-- The parse/serialize of the html.parser backend is modelled explicitly:
-- documents are forests of text and element nodes, elements carry their
-- tag and class list (the only attribute the cleaning logic inspects),
-- text is entity-escaped on output (&amp; &lt; &gt;) and decoded on
-- input, and the parser is total (lenient) on arbitrary strings.

/-- Lower-case ASCII letter (the tag names the parser accepts). -/
def isLowerAlpha (c : Char) : Bool := 'a' ≤ c && c ≤ 'z'

/-- Boolean prefix test. -/
def startsWith : Str → Str → Bool
  | [], _ => true
  | _ :: _, [] => false
  | p :: ps, c :: cs => p = c && startsWith ps cs

/-- Boolean substring test. -/
def containsSub (pat : Str) : Str → Bool
  | [] => startsWith pat []
  | c :: rest => startsWith pat (c :: rest) || containsSub pat rest

/-- Entity-escape one character as BeautifulSoup's serializer does. -/
def escChar (c : Char) : Str :=
  if c = '&' then "&amp;".toList
  else if c = '<' then "&lt;".toList
  else if c = '>' then "&gt;".toList
  else [c]

/-- Entity-escape a text. -/
def escape : Str → Str
  | [] => []
  | c :: s => escChar c ++ escape s

/-- Decode the three entities the serializer produces; anything else is
kept literally. -/
def decodeEnt : Str → Str
  | [] => []
  | '&' :: 'a' :: 'm' :: 'p' :: ';' :: r => '&' :: decodeEnt r
  | '&' :: 'l' :: 't' :: ';' :: r => '<' :: decodeEnt r
  | '&' :: 'g' :: 't' :: ';' :: r => '>' :: decodeEnt r
  | c :: rest => c :: decodeEnt rest

theorem length_dropWhile_le (p : Char → Bool) (l : Str) :
    (l.dropWhile p).length ≤ l.length := by
  induction l with
  | nil => simp [List.dropWhile]
  | cons c rest ih =>
    rw [List.dropWhile_cons]
    by_cases h : p c
    · simp [h]; omega
    · simp [h]

/-- The output for a pending newline run: a run of three or more is
replaced by exactly two. -/
def nlOut (k : Nat) : Str := List.replicate (min k 2) '\n'

/-- Newline-run collapsing as a character scan with a pending-run
counter. -/
def collapseAux (pending : Nat) : Str → Str
  | [] => nlOut pending
  | c :: rest =>
    if c = '\n' then collapseAux (pending + 1) rest
    else nlOut pending ++ c :: collapseAux 0 rest

/-- `re.sub(r"\n{3,}", "\n\n", text)`: replace every maximal run of three
or more newlines by exactly two. -/
def collapseNl (s : Str) : Str := collapseAux 0 s

-- ── The document forest ─────────────────────────────────────────────────────

mutual
/-- One node of a parsed HTML document: a text run or an element with its
tag, class list and children. -/
inductive HNode where
  | htext (s : Str) : HNode
  | helem (tag : Str) (cls : List Str) (children : HForest) : HNode
deriving Repr, DecidableEq
/-- A forest of sibling nodes. -/
inductive HForest where
  | hnil : HForest
  | hcons (hd : HNode) (tl : HForest) : HForest
deriving Repr, DecidableEq
end

/-- Forest concatenation. -/
def happend : HForest → HForest → HForest
  | .hnil, g => g
  | .hcons n tl, g => .hcons n (happend tl g)

/-- Mutual induction over nodes and forests. -/
theorem hdoc_mutual_ind (PN : HNode → Prop) (PF : HForest → Prop)
    (h1 : ∀ s, PN (.htext s))
    (h2 : ∀ t c ch, PF ch → PN (.helem t c ch))
    (h3 : PF .hnil)
    (h4 : ∀ n tl, PN n → PF tl → PF (.hcons n tl)) :
    (∀ n, PN n) ∧ (∀ f, PF f) :=
  ⟨fun n => HNode.rec h1 h2 h3 h4 n, fun f => HForest.rec h1 h2 h3 h4 f⟩

-- ── The BeautifulSoup operations used by wp_clean_html ──────────────────────

/-- `re.compile(r"et_pb_")` matched against a class list: some class
contains `et_pb_` as a substring. -/
def hasEtPb (cls : List Str) : Bool :=
  cls.any (fun w => containsSub "et_pb_".toList w)

/-- A text with at least one non-whitespace character
(`get_text(strip=True)` is non-empty). -/
def hasSolid (s : Str) : Bool := s.any (fun c => !pyIsSpace c)

mutual
/-- Whether the node's subtree has solid (non-whitespace) text. -/
def solidN : HNode → Bool
  | .htext s => hasSolid s
  | .helem _ _ ch => solidF ch
/-- Whether some node of the forest has solid text. -/
def solidF : HForest → Bool
  | .hnil => false
  | .hcons n tl => solidN n || solidF tl
end

mutual
/-- Whether the node's subtree contains an `img` element
(`div.find("img")` on the children succeeds). -/
def imgN : HNode → Bool
  | .htext _ => false
  | .helem tag _ ch => decide (tag = "img".toList) || imgF ch
/-- Whether some node of the forest contains an `img` element. -/
def imgF : HForest → Bool
  | .hnil => false
  | .hcons n tl => imgN n || imgF tl
end

mutual
/-- `div.unwrap()` over every div whose class matches `et_pb_`
(`find_all` finds them all, outermost first, and unwrap keeps children,
so the net effect is this recursive splice). -/
def unwrapN : HNode → HForest
  | .htext s => .hcons (.htext s) .hnil
  | .helem tag cls ch =>
    if tag = "div".toList ∧ hasEtPb cls then unwrapF ch
    else .hcons (.helem tag cls (unwrapF ch)) .hnil
/-- `unwrapN` over a forest. -/
def unwrapF : HForest → HForest
  | .hnil => .hnil
  | .hcons n tl => happend (unwrapN n) (unwrapF tl)
end

mutual
/-- `div.decompose()` over every div with neither solid text nor an img
descendant (document order evaluates each div's condition before its own
subtree is touched, so the condition reads the original children). -/
def remEmptyN : HNode → HForest
  | .htext s => .hcons (.htext s) .hnil
  | .helem tag cls ch =>
    if tag = "div".toList ∧ solidF ch = false ∧ imgF ch = false then .hnil
    else .hcons (.helem tag cls (remEmptyF ch)) .hnil
/-- `remEmptyN` over a forest. -/
def remEmptyF : HForest → HForest
  | .hnil => .hnil
  | .hcons n tl => happend (remEmptyN n) (remEmptyF tl)
end

-- ── Serializer (str(soup)) ──────────────────────────────────────────────────

/-- Join strings with a single separating space. -/
def joinSpace : List Str → Str
  | [] => []
  | [w] => w
  | w :: rest => w ++ ' ' :: joinSpace rest

/-- The serialized class attribute, empty when there are no classes. -/
def clsAttr (cls : List Str) : Str :=
  if cls = [] then []
  else " class=\"".toList ++ joinSpace cls ++ "\"".toList

mutual
/-- Serialize one node: escaped text, or `<tag class="…">…</tag>`. -/
def serNode : HNode → Str
  | .htext s => escape s
  | .helem tag cls ch =>
    '<' :: (tag ++ clsAttr cls ++ ['>']) ++ serForest ch ++
      ('<' :: '/' :: (tag ++ ['>']))
/-- Serialize a forest. -/
def serForest : HForest → Str
  | .hnil => []
  | .hcons n tl => serNode n ++ serForest tl
end

-- ── Parser (html.parser) ────────────────────────────────────────────────────

/-- Split on whitespace runs, dropping empties (`class` attribute value →
class list). -/
def splitWsAux (cur : Str) : Str → List Str
  | [] => if cur = [] then [] else [cur.reverse]
  | c :: rest =>
    if pyIsSpace c then
      if cur = [] then splitWsAux [] rest
      else cur.reverse :: splitWsAux [] rest
    else splitWsAux (c :: cur) rest

/-- Python `str.split()` on whitespace. -/
def splitOnWs (s : Str) : List Str := splitWsAux [] s

/-- Parse what follows a tag name: either `>` directly, or whitespace and
a single `class="…"` attribute and `>`.  Returns the class list and the
rest after `>`; `none` makes the opening `<` literal text. -/
def parseAttrs (s : Str) : Option (List Str × Str) :=
  match s with
  | '>' :: r => some ([], r)
  | c :: rest =>
    if pyIsSpace c then
      if startsWith "class=\"".toList ((c :: rest).dropWhile pyIsSpace) then
        match (((c :: rest).dropWhile pyIsSpace).drop 7).dropWhile
            (· ≠ '"') with
        | '"' :: '>' :: r4 =>
          some (splitOnWs ((((c :: rest).dropWhile pyIsSpace).drop 7).takeWhile
            (· ≠ '"')), r4)
        | _ => none
      else none
    else none
  | [] => none

/-- Try to read an opening tag at `s` (which begins with `<`): a
non-empty lower-case name and its attributes. -/
def tryTag (s : Str) : Option (Str × List Str × Str) :=
  match s with
  | '<' :: rest =>
    if rest.takeWhile isLowerAlpha = [] then none
    else
      match parseAttrs (rest.dropWhile isLowerAlpha) with
      | some (cls, r2) => some (rest.takeWhile isLowerAlpha, cls, r2)
      | none => none
  | _ => none

/-- Consume a closing tag `</…>` when one starts here. -/
def consumeClose (s : Str) : Str :=
  match s with
  | '<' :: '/' :: rest => (rest.dropWhile (· ≠ '>')).drop 1
  | _ => s

/-- Prepend a text onto a forest, merging with a leading text node and
dropping empty text. -/
def consTextF (s : Str) (f : HForest) : HForest :=
  if s = [] then f
  else
    match f with
    | .hcons (.htext s2) tl => .hcons (.htext (s ++ s2)) tl
    | _ => .hcons (.htext s) f

/-- Parse a sibling sequence until a closing tag or the end of input,
with explicit fuel (any fuel above the input length is enough).  A `<`
that does not open a well-formed tag is literal text; text runs are
entity-decoded. -/
def parseMany : Nat → Str → HForest × Str
  | 0, s => (.hnil, s)
  | fuel + 1, s =>
    match s with
    | [] => (.hnil, [])
    | c :: rest =>
      if c = '<' then
        if rest.head? = some '/' then (.hnil, c :: rest)
        else
          match tryTag (c :: rest) with
          | some (name, cls, afterGt) =>
            let inner := parseMany fuel afterGt
            let outer := parseMany fuel (consumeClose inner.2)
            (.hcons (.helem name cls inner.1) outer.1, outer.2)
          | none =>
            let r := parseMany fuel rest
            (consTextF ['<'] r.1, r.2)
      else
        let r := parseMany fuel ((c :: rest).dropWhile (· ≠ '<'))
        (consTextF (decodeEnt ((c :: rest).takeWhile (· ≠ '<'))) r.1, r.2)

/-- Top-level parse: stray closing tags are discarded and parsing
continues, as html.parser does. -/
def parseTop : Nat → Str → HForest
  | 0, _ => .hnil
  | fuel + 1, s =>
    let r := parseMany (fuel + 1) s
    match r.2 with
    | [] => r.1
    | rest => happend r.1 (parseTop fuel (consumeClose rest))

/-- `BeautifulSoup(s, "html.parser")`. -/
def parseDoc (s : Str) : HForest := parseTop (s.length + 1) s

-- ── wp_clean_html and wp_extract_excerpt ────────────────────────────────────

/-- `wp_clean_html` (lines 179–197 of `wp_migrate.py`): empty input maps
to the empty string; otherwise parse, unwrap Divi wrapper divs, decompose
empty divs, serialize, collapse newline runs, strip. -/
def wp_clean_html (html : Str) : Str :=
  if html = [] then []
  else pyStrip (collapseNl (serForest (remEmptyF (unwrapF (parseDoc html)))))

mutual
/-- The text fragments of a node in document order. -/
def textsN : HNode → List Str
  | .htext s => [s]
  | .helem _ _ ch => textsF ch
/-- The text fragments of a forest in document order. -/
def textsF : HForest → List Str
  | .hnil => []
  | .hcons n tl => textsN n ++ textsF tl
end

/-- `soup.get_text(separator=" ", strip=True)`: each fragment stripped,
empties dropped, the rest joined with one space. -/
def get_text_sep (f : HForest) : Str :=
  joinSpace (((textsF f).map pyStrip).filter (fun w => !w.isEmpty))

/-- `s.rsplit(" ", 1)[0]`: everything before the last space, or the whole
string when there is none. -/
def pyRsplitFirst (s : Str) : Str :=
  if ' ' ∈ s then ((s.reverse.dropWhile (· ≠ ' ')).drop 1).reverse
  else s

/-- `wp_extract_excerpt` (lines 200–208 of `wp_migrate.py`): plain text of
the parsed content; when longer than `maxLen`, truncate to `maxLen`, drop
the final partial word at the last space, and append the marker. -/
def wp_extract_excerpt (content : Str) (maxLen : Nat) : Str :=
  if content = [] then []
  else
    let text := get_text_sep (parseDoc content)
    if maxLen < text.length then
      pyRsplitFirst (text.take maxLen) ++ "...".toList
    else text

-- ── Claim C7 (corrected): excerpt truncation ────────────────────────────────

/-- `dropWhile` of a list containing the sought character starts with that
character. -/
theorem dropWhile_ne_mem {a : Char} {l : Str} (h : a ∈ l) :
    ∃ tl, l.dropWhile (· ≠ a) = a :: tl := by
  induction l with
  | nil => simp at h
  | cons c rest ih =>
    by_cases hc : c = a
    · subst hc
      exact ⟨rest, by simp [List.dropWhile_cons]⟩
    · have hmem : a ∈ rest := by
        rcases List.mem_cons.mp h with h' | h'
        · exact absurd h'.symm hc
        · exact h'
      obtain ⟨tl, htl⟩ := ih hmem
      refine ⟨tl, ?_⟩
      simp only [List.dropWhile_cons]
      rw [if_pos (by simp [hc])]
      exact htl

/-- When the string contains a space, `rsplit(" ", 1)[0]` is the prefix
before the last space: the string decomposes as prefix, the space, and the
spaceless tail. -/
theorem pyRsplitFirst_boundary {s : Str} (h : ' ' ∈ s) :
    s = pyRsplitFirst s ++ ' ' :: (s.reverse.takeWhile (· ≠ ' ')).reverse := by
  have hrev : ' ' ∈ s.reverse := by simpa using h
  obtain ⟨tl, htl⟩ := dropWhile_ne_mem hrev
  have hsplit : s.reverse.takeWhile (· ≠ ' ') ++ s.reverse.dropWhile (· ≠ ' ') =
      s.reverse := List.takeWhile_append_dropWhile _ _
  have hs : s = (s.reverse.takeWhile (· ≠ ' ') ++ ' ' :: tl).reverse := by
    rw [← htl, hsplit, List.reverse_reverse]
  have hrsp : pyRsplitFirst s = tl.reverse := by
    unfold pyRsplitFirst
    rw [if_pos h, htl]
    simp
  rw [hrsp]
  conv_lhs => rw [hs]
  simp

/-- `rsplit(" ", 1)[0]` never lengthens the string. -/
theorem pyRsplitFirst_length (s : Str) :
    (pyRsplitFirst s).length ≤ s.length := by
  by_cases h : ' ' ∈ s
  · have := pyRsplitFirst_boundary h
    have hlen := congrArg List.length this
    simp only [List.length_append, List.length_cons] at hlen
    omega
  · unfold pyRsplitFirst
    rw [if_neg h]

/-- Claim C7 amended: when the extracted plain text is longer than
`maxLen`, the excerpt is at most `maxLen` plus the three-character marker;
and whenever the truncated prefix contains a space the result ends at a
word boundary — the kept text is a prefix of the plain text whose next
character is a space.  (When the prefix contains no space the whole
prefix is kept, possibly cutting a word.) -/
theorem c7_excerpt_truncation (content : Str) (maxLen : Nat)
    (hlong : maxLen < (get_text_sep (parseDoc content)).length) :
    (wp_extract_excerpt content maxLen).length ≤ maxLen + 3 ∧
    (' ' ∈ (get_text_sep (parseDoc content)).take maxLen →
      ∃ w rest, wp_extract_excerpt content maxLen = w ++ "...".toList ∧
        get_text_sep (parseDoc content) = w ++ ' ' :: rest) := by
  have hcne : content ≠ [] := by
    intro hc
    subst hc
    have : get_text_sep (parseDoc []) = [] := by decide
    rw [this] at hlong
    simp at hlong
  have hres : wp_extract_excerpt content maxLen =
      pyRsplitFirst ((get_text_sep (parseDoc content)).take maxLen) ++
        "...".toList := by
    unfold wp_extract_excerpt
    rw [if_neg hcne, if_pos hlong]
  constructor
  · rw [hres]
    have h1 := pyRsplitFirst_length ((get_text_sep (parseDoc content)).take maxLen)
    have h2 : ((get_text_sep (parseDoc content)).take maxLen).length ≤ maxLen := by
      simp
    simp only [List.length_append]
    have : ("...".toList).length = 3 := by decide
    omega
  · intro hsp
    refine ⟨pyRsplitFirst ((get_text_sep (parseDoc content)).take maxLen),
      ((((get_text_sep (parseDoc content)).take maxLen).reverse.takeWhile
        (· ≠ ' ')).reverse ++ (get_text_sep (parseDoc content)).drop maxLen),
      hres, ?_⟩
    conv_lhs => rw [← List.take_append_drop maxLen (get_text_sep (parseDoc content))]
    conv_lhs => rw [pyRsplitFirst_boundary hsp]
    simp

/-- The claim's word-boundary property: the result is a prefix of the
plain text with the marker appended, ending either at the end of the text
or right before a space. -/
def endsAtWordBoundary (text res : Str) : Prop :=
  ∃ w rest, res = w ++ "...".toList ∧ text = w ++ rest ∧
    (rest = [] ∨ ∃ rest2, rest = ' ' :: rest2)

/-- Counterexample to C7 as stated: when the first `maxLen` characters of
the plain text contain no space, the whole prefix is kept and the marker
appended mid-word — on the single 8-letter word `abcdefgh` with
`maxLen = 5` the excerpt is `abcde...`, cutting the word in the middle. -/
theorem c7_counterexample :
    wp_extract_excerpt "abcdefgh".toList 5 = "abcde...".toList ∧
    ¬ endsAtWordBoundary (get_text_sep (parseDoc "abcdefgh".toList))
        (wp_extract_excerpt "abcdefgh".toList 5) := by
  have htext : get_text_sep (parseDoc "abcdefgh".toList) = "abcdefgh".toList := by
    decide
  have hval : wp_extract_excerpt "abcdefgh".toList 5 = "abcde...".toList := by
    decide
  refine ⟨hval, ?_⟩
  intro ⟨w, rest, h1, h2, h3⟩
  rw [hval] at h1
  rw [htext] at h2
  have h1' : w ++ "...".toList = "abcde".toList ++ "...".toList := by
    rw [← h1]; decide
  have hw : w = "abcde".toList := (List.append_inj' h1' rfl).1
  subst hw
  have h2' : "abcde".toList ++ "fgh".toList = "abcde".toList ++ rest := by
    rw [← h2]; decide
  have hrest : rest = "fgh".toList := (List.append_cancel_left h2').symm
  subst hrest
  rcases h3 with h3 | ⟨rest2, h3⟩
  · exact absurd h3 (by decide)
  · injection h3 with h31 h32
    exact absurd h31 (by decide)

/-- Witness for the amended C7 at a concrete input. -/
theorem c7_witness :
    (wp_extract_excerpt "<p>hello world</p>".toList 8).length ≤ 11 ∧
    (∃ w rest, wp_extract_excerpt "<p>hello world</p>".toList 8 =
        w ++ "...".toList ∧
      get_text_sep (parseDoc "<p>hello world</p>".toList) = w ++ ' ' :: rest) := by
  refine ⟨(c7_excerpt_truncation "<p>hello world</p>".toList 8 (by decide)).1, ?_⟩
  exact (c7_excerpt_truncation "<p>hello world</p>".toList 8 (by decide)).2
    (by decide)

-- ── Claim C6: sanitizer idempotence — escape/decode lemmas ──────────────────

theorem escape_append (a b : Str) : escape (a ++ b) = escape a ++ escape b := by
  induction a with
  | nil => rfl
  | cons c rest ih => simp [escape, ih]

theorem escChar_ne_nil (c : Char) : escChar c ≠ [] := by
  unfold escChar
  by_cases h1 : c = '&' <;> by_cases h2 : c = '<' <;> by_cases h3 : c = '>' <;>
    simp [h1, h2, h3]

theorem escape_ne_nil {s : Str} (h : s ≠ []) : escape s ≠ [] := by
  cases s with
  | nil => exact absurd rfl h
  | cons c rest =>
    simp only [escape]
    intro hcontra
    exact escChar_ne_nil c (List.append_eq_nil.mp hcontra).1

theorem lt_not_mem_escChar (c : Char) : '<' ∉ escChar c := by
  unfold escChar
  by_cases h1 : c = '&' <;> by_cases h2 : c = '<' <;> by_cases h3 : c = '>' <;>
    simp [h1, h2, h3]
  intro hc
  exact h2 hc.symm

theorem lt_not_mem_escape (s : Str) : '<' ∉ escape s := by
  induction s with
  | nil => simp [escape]
  | cons c rest ih =>
    simp only [escape, List.mem_append]
    rintro (h | h)
    · exact lt_not_mem_escChar c h
    · exact ih h

theorem decodeEnt_cons_ne (c : Char) (rest : Str) (h : c ≠ '&') :
    decodeEnt (c :: rest) = c :: decodeEnt rest := by
  conv_lhs => rw [decodeEnt.eq_def]
  split
  · simp_all
  · simp_all
  · simp_all
  · simp_all
  · rename_i c2 rest2 h1 h2 h3 heq
    rw [(List.cons.inj heq).1, (List.cons.inj heq).2]

theorem decode_escape (s : Str) : decodeEnt (escape s) = s := by
  induction s with
  | nil => rfl
  | cons c rest ih =>
    by_cases h1 : c = '&'
    · subst h1
      show decodeEnt ('&' :: 'a' :: 'm' :: 'p' :: ';' :: escape rest) = _
      rw [show decodeEnt ('&' :: 'a' :: 'm' :: 'p' :: ';' :: escape rest) =
        '&' :: decodeEnt (escape rest) from rfl, ih]
    · by_cases h2 : c = '<'
      · subst h2
        show decodeEnt ('&' :: 'l' :: 't' :: ';' :: escape rest) = _
        rw [show decodeEnt ('&' :: 'l' :: 't' :: ';' :: escape rest) =
          '<' :: decodeEnt (escape rest) from rfl, ih]
      · by_cases h3 : c = '>'
        · subst h3
          show decodeEnt ('&' :: 'g' :: 't' :: ';' :: escape rest) = _
          rw [show decodeEnt ('&' :: 'g' :: 't' :: ';' :: escape rest) =
            '>' :: decodeEnt (escape rest) from rfl, ih]
        · have hesc : escape (c :: rest) = c :: escape rest := by
            simp [escape, escChar, h1, h2, h3]
          rw [hesc, decodeEnt_cons_ne c (escape rest) h1, ih]

-- ── No-triple-newline predicate and collapse lemmas ─────────────────────────

/-- The string contains no run of three consecutive newlines. -/
def noNl3 (s : Str) : Prop :=
  ∀ i : Nat, ¬ (s[i]? = some '\n' ∧ s[i + 1]? = some '\n' ∧ s[i + 2]? = some '\n')

theorem noNl3_short {s : Str} (h : s.length ≤ 2) : noNl3 s := by
  intro i ⟨h0, h1, h2⟩
  have : i + 2 < s.length := by
    by_contra hc
    rw [List.getElem?_eq_none (by omega)] at h2
    exact Option.noConfusion h2
  omega

theorem noNl3_tail {c : Char} {s : Str} (h : noNl3 (c :: s)) : noNl3 s := by
  intro i ⟨h0, h1, h2⟩
  exact h (i + 1) ⟨by simpa using h0, by simpa using h1, by simpa using h2⟩

theorem noNl3_cons {c : Char} {s : Str} (hc : c ≠ '\n') (h : noNl3 s) :
    noNl3 (c :: s) := by
  intro i
  match i with
  | 0 =>
    intro ⟨h0, _, _⟩
    simp only [List.getElem?_cons_zero] at h0
    exact hc (Option.some.inj h0)
  | i + 1 =>
    intro ⟨h0, h1, h2⟩
    exact h i ⟨by simpa using h0, by simpa using h1, by simpa using h2⟩

theorem noNl3_cons_nl {s : Str}
    (h01 : s[0]? ≠ some '\n' ∨ s[1]? ≠ some '\n') (h : noNl3 s) :
    noNl3 ('\n' :: s) := by
  intro i
  match i with
  | 0 =>
    intro ⟨_, h1, h2⟩
    simp only [List.getElem?_cons_succ] at h1 h2
    rcases h01 with h01 | h01
    · exact h01 h1
    · exact h01 h2
  | i + 1 =>
    intro ⟨h0, h1, h2⟩
    exact h i ⟨by simpa using h0, by simpa using h1, by simpa using h2⟩

theorem noNl3_nlfree {s : Str} (h : ∀ c ∈ s, c ≠ '\n') : noNl3 s := by
  intro i ⟨h0, _, _⟩
  exact h '\n' (List.getElem?_mem h0) rfl

/-- Concatenation keeps out triple newlines when the left part does not
end in a newline. -/
theorem noNl3_append_lastne {a b : Str} (ha : noNl3 a) (hb : noNl3 b)
    (hedge : a.getLast? ≠ some '\n') : noNl3 (a ++ b) := by
  intro i ⟨h0, h1, h2⟩
  by_cases hlt : i + 2 < a.length
  · rw [List.getElem?_append_left (by omega)] at h0 h1
    rw [List.getElem?_append_left hlt] at h2
    exact ha i ⟨h0, h1, h2⟩
  · by_cases hge : a.length ≤ i
    · rw [List.getElem?_append_right hge] at h0
      rw [List.getElem?_append_right (by omega)] at h1 h2
      have e1 : i + 1 - a.length = (i - a.length) + 1 := by omega
      have e2 : i + 2 - a.length = (i - a.length) + 2 := by omega
      rw [e1] at h1
      rw [e2] at h2
      exact hb (i - a.length) ⟨h0, h1, h2⟩
    · -- the window contains position a.length - 1, the last of a
      have hane : a ≠ [] := by
        intro hnil
        rw [hnil] at hge
        simp at hge
      have hlast : a.getLast? = a[a.length - 1]? := List.getLast?_eq_getElem? a
      have hj : i ≤ a.length - 1 ∧ a.length - 1 ≤ i + 2 := by
        have := List.length_pos.mpr hane
        omega
      have hwin : (a ++ b)[a.length - 1]? = some '\n' := by
        rcases Nat.lt_or_ge (a.length - 1) (i + 1) with hlt1 | hge1
        · have : a.length - 1 = i := by omega
          rw [this]; exact h0
        · rcases Nat.lt_or_ge (a.length - 1) (i + 2) with hlt2 | hge2
          · have : a.length - 1 = i + 1 := by omega
            rw [this]; exact h1
          · have : a.length - 1 = i + 2 := by omega
            rw [this]; exact h2
      rw [List.getElem?_append_left (by have := List.length_pos.mpr hane; omega)]
        at hwin
      rw [hlast] at hedge
      exact hedge hwin

/-- Concatenation keeps out triple newlines when the right part does not
start with a newline. -/
theorem noNl3_append_headne {a b : Str} (ha : noNl3 a) (hb : noNl3 b)
    (hedge : b.head? ≠ some '\n') : noNl3 (a ++ b) := by
  intro i ⟨h0, h1, h2⟩
  by_cases hlt : i + 2 < a.length
  · rw [List.getElem?_append_left (by omega)] at h0 h1
    rw [List.getElem?_append_left hlt] at h2
    exact ha i ⟨h0, h1, h2⟩
  · by_cases hge : a.length ≤ i
    · rw [List.getElem?_append_right hge] at h0
      rw [List.getElem?_append_right (by omega)] at h1 h2
      have e1 : i + 1 - a.length = (i - a.length) + 1 := by omega
      have e2 : i + 2 - a.length = (i - a.length) + 2 := by omega
      rw [e1] at h1
      rw [e2] at h2
      exact hb (i - a.length) ⟨h0, h1, h2⟩
    · -- the window contains position a.length, the head of b
      have hwin : (a ++ b)[a.length]? = some '\n' := by
        rcases Nat.lt_or_ge a.length (i + 1) with hlt1 | hge1
        · have : a.length = i := by omega
          rw [this]; exact h0
        · rcases Nat.lt_or_ge a.length (i + 2) with hlt2 | hge2
          · have : a.length = i + 1 := by omega
            rw [this]; exact h1
          · have : a.length = i + 2 := by omega
            rw [this]; exact h2
      rw [List.getElem?_append_right (le_refl _)] at hwin
      simp only [Nat.sub_self] at hwin
      have : b.head? = some '\n' := by
        cases b with
        | nil => simp at hwin
        | cons x xs => simpa using hwin
      exact hedge this

theorem noNl3_of_prefix {x t s : Str} (hs : s = x ++ t) (h : noNl3 s) :
    noNl3 x := by
  intro i ⟨h0, h1, h2⟩
  have hx0 : i < x.length := (List.getElem?_eq_some_iff.mp h0).1
  have hx1 : i + 1 < x.length := (List.getElem?_eq_some_iff.mp h1).1
  have hx2 : i + 2 < x.length := (List.getElem?_eq_some_iff.mp h2).1
  refine h i ⟨?_, ?_, ?_⟩
  · rw [hs, List.getElem?_append_left hx0]; exact h0
  · rw [hs, List.getElem?_append_left hx1]; exact h1
  · rw [hs, List.getElem?_append_left hx2]; exact h2

theorem noNl3_of_suffix {x t s : Str} (hs : s = t ++ x) (h : noNl3 s) :
    noNl3 x := by
  intro i ⟨h0, h1, h2⟩
  refine h (t.length + i) ⟨?_, ?_, ?_⟩
  · rw [hs, List.getElem?_append_right (by omega)]
    simpa using h0
  · rw [hs, List.getElem?_append_right (by omega)]
    have : t.length + i + 1 - t.length = i + 1 := by omega
    rw [this]; exact h1
  · rw [hs, List.getElem?_append_right (by omega)]
    have : t.length + i + 2 - t.length = i + 2 := by omega
    rw [this]; exact h2

theorem noNl3_dropWhile {p : Char → Bool} {s : Str} (h : noNl3 s) :
    noNl3 (s.dropWhile p) := by
  induction s with
  | nil => simpa using h
  | cons c rest ih =>
    rw [List.dropWhile_cons]
    by_cases hp : p c
    · simp only [hp, if_true]
      exact ih (noNl3_tail h)
    · simp only [hp, Bool.false_eq_true, if_false]
      exact h

theorem nlOut_length_le (k : Nat) : (nlOut k).length ≤ 2 := by
  simp [nlOut]

theorem nlOut_eq_replicate {k : Nat} (h : k ≤ 2) :
    nlOut k = List.replicate k '\n' := by
  unfold nlOut
  rw [Nat.min_eq_left h]

theorem noNl3_nlOut (k : Nat) : noNl3 (nlOut k) := noNl3_short (nlOut_length_le k)

theorem collapseAux_nil (p : Nat) : collapseAux p [] = nlOut p := rfl

theorem collapseAux_cons_nl (p : Nat) (rest : Str) :
    collapseAux p ('\n' :: rest) = collapseAux (p + 1) rest := by
  simp [collapseAux]

theorem collapseAux_cons_ne (p : Nat) {c : Char} (rest : Str) (h : c ≠ '\n') :
    collapseAux p (c :: rest) = nlOut p ++ c :: collapseAux 0 rest := by
  simp [collapseAux, h]

/-- Splitting a collapse at a point where the right part does not start
with a newline: the pending run is flushed at the boundary exactly as at
the end of the left part. -/
theorem collapseAux_flush {b : Str} (hb : b.head? ≠ some '\n') :
    ∀ (a : Str) (p : Nat),
      collapseAux p (a ++ b) = collapseAux p a ++ collapseAux 0 b := by
  intro a
  induction a with
  | nil =>
    intro p
    cases b with
    | nil => simp [collapseAux_nil, nlOut]
    | cons x xs =>
      have hx : x ≠ '\n' := by
        intro hx
        rw [hx] at hb
        simp at hb
      simp only [List.nil_append, collapseAux_nil]
      rw [collapseAux_cons_ne p xs hx, collapseAux_cons_ne 0 xs hx]
      simp [nlOut]
  | cons c a' ih =>
    intro p
    by_cases hc : c = '\n'
    · subst hc
      rw [List.cons_append, collapseAux_cons_nl, collapseAux_cons_nl, ih]
    · rw [List.cons_append, collapseAux_cons_ne p _ hc, collapseAux_cons_ne p _ hc,
        ih 0]
      simp

/-- Splitting a collapse after a left part that does not end in a
newline. -/
theorem collapseAux_lastne {a : Str} (hne : a ≠ [])
    (hlast : a.getLast? ≠ some '\n') :
    ∀ (b : Str) (p : Nat),
      collapseAux p (a ++ b) = collapseAux p a ++ collapseAux 0 b := by
  induction a with
  | nil => exact absurd rfl hne
  | cons c a' ih =>
    intro b p
    cases a' with
    | nil =>
      have hc : c ≠ '\n' := by
        intro hc
        rw [hc] at hlast
        simp [List.getLast?] at hlast
      rw [List.cons_append, collapseAux_cons_ne p _ hc, collapseAux_cons_ne p _ hc]
      simp [collapseAux_nil, nlOut]
    | cons d a'' =>
      have hlast' : (d :: a'').getLast? ≠ some '\n' := by
        rwa [List.getLast?_cons_cons] at hlast
      by_cases hc : c = '\n'
      · subst hc
        rw [List.cons_append, collapseAux_cons_nl, collapseAux_cons_nl,
          ih (by simp) hlast' b]
      · rw [List.cons_append, collapseAux_cons_ne p _ hc,
          collapseAux_cons_ne p _ hc, ih (by simp) hlast' b 0]
        simp

/-- The collapse of a concatenation splits whenever no newline run
crosses the boundary. -/
theorem collapseNl_split {a b : Str}
    (hedge : a.getLast? ≠ some '\n' ∨ b.head? ≠ some '\n') :
    collapseNl (a ++ b) = collapseNl a ++ collapseNl b := by
  rcases hedge with h | h
  · cases ha : a with
    | nil => simp [collapseNl, collapseAux_nil, nlOut]
    | cons c a' =>
      rw [← ha]
      exact collapseAux_lastne (by rw [ha]; simp) h b 0
  · exact collapseAux_flush h a 0

theorem collapseAux_nonl_prefix {nn : Str} (h : ∀ c ∈ nn, c ≠ '\n') :
    ∀ t : Str, collapseAux 0 (nn ++ t) = nn ++ collapseAux 0 t := by
  induction nn with
  | nil => intro t; simp
  | cons c rest ih =>
    intro t
    have hc : c ≠ '\n' := h c (by simp)
    rw [List.cons_append, collapseAux_cons_ne 0 _ hc,
      ih (fun d hd => h d (by simp [hd])) t]
    simp [nlOut]

theorem escChar_nl : escChar '\n' = ['\n'] := by decide

theorem escape_replicate_nl (k : Nat) :
    escape (List.replicate k '\n') = List.replicate k '\n' := by
  induction k with
  | zero => rfl
  | succ n ih =>
    rw [List.replicate_succ, show escape ('\n' :: List.replicate n '\n') =
      escChar '\n' ++ escape (List.replicate n '\n') from rfl, escChar_nl, ih]
    rfl

theorem escape_nlOut (p : Nat) : escape (nlOut p) = nlOut p := by
  unfold nlOut
  exact escape_replicate_nl _

theorem escChar_nlfree {c : Char} (h : c ≠ '\n') : ∀ d ∈ escChar c, d ≠ '\n' := by
  intro d hd
  unfold escChar at hd
  by_cases h1 : c = '&'
  · rw [if_pos h1] at hd
    exact (by decide : ∀ x ∈ "&amp;".toList, x ≠ '\n') d hd
  · rw [if_neg h1] at hd
    by_cases h2 : c = '<'
    · rw [if_pos h2] at hd
      exact (by decide : ∀ x ∈ "&lt;".toList, x ≠ '\n') d hd
    · rw [if_neg h2] at hd
      by_cases h3 : c = '>'
      · rw [if_pos h3] at hd
        exact (by decide : ∀ x ∈ "&gt;".toList, x ≠ '\n') d hd
      · rw [if_neg h3] at hd
        simp only [List.mem_singleton] at hd
        rw [hd]
        exact h

/-- Collapsing commutes with entity escaping. -/
theorem collapse_escape (s : Str) : ∀ p : Nat,
    collapseAux p (escape s) = escape (collapseAux p s) := by
  induction s with
  | nil =>
    intro p
    show collapseAux p [] = escape (collapseAux p [])
    rw [collapseAux_nil, escape_nlOut]
  | cons c rest ih =>
    intro p
    by_cases hc : c = '\n'
    · subst hc
      show collapseAux p (escChar '\n' ++ escape rest) = _
      rw [escChar_nl]
      show collapseAux p ('\n' :: escape rest) = _
      rw [collapseAux_cons_nl, ih (p + 1), collapseAux_cons_nl]
    · show collapseAux p (escChar c ++ escape rest) = _
      rcases hch : escChar c with _ | ⟨d, chunk⟩
      · exact absurd hch (escChar_ne_nil c)
      · have hall := escChar_nlfree hc
        rw [hch] at hall
        have hdne : d ≠ '\n' := hall d (by simp)
        have hchunk : ∀ e ∈ chunk, e ≠ '\n' := fun e he => hall e (by simp [he])
        rw [List.cons_append, collapseAux_cons_ne p _ hdne,
          collapseAux_nonl_prefix hchunk (escape rest), ih 0,
          collapseAux_cons_ne p rest hc]
        rw [escape_append, escape_nlOut]
        show _ = nlOut p ++ (escChar c ++ escape (collapseAux 0 rest))
        rw [hch]
        simp

theorem noNl3_collapseAux (s : Str) : ∀ p : Nat, noNl3 (collapseAux p s) := by
  induction s with
  | nil => intro p; rw [collapseAux_nil]; exact noNl3_nlOut p
  | cons c rest ih =>
    intro p
    by_cases hc : c = '\n'
    · subst hc
      rw [collapseAux_cons_nl]
      exact ih (p + 1)
    · rw [collapseAux_cons_ne p _ hc]
      exact noNl3_append_headne (noNl3_nlOut p) (noNl3_cons hc (ih 0))
        (by simp [hc])

theorem noNl3_collapseNl (s : Str) : noNl3 (collapseNl s) := noNl3_collapseAux s 0

/-- A string without triple newlines is a fixed point of the collapse. -/
theorem collapseAux_fixed (s : Str) : ∀ p : Nat, p ≤ 2 →
    noNl3 (List.replicate p '\n' ++ s) →
    collapseAux p s = List.replicate p '\n' ++ s := by
  induction s with
  | nil =>
    intro p hp _
    rw [collapseAux_nil, nlOut_eq_replicate hp]
    simp
  | cons c rest ih =>
    intro p hp hno
    by_cases hc : c = '\n'
    · subst hc
      have hp1 : p ≤ 1 := by
        by_contra hgt
        have hp2 : p = 2 := by omega
        subst hp2
        refine hno 0 ⟨?_, ?_, ?_⟩
        · rw [List.getElem?_append_left (by simp)]
          simp [List.getElem?_replicate]
        · rw [List.getElem?_append_left (by simp)]
          simp [List.getElem?_replicate]
        · rw [List.getElem?_append_right (by simp)]
          simp
      rw [collapseAux_cons_nl]
      have hrw : List.replicate (p + 1) '\n' ++ rest =
          List.replicate p '\n' ++ '\n' :: rest := by
        rw [List.replicate_succ']
        simp
      rw [ih (p + 1) (by omega) (by rw [hrw]; exact hno), hrw]
    · rw [collapseAux_cons_ne p _ hc, nlOut_eq_replicate hp]
      have hsfx : noNl3 rest := by
        refine noNl3_of_suffix (t := List.replicate p '\n' ++ [c]) ?_ hno
        simp
      rw [ih 0 (by omega) (by simpa using hsfx)]
      simp

/-- `collapseNl` is the identity exactly on triple-newline-free strings. -/
theorem collapseNl_fixed {s : Str} (h : noNl3 s) : collapseNl s = s := by
  have := collapseAux_fixed s 0 (by omega) (by simpa using h)
  simpa [collapseNl] using this

theorem escape_head_nl {s : Str} :
    (escape s).head? = some '\n' ↔ s.head? = some '\n' := by
  cases s with
  | nil => simp [escape]
  | cons c rest =>
    show (escChar c ++ escape rest).head? = some '\n' ↔ _
    constructor
    · intro h
      by_cases hc : c = '\n'
      · simp [hc]
      · exfalso
        rcases hch : escChar c with _ | ⟨d, chunk⟩
        · exact escChar_ne_nil c hch
        · rw [hch] at h
          simp only [List.cons_append, List.head?_cons] at h
          have hall := escChar_nlfree hc
          rw [hch] at hall
          exact hall d (by simp) (Option.some.inj h)
    · intro h
      simp only [List.head?_cons] at h
      rw [Option.some.inj h, escChar_nl]
      rfl

theorem getElem_zero_head {xs : Str} : xs[0]? = xs.head? := by
  cases xs <;> simp

theorem escape_getElem_zero_ne {xs : Str} (h : xs[0]? ≠ some '\n') :
    (escape xs)[0]? ≠ some '\n' := by
  rw [getElem_zero_head] at h ⊢
  intro hcontra
  exact h (escape_head_nl.mp hcontra)

theorem noNl3_escape {s : Str} (h : noNl3 s) : noNl3 (escape s) := by
  induction s with
  | nil => exact noNl3_short (by simp [escape])
  | cons c rest ih =>
    have hrec := ih (noNl3_tail h)
    by_cases hc : c = '\n'
    · subst hc
      show noNl3 (escChar '\n' ++ escape rest)
      rw [escChar_nl]
      show noNl3 ('\n' :: escape rest)
      have h0 := h 0
      simp only [List.getElem?_cons_zero, List.getElem?_cons_succ] at h0
      have hd : rest[0]? ≠ some '\n' ∨ rest[1]? ≠ some '\n' := by
        by_contra hcon
        push_neg at hcon
        exact h0 ⟨trivial, hcon.1, hcon.2⟩
      refine noNl3_cons_nl ?_ hrec
      rcases rest with _ | ⟨r, rs⟩
      · left; simp [escape]
      · by_cases hr : r = '\n'
        · subst hr
          have hd' : rs[0]? ≠ some '\n' := by
            rcases hd with hd | hd
            · exact absurd (by simp : ('\n' :: rs)[0]? = some '\n') hd
            · simpa using hd
          right
          show (escChar '\n' ++ escape rs)[1]? ≠ some '\n'
          rw [escChar_nl]
          show ('\n' :: escape rs)[1]? ≠ some '\n'
          simpa using escape_getElem_zero_ne hd'
        · left
          refine escape_getElem_zero_ne ?_
          simp only [List.getElem?_cons_zero]
          intro hcontra
          exact hr (Option.some.inj hcontra)
    · show noNl3 (escChar c ++ escape rest)
      have hall := escChar_nlfree hc
      refine noNl3_append_lastne (noNl3_nlfree hall) hrec ?_
      intro hcontra
      have hmem : '\n' ∈ escChar c := by
        rcases hl : (escChar c).getLast? with _ | d
        · rw [hl] at hcontra; exact Option.noConfusion hcontra
        · rw [hl] at hcontra
          have hd := Option.some.inj hcontra
          subst hd
          exact List.mem_of_mem_getLast? hl
      exact hall '\n' hmem rfl

-- ── Strip lemmas ────────────────────────────────────────────────────────────

theorem pyLStrip_append (a b : Str) :
    pyLStrip (a ++ b) = if pyLStrip a = [] then pyLStrip b else pyLStrip a ++ b := by
  induction a with
  | nil => simp [pyLStrip]
  | cons c rest ih =>
    unfold pyLStrip at ih ⊢
    rw [List.cons_append, List.dropWhile_cons, List.dropWhile_cons]
    by_cases hc : pyIsSpace c
    · simp only [hc, if_true]
      exact ih
    · simp [hc]

theorem pyLStrip_eq_nil_iff {s : Str} :
    pyLStrip s = [] ↔ ∀ c ∈ s, pyIsSpace c := by
  unfold pyLStrip
  exact List.dropWhile_eq_nil_iff

theorem pyRStrip_eq_nil_iff {s : Str} :
    pyRStrip s = [] ↔ ∀ c ∈ s, pyIsSpace c := by
  unfold pyRStrip
  rw [List.reverse_eq_nil_iff, pyLStrip_eq_nil_iff]
  constructor
  · intro h c hc; exact h c (by simpa using hc)
  · intro h c hc; exact h c (by simpa using hc)

theorem pyRStrip_append (a b : Str) :
    pyRStrip (a ++ b) = if pyRStrip b = [] then pyRStrip a else a ++ pyRStrip b := by
  by_cases hb : pyRStrip b = []
  · rw [if_pos hb]
    unfold pyRStrip at hb ⊢
    have hb' : pyLStrip b.reverse = [] := by
      have := congrArg List.reverse hb
      simpa using this
    rw [List.reverse_append, pyLStrip_append, if_pos hb']
  · rw [if_neg hb]
    unfold pyRStrip at hb ⊢
    have hb' : pyLStrip b.reverse ≠ [] := by
      intro hcontra
      exact hb (by rw [hcontra]; rfl)
    rw [List.reverse_append, pyLStrip_append, if_neg hb']
    simp

theorem pyLStrip_headne {s : Str} (h : ∀ c, s.head? = some c → ¬ pyIsSpace c) :
    pyLStrip s = s := by
  cases s with
  | nil => rfl
  | cons c rest =>
    unfold pyLStrip
    rw [List.dropWhile_cons, if_neg (by simpa using h c rfl)]

theorem pyRStrip_lastne {s : Str} (h : ∀ c, s.getLast? = some c → ¬ pyIsSpace c) :
    pyRStrip s = s := by
  unfold pyRStrip
  rw [pyLStrip_headne, List.reverse_reverse]
  intro c hc
  refine h c ?_
  rwa [← List.head?_reverse]

theorem escChar_space {c : Char} (hc : pyIsSpace c) : escChar c = [c] := by
  unfold escChar
  have h1 : c ≠ '&' := by intro h; rw [h] at hc; exact absurd hc (by decide)
  have h2 : c ≠ '<' := by intro h; rw [h] at hc; exact absurd hc (by decide)
  have h3 : c ≠ '>' := by intro h; rw [h] at hc; exact absurd hc (by decide)
  simp [h1, h2, h3]

theorem escChar_head_nonspace {c : Char} (hc : ¬ pyIsSpace c) :
    ∀ d, (escChar c).head? = some d → ¬ pyIsSpace d := by
  intro d hd
  unfold escChar at hd
  by_cases h1 : c = '&'
  · rw [if_pos h1] at hd
    rw [show ("&amp;".toList).head? = some '&' from rfl] at hd
    rw [(Option.some.inj hd).symm]
    decide
  · rw [if_neg h1] at hd
    by_cases h2 : c = '<'
    · rw [if_pos h2] at hd
      rw [show ("&lt;".toList).head? = some '&' from rfl] at hd
      rw [(Option.some.inj hd).symm]
      decide
    · rw [if_neg h2] at hd
      by_cases h3 : c = '>'
      · rw [if_pos h3] at hd
        rw [show ("&gt;".toList).head? = some '&' from rfl] at hd
        rw [(Option.some.inj hd).symm]
        decide
      · rw [if_neg h3] at hd
        rw [show ([c]).head? = some c from rfl] at hd
        rw [(Option.some.inj hd).symm]
        exact hc

theorem escChar_last_nonspace {c : Char} (hc : ¬ pyIsSpace c) :
    ∀ d, (escChar c).getLast? = some d → ¬ pyIsSpace d := by
  intro d hd
  unfold escChar at hd
  by_cases h1 : c = '&'
  · rw [if_pos h1] at hd
    rw [show ("&amp;".toList).getLast? = some ';' from rfl] at hd
    rw [(Option.some.inj hd).symm]
    decide
  · rw [if_neg h1] at hd
    by_cases h2 : c = '<'
    · rw [if_pos h2] at hd
      rw [show ("&lt;".toList).getLast? = some ';' from rfl] at hd
      rw [(Option.some.inj hd).symm]
      decide
    · rw [if_neg h2] at hd
      by_cases h3 : c = '>'
      · rw [if_pos h3] at hd
        rw [show ("&gt;".toList).getLast? = some ';' from rfl] at hd
        rw [(Option.some.inj hd).symm]
        decide
      · rw [if_neg h3] at hd
        rw [show ([c]).getLast? = some c from rfl] at hd
        rw [(Option.some.inj hd).symm]
        exact hc

theorem pyLStrip_escape (s : Str) : pyLStrip (escape s) = escape (pyLStrip s) := by
  induction s with
  | nil => rfl
  | cons c rest ih =>
    show pyLStrip (escChar c ++ escape rest) = escape (pyLStrip (c :: rest))
    by_cases hc : pyIsSpace c
    · rw [escChar_space hc]
      have h1 : pyLStrip (c :: escape rest) = pyLStrip (escape rest) := by
        unfold pyLStrip
        rw [List.dropWhile_cons, if_pos (by simpa using hc)]
      have h2 : pyLStrip (c :: rest) = pyLStrip rest := by
        unfold pyLStrip
        rw [List.dropWhile_cons, if_pos (by simpa using hc)]
      show pyLStrip (c :: escape rest) = _
      rw [h1, h2, ih]
    · have hhead : ∀ d, (escChar c ++ escape rest).head? = some d →
          ¬ pyIsSpace d := by
        intro d hd
        rcases hch : escChar c with _ | ⟨e, chunk⟩
        · exact absurd hch (escChar_ne_nil c)
        · rw [hch] at hd
          simp only [List.cons_append, List.head?_cons] at hd
          refine escChar_head_nonspace hc d ?_
          rw [hch, ← hd]
          rfl
      rw [pyLStrip_headne hhead]
      have h2 : pyLStrip (c :: rest) = c :: rest := by
        unfold pyLStrip
        rw [List.dropWhile_cons, if_neg (by simpa using hc)]
      rw [h2]
      rfl

theorem pyRStrip_escChar_nonspace {c : Char} (hc : ¬ pyIsSpace c) :
    pyRStrip (escChar c) = escChar c :=
  pyRStrip_lastne (escChar_last_nonspace hc)

theorem escChar_rstrip_ne_nil {c : Char} (hc : ¬ pyIsSpace c) :
    pyRStrip (escChar c) ≠ [] := by
  rw [pyRStrip_escChar_nonspace hc]
  exact escChar_ne_nil c

theorem pyRStrip_escape (s : Str) : pyRStrip (escape s) = escape (pyRStrip s) := by
  induction s using List.reverseRecOn with
  | nil => rfl
  | append_singleton s' c ih =>
    rw [escape_append]
    have hesc1 : escape [c] = escChar c := by
      show escChar c ++ escape [] = escChar c
      rw [show escape ([] : Str) = [] from rfl, List.append_nil]
    rw [hesc1]
    by_cases hc : pyIsSpace c
    · have hall : pyRStrip (escChar c) = [] := by
        rw [escChar_space hc, pyRStrip_eq_nil_iff]
        intro d hd
        simp at hd
        rwa [hd]
      rw [pyRStrip_append, if_pos hall, ih]
      have hall2 : pyRStrip [c] = [] := by
        rw [pyRStrip_eq_nil_iff]
        intro d hd
        simp at hd
        rwa [hd]
      rw [pyRStrip_append, if_pos hall2]
    · rw [pyRStrip_append, if_neg (escChar_rstrip_ne_nil hc),
        pyRStrip_escChar_nonspace hc]
      have h1 : pyRStrip [c] = [c] := by
        refine pyRStrip_lastne ?_
        intro d hd
        rw [show ([c]).getLast? = some c from rfl] at hd
        rwa [(Option.some.inj hd).symm]
      rw [pyRStrip_append, if_neg (by rw [h1]; simp), h1, escape_append, hesc1]

-- ── Normal forms of document forests ────────────────────────────────────────

/-- Whether a node is a text node. -/
def isTextN : HNode → Bool
  | .htext _ => true
  | _ => false

/-- Whether a forest starts with a text node. -/
def textHeadF : HForest → Bool
  | .hcons (.htext _) _ => true
  | _ => false

mutual
/-- Normal form: no empty text and no two adjacent text nodes, at every
level. -/
def normedN : HNode → Bool
  | .htext s => decide (s ≠ [])
  | .helem _ _ ch => normedF ch
/-- `normedN` over a forest. -/
def normedF : HForest → Bool
  | .hnil => true
  | .hcons n tl => normedN n && !(isTextN n && textHeadF tl) && normedF tl
end

mutual
/-- Validity for the serializer/parser round trip: tags are non-empty
lower-case names and classes are non-empty, whitespace-free and
quote-free. -/
def validN : HNode → Bool
  | .htext _ => true
  | .helem tag cls ch =>
    decide (tag ≠ []) && tag.all isLowerAlpha &&
    cls.all (fun w => decide (w ≠ []) &&
      w.all (fun d => !pyIsSpace d && decide (d ≠ '"'))) &&
    validF ch
/-- `validN` over a forest. -/
def validF : HForest → Bool
  | .hnil => true
  | .hcons n tl => validN n && validF tl
end

mutual
/-- Merge adjacent text nodes and drop empty ones, recursively. -/
def normalizeN : HNode → HNode
  | .htext s => .htext s
  | .helem t c ch => .helem t c (normalizeF ch)
/-- `normalizeN` over a forest, with text merging at each level. -/
def normalizeF : HForest → HForest
  | .hnil => .hnil
  | .hcons (.htext s) tl => consTextF s (normalizeF tl)
  | .hcons (.helem t c ch) tl => .hcons (.helem t c (normalizeF ch)) (normalizeF tl)
end

mutual
/-- Apply the newline collapse to every text node. -/
def collapseN : HNode → HNode
  | .htext s => .htext (collapseNl s)
  | .helem t c ch => .helem t c (collapseF ch)
/-- `collapseN` over a forest. -/
def collapseF : HForest → HForest
  | .hnil => .hnil
  | .hcons n tl => .hcons (collapseN n) (collapseF tl)
end

/-- Left-strip the document: trim a leading top-level text node, dropping
it when it becomes empty. -/
def lstripF : HForest → HForest
  | .hcons (.htext s) tl =>
    if pyLStrip s = [] then tl else .hcons (.htext (pyLStrip s)) tl
  | f => f

/-- Right-strip the document: trim a trailing top-level text node,
dropping it when it becomes empty. -/
def rstripF : HForest → HForest
  | .hnil => .hnil
  | .hcons n .hnil =>
    match n with
    | .htext s =>
      if pyRStrip s = [] then .hnil else .hcons (.htext (pyRStrip s)) .hnil
    | .helem t c ch => .hcons (.helem t c ch) .hnil
  | .hcons n tl => .hcons n (rstripF tl)

-- ── Cleanliness predicates ──────────────────────────────────────────────────

mutual
/-- No div with an `et_pb_` class anywhere. -/
def noEtPbN : HNode → Bool
  | .htext _ => true
  | .helem tag cls ch =>
    !(decide (tag = "div".toList) && hasEtPb cls) && noEtPbF ch
/-- `noEtPbN` over a forest. -/
def noEtPbF : HForest → Bool
  | .hnil => true
  | .hcons n tl => noEtPbN n && noEtPbF tl
end

mutual
/-- Every div has solid text or an img among its children. -/
def divsOkN : HNode → Bool
  | .htext _ => true
  | .helem tag _ ch =>
    (!(decide (tag = "div".toList)) || (solidF ch || imgF ch)) && divsOkF ch
/-- `divsOkN` over a forest. -/
def divsOkF : HForest → Bool
  | .hnil => true
  | .hcons n tl => divsOkN n && divsOkF tl
end

-- ── Serialization lemmas ────────────────────────────────────────────────────

theorem serForest_happend : ∀ (f g : HForest),
    serForest (happend f g) = serForest f ++ serForest g
  | .hnil, g => by simp [happend, serForest]
  | .hcons n tl, g => by
    show serForest (.hcons n (happend tl g)) = _
    show serNode n ++ serForest (happend tl g) = (serNode n ++ serForest tl) ++ serForest g
    rw [serForest_happend tl g, List.append_assoc]

theorem serForest_consTextF (s : Str) (f : HForest) :
    serForest (consTextF s f) = escape s ++ serForest f := by
  unfold consTextF
  by_cases hs : s = []
  · simp [hs, escape]
  · rw [if_neg hs]
    cases f with
    | hnil => simp [serForest, serNode]
    | hcons n tl =>
      cases n with
      | htext s2 => simp [serForest, serNode, escape_append]
      | helem t c ch => simp [serForest, serNode]

/-- Serialization is unchanged by normalization. -/
theorem serForest_normalizeF (f : HForest) :
    serForest (normalizeF f) = serForest f := by
  refine (hdoc_mutual_ind
    (fun n => ∀ t c ch, n = .helem t c ch →
      serForest (normalizeF ch) = serForest ch)
    (fun f => serForest (normalizeF f) = serForest f)
    ?_ ?_ ?_ ?_).2 f
  · intro s t c ch h
    exact absurd h (by simp)
  · intro t c ch ihch t' c' ch' h
    injection h with h1 h2 h3
    subst h3
    exact ihch
  · rfl
  · intro n tl ihn ihtl
    cases n with
    | htext s =>
      show serForest (consTextF s (normalizeF tl)) = _
      rw [serForest_consTextF, ihtl]
      rfl
    | helem t c ch =>
      show serForest (.hcons (.helem t c (normalizeF ch)) (normalizeF tl)) = _
      show serNode (.helem t c (normalizeF ch)) ++ serForest (normalizeF tl) = _
      rw [ihtl, show serNode (.helem t c (normalizeF ch)) =
        '<' :: (t ++ clsAttr c ++ ['>']) ++ serForest (normalizeF ch) ++
          ('<' :: '/' :: (t ++ ['>'])) from rfl, ihn t c ch rfl]
      rfl

-- ── Membership under collapse; solidity invariance ──────────────────────────

theorem mem_nlOut {c : Char} {p : Nat} (h : c ∈ nlOut p) : c = '\n' := by
  unfold nlOut at h
  exact List.eq_of_mem_replicate h

theorem mem_collapseAux_of_mem {c : Char} (hc : c ≠ '\n') {s : Str} (h : c ∈ s) :
    ∀ p, c ∈ collapseAux p s := by
  induction s with
  | nil => simp at h
  | cons d rest ih =>
    intro p
    by_cases hd : d = '\n'
    · subst hd
      rw [collapseAux_cons_nl]
      have hmem : c ∈ rest := by
        rcases List.mem_cons.mp h with h' | h'
        · exact absurd h' hc
        · exact h'
      exact ih hmem (p + 1)
    · rw [collapseAux_cons_ne p _ hd]
      rcases List.mem_cons.mp h with h' | h'
      · subst h'
        simp
      · simp [ih h' 0]

theorem mem_of_mem_collapseAux {c : Char} (hc : c ≠ '\n') {s : Str} :
    ∀ p, c ∈ collapseAux p s → c ∈ s := by
  induction s with
  | nil =>
    intro p h
    rw [collapseAux_nil] at h
    exact absurd (mem_nlOut h) hc
  | cons d rest ih =>
    intro p h
    by_cases hd : d = '\n'
    · subst hd
      rw [collapseAux_cons_nl] at h
      exact List.mem_cons_of_mem _ (ih (p + 1) h)
    · rw [collapseAux_cons_ne p _ hd] at h
      rcases List.mem_append.mp h with h' | h'
      · exact absurd (mem_nlOut h') hc
      · rcases List.mem_cons.mp h' with h'' | h''
        · subst h''; simp
        · exact List.mem_cons_of_mem _ (ih 0 h'')

theorem hasSolid_collapseNl (s : Str) : hasSolid (collapseNl s) = hasSolid s := by
  unfold hasSolid
  by_cases h : s.any (fun c => !pyIsSpace c)
  · rw [h]
    obtain ⟨c, hc, hcs⟩ := List.any_eq_true.mp h
    refine List.any_eq_true.mpr ⟨c, ?_, hcs⟩
    refine mem_collapseAux_of_mem ?_ hc 0
    intro hcn
    rw [hcn] at hcs
    exact absurd hcs (by decide)
  · rw [eq_false_of_ne_true h]
    by_contra hcon
    have h' := eq_true_of_ne_false hcon
    obtain ⟨c, hc, hcs⟩ := List.any_eq_true.mp h'
    have hcn : c ≠ '\n' := by
      intro hcn
      rw [hcn] at hcs
      exact absurd hcs (by decide)
    exact h (List.any_eq_true.mpr ⟨c, mem_of_mem_collapseAux hcn 0 hc, hcs⟩)

theorem hasSolid_append (a b : Str) :
    hasSolid (a ++ b) = (hasSolid a || hasSolid b) := by
  unfold hasSolid
  exact List.any_append

theorem solidF_happend : ∀ f g : HForest,
    solidF (happend f g) = (solidF f || solidF g)
  | .hnil, g => by simp [happend, solidF]
  | .hcons n tl, g => by
    show solidF (.hcons n (happend tl g)) = _
    show (solidN n || solidF (happend tl g)) = ((solidN n || solidF tl) || solidF g)
    rw [solidF_happend tl g, Bool.or_assoc]

theorem imgF_happend : ∀ f g : HForest,
    imgF (happend f g) = (imgF f || imgF g)
  | .hnil, g => by simp [happend, imgF]
  | .hcons n tl, g => by
    show imgF (.hcons n (happend tl g)) = _
    show (imgN n || imgF (happend tl g)) = ((imgN n || imgF tl) || imgF g)
    rw [imgF_happend tl g, Bool.or_assoc]

theorem solidF_consTextF (s : Str) (f : HForest) :
    solidF (consTextF s f) = (hasSolid s || solidF f) := by
  unfold consTextF
  by_cases hs : s = []
  · subst hs
    simp [hasSolid]
  · rw [if_neg hs]
    cases f with
    | hnil => simp [solidF, solidN]
    | hcons n tl =>
      cases n with
      | htext s2 =>
        show (solidN (.htext (s ++ s2)) || solidF tl) = _
        show (hasSolid (s ++ s2) || solidF tl) = _
        rw [hasSolid_append]
        show _ = (hasSolid s || (solidN (.htext s2) || solidF tl))
        show _ = (hasSolid s || (hasSolid s2 || solidF tl))
        rw [Bool.or_assoc]
      | helem t c ch =>
        show (solidN (.htext s) || solidF (.hcons (.helem t c ch) tl)) = _
        rfl

theorem imgF_consTextF (s : Str) (f : HForest) :
    imgF (consTextF s f) = imgF f := by
  unfold consTextF
  by_cases hs : s = []
  · simp [hs]
  · rw [if_neg hs]
    cases f with
    | hnil => simp [imgF, imgN]
    | hcons n tl =>
      cases n with
      | htext s2 =>
        show (imgN (.htext (s ++ s2)) || imgF tl) = (imgN (.htext s2) || imgF tl)
        rfl
      | helem t c ch =>
        show (imgN (.htext s) || imgF (.hcons (.helem t c ch) tl)) = _
        show (false || imgF (.hcons (.helem t c ch) tl)) = _
        rw [Bool.false_or]

/-- Solidity is unchanged by normalization. -/
theorem solidF_normalizeF (f : HForest) : solidF (normalizeF f) = solidF f := by
  refine (hdoc_mutual_ind
    (fun n => ∀ t c ch, n = .helem t c ch → solidF (normalizeF ch) = solidF ch)
    (fun f => solidF (normalizeF f) = solidF f)
    ?_ ?_ ?_ ?_).2 f
  · intro s t c ch h
    exact absurd h (by simp)
  · intro t c ch ihch t' c' ch' h
    injection h with h1 h2 h3
    subst h3
    exact ihch
  · rfl
  · intro n tl ihn ihtl
    cases n with
    | htext s =>
      show solidF (consTextF s (normalizeF tl)) = _
      rw [solidF_consTextF, ihtl]
      rfl
    | helem t c ch =>
      show (solidN (.helem t c (normalizeF ch)) || solidF (normalizeF tl)) = _
      show (solidF (normalizeF ch) || solidF (normalizeF tl)) = _
      rw [ihn t c ch rfl, ihtl]
      rfl

/-- Img presence is unchanged by normalization. -/
theorem imgF_normalizeF (f : HForest) : imgF (normalizeF f) = imgF f := by
  refine (hdoc_mutual_ind
    (fun n => ∀ t c ch, n = .helem t c ch → imgF (normalizeF ch) = imgF ch)
    (fun f => imgF (normalizeF f) = imgF f)
    ?_ ?_ ?_ ?_).2 f
  · intro s t c ch h
    exact absurd h (by simp)
  · intro t c ch ihch t' c' ch' h
    injection h with h1 h2 h3
    subst h3
    exact ihch
  · rfl
  · intro n tl ihn ihtl
    cases n with
    | htext s =>
      show imgF (consTextF s (normalizeF tl)) = _
      rw [imgF_consTextF, ihtl]
      rfl
    | helem t c ch =>
      show (imgN (.helem t c (normalizeF ch)) || imgF (normalizeF tl)) = _
      show ((decide (t = "img".toList) || imgF (normalizeF ch)) ||
        imgF (normalizeF tl)) = _
      rw [ihn t c ch rfl, ihtl]
      rfl

/-- Solidity is unchanged by the newline collapse. -/
theorem solidF_collapseF (f : HForest) : solidF (collapseF f) = solidF f := by
  refine (hdoc_mutual_ind
    (fun n => solidN (collapseN n) = solidN n)
    (fun f => solidF (collapseF f) = solidF f)
    ?_ ?_ ?_ ?_).2 f
  · intro s
    show hasSolid (collapseNl s) = hasSolid s
    exact hasSolid_collapseNl s
  · intro t c ch ihch
    exact ihch
  · rfl
  · intro n tl ihn ihtl
    show (solidN (collapseN n) || solidF (collapseF tl)) = _
    rw [ihn, ihtl]
    rfl

/-- Img presence is unchanged by the newline collapse. -/
theorem imgF_collapseF (f : HForest) : imgF (collapseF f) = imgF f := by
  refine (hdoc_mutual_ind
    (fun n => imgN (collapseN n) = imgN n)
    (fun f => imgF (collapseF f) = imgF f)
    ?_ ?_ ?_ ?_).2 f
  · intro s
    rfl
  · intro t c ch ihch
    show (decide (t = "img".toList) || imgF (collapseF ch)) = _
    rw [ihch]
    rfl
  · rfl
  · intro n tl ihn ihtl
    show (imgN (collapseN n) || imgF (collapseF tl)) = _
    rw [ihn, ihtl]
    rfl

-- ── Cleanliness: establishment and preservation ─────────────────────────────

theorem noEtPbF_happend : ∀ f g : HForest,
    noEtPbF (happend f g) = (noEtPbF f && noEtPbF g)
  | .hnil, g => by simp [happend, noEtPbF]
  | .hcons n tl, g => by
    show (noEtPbN n && noEtPbF (happend tl g)) = ((noEtPbN n && noEtPbF tl) && noEtPbF g)
    rw [noEtPbF_happend tl g, Bool.and_assoc]

theorem divsOkF_happend : ∀ f g : HForest,
    divsOkF (happend f g) = (divsOkF f && divsOkF g)
  | .hnil, g => by simp [happend, divsOkF]
  | .hcons n tl, g => by
    show (divsOkN n && divsOkF (happend tl g)) = ((divsOkN n && divsOkF tl) && divsOkF g)
    rw [divsOkF_happend tl g, Bool.and_assoc]

/-- Unwrapping removes every `et_pb_` div. -/
theorem noEtPbF_unwrapF (f : HForest) : noEtPbF (unwrapF f) = true := by
  refine (hdoc_mutual_ind
    (fun n => noEtPbF (unwrapN n) = true)
    (fun f => noEtPbF (unwrapF f) = true)
    ?_ ?_ ?_ ?_).2 f
  · intro s
    rfl
  · intro t c ch ihch
    show noEtPbF (unwrapN (.helem t c ch)) = true
    unfold unwrapN
    by_cases h : t = "div".toList ∧ hasEtPb c
    · rw [if_pos h]
      exact ihch
    · rw [if_neg h]
      show (noEtPbN (.helem t c (unwrapF ch)) && noEtPbF .hnil) = true
      show (noEtPbN (.helem t c (unwrapF ch)) && true) = true
      rw [Bool.and_true]
      show (!(decide (t = "div".toList) && hasEtPb c) && noEtPbF (unwrapF ch)) = true
      rw [ihch, Bool.and_true]
      simp only [Bool.not_eq_true']
      by_cases h1 : t = "div".toList
      · by_cases h2 : hasEtPb c
        · exact absurd ⟨h1, h2⟩ h
        · rw [decide_eq_true h1, Bool.true_and]
          exact Bool.eq_false_iff.mpr h2
      · rw [decide_eq_false h1, Bool.false_and]
  · rfl
  · intro n tl ihn ihtl
    show noEtPbF (happend (unwrapN n) (unwrapF tl)) = true
    rw [noEtPbF_happend, ihn, ihtl]
    rfl

/-- Removing empty divs preserves the absence of `et_pb_` divs. -/
theorem noEtPbF_remEmptyF (f : HForest) (h : noEtPbF f = true) :
    noEtPbF (remEmptyF f) = true := by
  refine ((hdoc_mutual_ind
    (fun n => noEtPbN n = true → noEtPbF (remEmptyN n) = true)
    (fun f => noEtPbF f = true → noEtPbF (remEmptyF f) = true)
    ?_ ?_ ?_ ?_).2 f) h
  · intro s _
    rfl
  · intro t c ch ihch hn
    show noEtPbF (remEmptyN (.helem t c ch)) = true
    unfold remEmptyN
    by_cases hcond : t = "div".toList ∧ solidF ch = false ∧ imgF ch = false
    · rw [if_pos hcond]
      rfl
    · rw [if_neg hcond]
      show (noEtPbN (.helem t c (remEmptyF ch)) && true) = true
      rw [Bool.and_true]
      show (!(decide (t = "div".toList) && hasEtPb c) && noEtPbF (remEmptyF ch)) = true
      have hn' : (!(decide (t = "div".toList) && hasEtPb c) && noEtPbF ch) = true := hn
      rw [Bool.and_eq_true] at hn'
      rw [ihch hn'.2, hn'.1]
      rfl
  · intro _
    rfl
  · intro n tl ihn ihtl hf
    have hf' : (noEtPbN n && noEtPbF tl) = true := hf
    rw [Bool.and_eq_true] at hf'
    show noEtPbF (happend (remEmptyN n) (remEmptyF tl)) = true
    rw [noEtPbF_happend, ihn hf'.1, ihtl hf'.2]
    rfl

/-- Removing empty divs keeps solid text when there was solid text. -/
theorem solidF_remEmptyF (f : HForest) (h : solidF f = true) :
    solidF (remEmptyF f) = true := by
  refine ((hdoc_mutual_ind
    (fun n => solidN n = true → solidF (remEmptyN n) = true)
    (fun f => solidF f = true → solidF (remEmptyF f) = true)
    ?_ ?_ ?_ ?_).2 f) h
  · intro s hs
    have hs' : hasSolid s = true := hs
    show (hasSolid s || false) = true
    rw [hs']
    rfl
  · intro t c ch ihch hn
    have hch : solidF ch = true := hn
    show solidF (remEmptyN (.helem t c ch)) = true
    unfold remEmptyN
    by_cases hcond : t = "div".toList ∧ solidF ch = false ∧ imgF ch = false
    · rw [hcond.2.1] at hch
      exact absurd hch (by simp)
    · rw [if_neg hcond]
      show (solidN (.helem t c (remEmptyF ch)) || false) = true
      show (solidF (remEmptyF ch) || false) = true
      rw [ihch hch]
      rfl
  · intro h0
    exact h0
  · intro n tl ihn ihtl hf
    show solidF (happend (remEmptyN n) (remEmptyF tl)) = true
    rw [solidF_happend]
    have hf' : (solidN n || solidF tl) = true := hf
    rcases Bool.or_eq_true_iff.mp hf' with h1 | h1
    · rw [ihn h1]
      rfl
    · rw [ihtl h1]
      simp

/-- Removing empty divs keeps img elements when there was one. -/
theorem imgF_remEmptyF (f : HForest) (h : imgF f = true) :
    imgF (remEmptyF f) = true := by
  refine ((hdoc_mutual_ind
    (fun n => imgN n = true → imgF (remEmptyN n) = true)
    (fun f => imgF f = true → imgF (remEmptyF f) = true)
    ?_ ?_ ?_ ?_).2 f) h
  · intro s hs
    exact absurd hs (by simp [imgN])
  · intro t c ch ihch hn
    have hn' : (decide (t = "img".toList) || imgF ch) = true := hn
    show imgF (remEmptyN (.helem t c ch)) = true
    unfold remEmptyN
    by_cases hcond : t = "div".toList ∧ solidF ch = false ∧ imgF ch = false
    · exfalso
      rcases Bool.or_eq_true_iff.mp hn' with h1 | h1
      · have := of_decide_eq_true h1
        rw [hcond.1] at this
        exact absurd this (by decide)
      · rw [hcond.2.2] at h1
        exact absurd h1 (by simp)
    · rw [if_neg hcond]
      show (imgN (.helem t c (remEmptyF ch)) || false) = true
      show ((decide (t = "img".toList) || imgF (remEmptyF ch)) || false) = true
      rcases Bool.or_eq_true_iff.mp hn' with h1 | h1
      · rw [h1]
        rfl
      · rw [ihch h1]
        simp
  · intro h0
    exact h0
  · intro n tl ihn ihtl hf
    show imgF (happend (remEmptyN n) (remEmptyF tl)) = true
    rw [imgF_happend]
    have hf' : (imgN n || imgF tl) = true := hf
    rcases Bool.or_eq_true_iff.mp hf' with h1 | h1
    · rw [ihn h1]
      rfl
    · rw [ihtl h1]
      simp

/-- After removing empty divs, every remaining div has solid text or an
img. -/
theorem divsOkF_remEmptyF (f : HForest) : divsOkF (remEmptyF f) = true := by
  refine (hdoc_mutual_ind
    (fun n => divsOkF (remEmptyN n) = true)
    (fun f => divsOkF (remEmptyF f) = true)
    ?_ ?_ ?_ ?_).2 f
  · intro s
    rfl
  · intro t c ch ihch
    show divsOkF (remEmptyN (.helem t c ch)) = true
    unfold remEmptyN
    by_cases hcond : t = "div".toList ∧ solidF ch = false ∧ imgF ch = false
    · rw [if_pos hcond]
      rfl
    · rw [if_neg hcond]
      show (divsOkN (.helem t c (remEmptyF ch)) && true) = true
      rw [Bool.and_true]
      show ((!(decide (t = "div".toList)) || (solidF (remEmptyF ch) ||
        imgF (remEmptyF ch))) && divsOkF (remEmptyF ch)) = true
      rw [ihch, Bool.and_true]
      by_cases hdiv : t = "div".toList
      · have hsi : solidF ch = true ∨ imgF ch = true := by
          by_contra hcon
          push_neg at hcon
          exact hcond ⟨hdiv, Bool.eq_false_iff.mpr hcon.1, Bool.eq_false_iff.mpr hcon.2⟩
        rcases hsi with h1 | h1
        · rw [solidF_remEmptyF ch h1]
          simp
        · rw [imgF_remEmptyF ch h1]
          simp
      · rw [decide_eq_false hdiv]
        rfl
  · rfl
  · intro n tl ihn ihtl
    show divsOkF (happend (remEmptyN n) (remEmptyF tl)) = true
    rw [divsOkF_happend, ihn, ihtl]
    rfl

/-- Without `et_pb_` divs, unwrapping changes nothing. -/
theorem unwrapF_id (f : HForest) (h : noEtPbF f = true) : unwrapF f = f := by
  refine ((hdoc_mutual_ind
    (fun n => noEtPbN n = true → unwrapN n = .hcons n .hnil)
    (fun f => noEtPbF f = true → unwrapF f = f)
    ?_ ?_ ?_ ?_).2 f) h
  · intro s _
    rfl
  · intro t c ch ihch hn
    have hn' : (!(decide (t = "div".toList) && hasEtPb c) && noEtPbF ch) = true := hn
    rw [Bool.and_eq_true] at hn'
    show unwrapN (.helem t c ch) = _
    unfold unwrapN
    have hcond : ¬ (t = "div".toList ∧ hasEtPb c) := by
      intro ⟨h1, h2⟩
      have := hn'.1
      rw [h2, decide_eq_true h1] at this
      exact absurd this (by decide)
    rw [if_neg hcond, ihch hn'.2]
  · intro _
    rfl
  · intro n tl ihn ihtl hf
    have hf' : (noEtPbN n && noEtPbF tl) = true := hf
    rw [Bool.and_eq_true] at hf'
    show happend (unwrapN n) (unwrapF tl) = .hcons n tl
    rw [ihn hf'.1, ihtl hf'.2]
    rfl

/-- With every div non-empty, removing empty divs changes nothing. -/
theorem remEmptyF_id (f : HForest) (h : divsOkF f = true) : remEmptyF f = f := by
  refine ((hdoc_mutual_ind
    (fun n => divsOkN n = true → remEmptyN n = .hcons n .hnil)
    (fun f => divsOkF f = true → remEmptyF f = f)
    ?_ ?_ ?_ ?_).2 f) h
  · intro s _
    rfl
  · intro t c ch ihch hn
    have hn' : ((!(decide (t = "div".toList)) || (solidF ch || imgF ch)) &&
      divsOkF ch) = true := hn
    rw [Bool.and_eq_true] at hn'
    show remEmptyN (.helem t c ch) = _
    unfold remEmptyN
    have hcond : ¬ (t = "div".toList ∧ solidF ch = false ∧ imgF ch = false) := by
      intro ⟨h1, h2, h3⟩
      have := hn'.1
      rw [decide_eq_true h1, h2, h3] at this
      exact absurd this (by decide)
    rw [if_neg hcond, ihch hn'.2]
  · intro _
    rfl
  · intro n tl ihn ihtl hf
    have hf' : (divsOkN n && divsOkF tl) = true := hf
    rw [Bool.and_eq_true] at hf'
    show happend (remEmptyN n) (remEmptyF tl) = .hcons n tl
    rw [ihn hf'.1, ihtl hf'.2]
    rfl

-- ── Preservation of cleanliness and normal form by the text passes ──────────

theorem noEtPbF_consTextF (s : Str) (f : HForest) :
    noEtPbF (consTextF s f) = noEtPbF f := by
  unfold consTextF
  by_cases hs : s = []
  · simp [hs]
  · rw [if_neg hs]
    cases f with
    | hnil => rfl
    | hcons n tl =>
      cases n with
      | htext s2 => rfl
      | helem t c ch =>
        show (noEtPbN (.htext s) && noEtPbF (.hcons (.helem t c ch) tl)) = _
        show (true && noEtPbF (.hcons (.helem t c ch) tl)) = _
        rw [Bool.true_and]

theorem divsOkF_consTextF (s : Str) (f : HForest) :
    divsOkF (consTextF s f) = divsOkF f := by
  unfold consTextF
  by_cases hs : s = []
  · simp [hs]
  · rw [if_neg hs]
    cases f with
    | hnil => rfl
    | hcons n tl =>
      cases n with
      | htext s2 => rfl
      | helem t c ch =>
        show (divsOkN (.htext s) && divsOkF (.hcons (.helem t c ch) tl)) = _
        show (true && divsOkF (.hcons (.helem t c ch) tl)) = _
        rw [Bool.true_and]

theorem noEtPbF_normalizeF (f : HForest) : noEtPbF (normalizeF f) = noEtPbF f := by
  refine (hdoc_mutual_ind
    (fun n => ∀ t c ch, n = .helem t c ch → noEtPbF (normalizeF ch) = noEtPbF ch)
    (fun f => noEtPbF (normalizeF f) = noEtPbF f)
    ?_ ?_ ?_ ?_).2 f
  · intro s t c ch h
    exact absurd h (by simp)
  · intro t c ch ihch t' c' ch' h
    injection h with h1 h2 h3
    subst h3
    exact ihch
  · rfl
  · intro n tl ihn ihtl
    cases n with
    | htext s =>
      show noEtPbF (consTextF s (normalizeF tl)) = _
      rw [noEtPbF_consTextF, ihtl]
      rfl
    | helem t c ch =>
      show (noEtPbN (.helem t c (normalizeF ch)) && noEtPbF (normalizeF tl)) = _
      show ((!(decide (t = "div".toList) && hasEtPb c) && noEtPbF (normalizeF ch)) &&
        noEtPbF (normalizeF tl)) = _
      rw [ihn t c ch rfl, ihtl]
      rfl

theorem divsOkF_normalizeF (f : HForest) : divsOkF (normalizeF f) = divsOkF f := by
  refine (hdoc_mutual_ind
    (fun n => ∀ t c ch, n = .helem t c ch → divsOkF (normalizeF ch) = divsOkF ch)
    (fun f => divsOkF (normalizeF f) = divsOkF f)
    ?_ ?_ ?_ ?_).2 f
  · intro s t c ch h
    exact absurd h (by simp)
  · intro t c ch ihch t' c' ch' h
    injection h with h1 h2 h3
    subst h3
    exact ihch
  · rfl
  · intro n tl ihn ihtl
    cases n with
    | htext s =>
      show divsOkF (consTextF s (normalizeF tl)) = _
      rw [divsOkF_consTextF, ihtl]
      rfl
    | helem t c ch =>
      show (divsOkN (.helem t c (normalizeF ch)) && divsOkF (normalizeF tl)) = _
      show (((!(decide (t = "div".toList)) || (solidF (normalizeF ch) ||
        imgF (normalizeF ch))) && divsOkF (normalizeF ch)) &&
        divsOkF (normalizeF tl)) = _
      rw [solidF_normalizeF, imgF_normalizeF, ihn t c ch rfl, ihtl]
      rfl

theorem noEtPbF_collapseF (f : HForest) : noEtPbF (collapseF f) = noEtPbF f := by
  refine (hdoc_mutual_ind
    (fun n => noEtPbN (collapseN n) = noEtPbN n)
    (fun f => noEtPbF (collapseF f) = noEtPbF f)
    ?_ ?_ ?_ ?_).2 f
  · intro s
    rfl
  · intro t c ch ihch
    show (!(decide (t = "div".toList) && hasEtPb c) && noEtPbF (collapseF ch)) = _
    rw [ihch]
    rfl
  · rfl
  · intro n tl ihn ihtl
    show (noEtPbN (collapseN n) && noEtPbF (collapseF tl)) = _
    rw [ihn, ihtl]
    rfl

theorem divsOkF_collapseF (f : HForest) : divsOkF (collapseF f) = divsOkF f := by
  refine (hdoc_mutual_ind
    (fun n => divsOkN (collapseN n) = divsOkN n)
    (fun f => divsOkF (collapseF f) = divsOkF f)
    ?_ ?_ ?_ ?_).2 f
  · intro s
    rfl
  · intro t c ch ihch
    show ((!(decide (t = "div".toList)) || (solidF (collapseF ch) ||
      imgF (collapseF ch))) && divsOkF (collapseF ch)) = _
    rw [solidF_collapseF, imgF_collapseF, ihch]
    rfl
  · rfl
  · intro n tl ihn ihtl
    show (divsOkN (collapseN n) && divsOkF (collapseF tl)) = _
    rw [ihn, ihtl]
    rfl

theorem noEtPbF_lstripF (f : HForest) (h : noEtPbF f = true) :
    noEtPbF (lstripF f) = true := by
  cases f with
  | hnil => rfl
  | hcons n tl =>
    cases n with
    | htext s =>
      show noEtPbF (if pyLStrip s = [] then tl
        else .hcons (.htext (pyLStrip s)) tl) = true
      have h' : (noEtPbN (.htext s) && noEtPbF tl) = true := h
      rw [Bool.and_eq_true] at h'
      by_cases hls : pyLStrip s = []
      · rw [if_pos hls]
        exact h'.2
      · rw [if_neg hls]
        show (true && noEtPbF tl) = true
        rw [Bool.true_and]
        exact h'.2
    | helem t c ch => exact h

theorem divsOkF_lstripF (f : HForest) (h : divsOkF f = true) :
    divsOkF (lstripF f) = true := by
  cases f with
  | hnil => rfl
  | hcons n tl =>
    cases n with
    | htext s =>
      show divsOkF (if pyLStrip s = [] then tl
        else .hcons (.htext (pyLStrip s)) tl) = true
      have h' : (divsOkN (.htext s) && divsOkF tl) = true := h
      rw [Bool.and_eq_true] at h'
      by_cases hls : pyLStrip s = []
      · rw [if_pos hls]
        exact h'.2
      · rw [if_neg hls]
        show (true && divsOkF tl) = true
        rw [Bool.true_and]
        exact h'.2
    | helem t c ch => exact h

theorem noEtPbF_rstripF : ∀ f : HForest, noEtPbF f = true →
    noEtPbF (rstripF f) = true
  | .hnil, _ => rfl
  | .hcons n .hnil, h => by
    cases n with
    | htext s =>
      show noEtPbF (if pyRStrip s = [] then .hnil
        else .hcons (.htext (pyRStrip s)) .hnil) = true
      by_cases hrs : pyRStrip s = []
      · rw [if_pos hrs]
        rfl
      · rw [if_neg hrs]
        rfl
    | helem t c ch => exact h
  | .hcons n (.hcons m tl), h => by
    have h' : (noEtPbN n && noEtPbF (.hcons m tl)) = true := h
    rw [Bool.and_eq_true] at h'
    show (noEtPbN n && noEtPbF (rstripF (.hcons m tl))) = true
    rw [h'.1, noEtPbF_rstripF (.hcons m tl) h'.2]
    rfl

theorem divsOkF_rstripF : ∀ f : HForest, divsOkF f = true →
    divsOkF (rstripF f) = true
  | .hnil, _ => rfl
  | .hcons n .hnil, h => by
    cases n with
    | htext s =>
      show divsOkF (if pyRStrip s = [] then .hnil
        else .hcons (.htext (pyRStrip s)) .hnil) = true
      by_cases hrs : pyRStrip s = []
      · rw [if_pos hrs]
        rfl
      · rw [if_neg hrs]
        rfl
    | helem t c ch => exact h
  | .hcons n (.hcons m tl), h => by
    have h' : (divsOkN n && divsOkF (.hcons m tl)) = true := h
    rw [Bool.and_eq_true] at h'
    show (divsOkN n && divsOkF (rstripF (.hcons m tl))) = true
    rw [h'.1, divsOkF_rstripF (.hcons m tl) h'.2]
    rfl

-- ── Normal form: establishment and preservation ─────────────────────────────

theorem collapseAux_ne_nil : ∀ (s : Str) (p : Nat), 0 < p ∨ s ≠ [] →
    collapseAux p s ≠ []
  | [], p, h => by
    rcases h with h | h
    · rw [collapseAux_nil]
      unfold nlOut
      simp only [ne_eq, List.replicate_eq_nil_iff]
      omega
    · exact absurd rfl h
  | c :: rest, p, _ => by
    by_cases hc : c = '\n'
    · subst hc
      rw [collapseAux_cons_nl]
      exact collapseAux_ne_nil rest (p + 1) (Or.inl (by omega))
    · rw [collapseAux_cons_ne p rest hc]
      simp

theorem collapseNl_ne_nil {s : Str} (h : s ≠ []) : collapseNl s ≠ [] :=
  collapseAux_ne_nil s 0 (Or.inr h)

theorem isTextN_collapseN (n : HNode) : isTextN (collapseN n) = isTextN n := by
  cases n <;> rfl

theorem textHeadF_collapseF (f : HForest) :
    textHeadF (collapseF f) = textHeadF f := by
  cases f with
  | hnil => rfl
  | hcons n tl => cases n <;> rfl

theorem normedF_consTextF (s : Str) (f : HForest) (h : normedF f = true) :
    normedF (consTextF s f) = true := by
  unfold consTextF
  by_cases hs : s = []
  · rw [if_pos hs]
    exact h
  · rw [if_neg hs]
    cases f with
    | hnil => simp [normedF, normedN, isTextN, textHeadF, hs]
    | hcons n tl =>
      cases n with
      | htext s2 =>
        simp only [normedF, normedN, isTextN, textHeadF, Bool.and_eq_true,
          Bool.not_eq_true', Bool.true_and, decide_eq_true_eq] at h ⊢
        exact ⟨⟨by simp [hs], h.1.2⟩, h.2⟩
      | helem t c ch =>
        simp only [normedF, normedN, isTextN, textHeadF, Bool.and_eq_true,
          Bool.not_eq_true', Bool.true_and, decide_eq_true_eq] at h ⊢
        exact ⟨⟨hs, trivial⟩, h⟩

theorem normedF_normalizeF (f : HForest) : normedF (normalizeF f) = true := by
  refine (hdoc_mutual_ind
    (fun n => ∀ t c ch, n = .helem t c ch → normedF (normalizeF ch) = true)
    (fun f => normedF (normalizeF f) = true)
    ?_ ?_ ?_ ?_).2 f
  · intro s t c ch h
    exact absurd h (by simp)
  · intro t c ch ihch t' c' ch' h
    injection h with h1 h2 h3
    subst h3
    exact ihch
  · rfl
  · intro n tl ihn ihtl
    cases n with
    | htext s =>
      show normedF (consTextF s (normalizeF tl)) = true
      exact normedF_consTextF s (normalizeF tl) ihtl
    | helem t c ch =>
      show normedF (.hcons (.helem t c (normalizeF ch)) (normalizeF tl)) = true
      simp only [normedF, normedN, isTextN, Bool.and_eq_true, Bool.not_eq_true',
        Bool.false_and, Bool.not_false]
      exact ⟨⟨ihn t c ch rfl, trivial⟩, ihtl⟩

theorem normedF_collapseF (f : HForest) (h : normedF f = true) :
    normedF (collapseF f) = true := by
  refine (hdoc_mutual_ind
    (fun n => normedN n = true → normedN (collapseN n) = true)
    (fun f => normedF f = true → normedF (collapseF f) = true)
    ?_ ?_ ?_ ?_).2 f h
  · intro s hn
    show normedN (.htext (collapseNl s)) = true
    have hs : s ≠ [] := by
      have : decide (s ≠ []) = true := hn
      exact of_decide_eq_true this
    exact decide_eq_true (collapseNl_ne_nil hs)
  · intro t c ch ihch hn
    exact ihch hn
  · intro _
    rfl
  · intro n tl ihn ihtl h
    simp only [normedF, Bool.and_eq_true, Bool.not_eq_true'] at h ⊢
    rw [isTextN_collapseN, textHeadF_collapseF]
    exact ⟨⟨ihn h.1.1, h.1.2⟩, ihtl h.2⟩

theorem normedF_lstripF (f : HForest) (h : normedF f = true) :
    normedF (lstripF f) = true := by
  cases f with
  | hnil => rfl
  | hcons n tl =>
    cases n with
    | htext s =>
      show normedF (if pyLStrip s = [] then tl
        else .hcons (.htext (pyLStrip s)) tl) = true
      simp only [normedF, normedN, isTextN, textHeadF, Bool.and_eq_true,
        Bool.not_eq_true', Bool.true_and, decide_eq_true_eq] at h
      by_cases hls : pyLStrip s = []
      · rw [if_pos hls]
        exact h.2
      · rw [if_neg hls]
        simp only [normedF, normedN, isTextN, textHeadF, Bool.and_eq_true,
          Bool.not_eq_true', Bool.true_and, decide_eq_true_eq]
        exact ⟨⟨hls, h.1.2⟩, h.2⟩
    | helem t c ch => exact h

theorem textHeadF_rstripF (f : HForest) (h : textHeadF (rstripF f) = true) :
    textHeadF f = true := by
  cases f with
  | hnil => exact h
  | hcons n tl =>
    cases tl with
    | hnil =>
      cases n with
      | htext s => rfl
      | helem t c ch => exact h
    | hcons m tl2 =>
      cases n with
      | htext s => rfl
      | helem t c ch => exact h

theorem normedF_rstripF : ∀ f : HForest, normedF f = true →
    normedF (rstripF f) = true
  | .hnil, _ => rfl
  | .hcons n .hnil, h => by
    cases n with
    | htext s =>
      show normedF (if pyRStrip s = [] then .hnil
        else .hcons (.htext (pyRStrip s)) .hnil) = true
      by_cases hrs : pyRStrip s = []
      · rw [if_pos hrs]
        rfl
      · rw [if_neg hrs]
        simp [normedF, normedN, isTextN, textHeadF, hrs]
    | helem t c ch => exact h
  | .hcons n (.hcons m tl), h => by
    have h' : ((normedN n && !(isTextN n && textHeadF (.hcons m tl))) &&
        normedF (.hcons m tl)) = true := h
    rw [Bool.and_eq_true, Bool.and_eq_true] at h'
    show ((normedN n && !(isTextN n && textHeadF (rstripF (.hcons m tl)))) &&
      normedF (rstripF (.hcons m tl))) = true
    rw [Bool.and_eq_true, Bool.and_eq_true]
    refine ⟨⟨h'.1.1, ?_⟩, normedF_rstripF (.hcons m tl) h'.2⟩
    rw [Bool.not_eq_true']
    have hmid : (isTextN n && textHeadF (.hcons m tl)) = false := by
      have hh := h'.1.2
      rwa [Bool.not_eq_true'] at hh
    by_cases hi : isTextN n = true
    · rw [hi, Bool.true_and] at hmid ⊢
      by_cases ht : textHeadF (rstripF (.hcons m tl)) = true
      · exact absurd (textHeadF_rstripF _ ht) (by rw [hmid]; simp)
      · exact Bool.eq_false_iff.mpr ht
    · rw [Bool.eq_false_iff.mpr hi, Bool.false_and]

-- ── Validity: preservation ──────────────────────────────────────────────────

theorem validF_happend : ∀ (f g : HForest),
    validF (happend f g) = (validF f && validF g)
  | .hnil, g => by
    show validF g = (true && validF g)
    rw [Bool.true_and]
  | .hcons n tl, g => by
    show (validN n && validF (happend tl g)) = ((validN n && validF tl) && validF g)
    rw [validF_happend tl g, Bool.and_assoc]

theorem validF_consTextF (s : Str) (f : HForest) :
    validF (consTextF s f) = validF f := by
  unfold consTextF
  by_cases hs : s = []
  · simp [hs]
  · rw [if_neg hs]
    cases f with
    | hnil => rfl
    | hcons n tl =>
      cases n with
      | htext s2 => rfl
      | helem t c ch =>
        show (validN (.htext s) && validF (.hcons (.helem t c ch) tl)) = _
        show (true && validF (.hcons (.helem t c ch) tl)) = _
        rw [Bool.true_and]

theorem validF_unwrapF (f : HForest) (h : validF f = true) :
    validF (unwrapF f) = true := by
  refine (hdoc_mutual_ind
    (fun n => validN n = true → validF (unwrapN n) = true)
    (fun f => validF f = true → validF (unwrapF f) = true)
    ?_ ?_ ?_ ?_).2 f h
  · intro s _
    rfl
  · intro t c ch ihch hn
    simp only [validN, Bool.and_eq_true] at hn
    show validF (if t = "div".toList ∧ hasEtPb c then unwrapF ch
      else .hcons (.helem t c (unwrapF ch)) .hnil) = true
    by_cases hdiv : t = "div".toList ∧ hasEtPb c
    · rw [if_pos hdiv]
      exact ihch hn.2
    · rw [if_neg hdiv]
      show (validN (.helem t c (unwrapF ch)) && validF .hnil) = true
      simp only [validN, validF, Bool.and_eq_true, Bool.and_true]
      exact ⟨hn.1, ihch hn.2⟩
  · intro _
    rfl
  · intro n tl ihn ihtl h
    simp only [validF, Bool.and_eq_true] at h
    show validF (happend (unwrapN n) (unwrapF tl)) = true
    rw [validF_happend, Bool.and_eq_true]
    exact ⟨ihn h.1, ihtl h.2⟩

theorem validF_remEmptyF (f : HForest) (h : validF f = true) :
    validF (remEmptyF f) = true := by
  refine (hdoc_mutual_ind
    (fun n => validN n = true → validF (remEmptyN n) = true)
    (fun f => validF f = true → validF (remEmptyF f) = true)
    ?_ ?_ ?_ ?_).2 f h
  · intro s _
    rfl
  · intro t c ch ihch hn
    simp only [validN, Bool.and_eq_true] at hn
    show validF (if t = "div".toList ∧ solidF ch = false ∧ imgF ch = false
      then .hnil else .hcons (.helem t c (remEmptyF ch)) .hnil) = true
    by_cases hdiv : t = "div".toList ∧ solidF ch = false ∧ imgF ch = false
    · rw [if_pos hdiv]
      rfl
    · rw [if_neg hdiv]
      show (validN (.helem t c (remEmptyF ch)) && validF .hnil) = true
      simp only [validN, validF, Bool.and_eq_true, Bool.and_true]
      exact ⟨hn.1, ihch hn.2⟩
  · intro _
    rfl
  · intro n tl ihn ihtl h
    simp only [validF, Bool.and_eq_true] at h
    show validF (happend (remEmptyN n) (remEmptyF tl)) = true
    rw [validF_happend, Bool.and_eq_true]
    exact ⟨ihn h.1, ihtl h.2⟩

theorem validF_normalizeF (f : HForest) : validF (normalizeF f) = validF f := by
  refine (hdoc_mutual_ind
    (fun n => ∀ t c ch, n = .helem t c ch → validF (normalizeF ch) = validF ch)
    (fun f => validF (normalizeF f) = validF f)
    ?_ ?_ ?_ ?_).2 f
  · intro s t c ch h
    exact absurd h (by simp)
  · intro t c ch ihch t' c' ch' h
    injection h with h1 h2 h3
    subst h3
    exact ihch
  · rfl
  · intro n tl ihn ihtl
    cases n with
    | htext s =>
      show validF (consTextF s (normalizeF tl)) = _
      rw [validF_consTextF, ihtl]
      rfl
    | helem t c ch =>
      show (validN (.helem t c (normalizeF ch)) && validF (normalizeF tl)) = _
      show ((decide (t ≠ []) && t.all isLowerAlpha &&
        c.all (fun w => decide (w ≠ []) &&
          w.all (fun d => !pyIsSpace d && decide (d ≠ '"'))) &&
        validF (normalizeF ch)) && validF (normalizeF tl)) = _
      rw [ihn t c ch rfl, ihtl]
      rfl

theorem validF_collapseF (f : HForest) : validF (collapseF f) = validF f := by
  refine (hdoc_mutual_ind
    (fun n => validN (collapseN n) = validN n)
    (fun f => validF (collapseF f) = validF f)
    ?_ ?_ ?_ ?_).2 f
  · intro s
    rfl
  · intro t c ch ihch
    show (decide (t ≠ []) && t.all isLowerAlpha &&
      c.all (fun w => decide (w ≠ []) &&
        w.all (fun d => !pyIsSpace d && decide (d ≠ '"'))) &&
      validF (collapseF ch)) = _
    rw [ihch]
    rfl
  · rfl
  · intro n tl ihn ihtl
    show (validN (collapseN n) && validF (collapseF tl)) = _
    rw [ihn, ihtl]
    rfl

theorem validF_lstripF (f : HForest) (h : validF f = true) :
    validF (lstripF f) = true := by
  cases f with
  | hnil => rfl
  | hcons n tl =>
    cases n with
    | htext s =>
      show validF (if pyLStrip s = [] then tl
        else .hcons (.htext (pyLStrip s)) tl) = true
      have h' : (validN (.htext s) && validF tl) = true := h
      rw [Bool.and_eq_true] at h'
      by_cases hls : pyLStrip s = []
      · rw [if_pos hls]
        exact h'.2
      · rw [if_neg hls]
        show (true && validF tl) = true
        rw [Bool.true_and]
        exact h'.2
    | helem t c ch => exact h

theorem validF_rstripF : ∀ f : HForest, validF f = true →
    validF (rstripF f) = true
  | .hnil, _ => rfl
  | .hcons n .hnil, h => by
    cases n with
    | htext s =>
      show validF (if pyRStrip s = [] then .hnil
        else .hcons (.htext (pyRStrip s)) .hnil) = true
      by_cases hrs : pyRStrip s = []
      · rw [if_pos hrs]
        rfl
      · rw [if_neg hrs]
        rfl
    | helem t c ch => exact h
  | .hcons n (.hcons m tl), h => by
    have h' : (validN n && validF (.hcons m tl)) = true := h
    rw [Bool.and_eq_true] at h'
    show (validN n && validF (rstripF (.hcons m tl))) = true
    rw [h'.1, validF_rstripF (.hcons m tl) h'.2]
    rfl

-- ── Triple-newline freedom of the serialized document ───────────────────────

mutual
/-- Every text node's content is free of triple newlines. -/
def txtOkN : HNode → Prop
  | .htext s => noNl3 s
  | .helem _ _ ch => txtOkF ch
/-- `txtOkN` over a forest. -/
def txtOkF : HForest → Prop
  | .hnil => True
  | .hcons n tl => txtOkN n ∧ txtOkF tl
end

theorem pyRStrip_splits (s : Str) :
    s = pyRStrip s ++ (s.reverse.takeWhile pyIsSpace).reverse := by
  unfold pyRStrip pyLStrip
  conv_lhs => rw [← List.reverse_reverse s,
    ← List.takeWhile_append_dropWhile pyIsSpace s.reverse]
  rw [List.reverse_append]

theorem noNl3_pyLStrip {s : Str} (h : noNl3 s) : noNl3 (pyLStrip s) :=
  noNl3_dropWhile h

theorem noNl3_pyRStrip {s : Str} (h : noNl3 s) : noNl3 (pyRStrip s) :=
  noNl3_of_prefix (pyRStrip_splits s) h

theorem txtOkF_collapseF (f : HForest) : txtOkF (collapseF f) := by
  refine (hdoc_mutual_ind
    (fun n => txtOkN (collapseN n))
    (fun f => txtOkF (collapseF f))
    ?_ ?_ ?_ ?_).2 f
  · intro s
    exact noNl3_collapseNl s
  · intro t c ch ihch
    exact ihch
  · trivial
  · intro n tl ihn ihtl
    exact ⟨ihn, ihtl⟩

theorem txtOkF_lstripF (f : HForest) (h : txtOkF f) : txtOkF (lstripF f) := by
  cases f with
  | hnil => trivial
  | hcons n tl =>
    cases n with
    | htext s =>
      show txtOkF (if pyLStrip s = [] then tl
        else .hcons (.htext (pyLStrip s)) tl)
      by_cases hls : pyLStrip s = []
      · rw [if_pos hls]
        exact h.2
      · rw [if_neg hls]
        exact ⟨noNl3_pyLStrip h.1, h.2⟩
    | helem t c ch => exact h

theorem txtOkF_rstripF : ∀ f : HForest, txtOkF f → txtOkF (rstripF f)
  | .hnil, _ => trivial
  | .hcons n .hnil, h => by
    cases n with
    | htext s =>
      show txtOkF (if pyRStrip s = [] then .hnil
        else .hcons (.htext (pyRStrip s)) .hnil)
      by_cases hrs : pyRStrip s = []
      · rw [if_pos hrs]
        trivial
      · rw [if_neg hrs]
        exact ⟨noNl3_pyRStrip h.1, trivial⟩
    | helem t c ch => exact h
  | .hcons n (.hcons m tl), h => by
    show txtOkF (.hcons n (rstripF (.hcons m tl)))
    exact ⟨h.1, txtOkF_rstripF (.hcons m tl) h.2⟩

theorem mem_joinSpace {c : Char} : ∀ {l : List Str}, c ∈ joinSpace l →
    c = ' ' ∨ ∃ w ∈ l, c ∈ w
  | [], h => by simp [joinSpace] at h
  | [w], h => by
    right
    exact ⟨w, by simp, h⟩
  | w :: v :: rest, h => by
    have : c ∈ w ++ ' ' :: joinSpace (v :: rest) := h
    rcases List.mem_append.mp this with h1 | h1
    · exact Or.inr ⟨w, by simp, h1⟩
    · rcases List.mem_cons.mp h1 with h2 | h2
      · exact Or.inl h2
      · rcases mem_joinSpace h2 with h3 | ⟨u, hu, hcu⟩
        · exact Or.inl h3
        · exact Or.inr ⟨u, by simp [hu], hcu⟩

theorem clsAttr_nlfree {c : List Str}
    (h : ∀ w ∈ c, ∀ d ∈ w, pyIsSpace d = false) :
    ∀ d ∈ clsAttr c, d ≠ '\n' := by
  intro d hd
  unfold clsAttr at hd
  by_cases hc : c = []
  · rw [if_pos hc] at hd
    simp at hd
  · rw [if_neg hc] at hd
    rcases List.mem_append.mp hd with h1 | h1
    · rcases List.mem_append.mp h1 with h2 | h2
      · exact (by decide : ∀ x ∈ " class=\"".toList, x ≠ '\n') d h2
      · rcases mem_joinSpace h2 with h3 | ⟨w, hw, hdw⟩
        · subst h3
          decide
        · intro hdn
          have := h w hw d hdw
          rw [hdn] at this
          exact absurd this (by decide)
    · exact (by decide : ∀ x ∈ "\"".toList, x ≠ '\n') d h1

theorem tag_nlfree {t : Str} (h : t.all isLowerAlpha = true) :
    ∀ d ∈ t, d ≠ '\n' := by
  intro d hd hdn
  have := List.all_eq_true.mp h d hd
  rw [hdn] at this
  exact absurd this (by decide)

theorem validN_elem_parts {t : Str} {c : List Str} {ch : HForest}
    (h : validN (.helem t c ch) = true) :
    t ≠ [] ∧ t.all isLowerAlpha = true ∧
    (∀ w ∈ c, w ≠ [] ∧ ∀ d ∈ w, pyIsSpace d = false ∧ d ≠ '"') ∧
    validF ch = true := by
  have h' : (decide (t ≠ []) && t.all isLowerAlpha &&
      c.all (fun w => decide (w ≠ []) &&
        w.all (fun d => !pyIsSpace d && decide (d ≠ '"'))) &&
      validF ch) = true := h
  simp only [Bool.and_eq_true, decide_eq_true_eq, List.all_eq_true,
    Bool.not_eq_true'] at h'
  refine ⟨h'.1.1.1, List.all_eq_true.mpr h'.1.1.2, ?_, h'.2⟩
  intro w hw
  have hwp := h'.1.2 w hw
  exact ⟨hwp.1, fun d hd => (hwp.2 d hd)⟩

theorem openTag_nlfree {t : Str} {c : List Str}
    (ht : t.all isLowerAlpha = true)
    (hc : ∀ w ∈ c, ∀ d ∈ w, pyIsSpace d = false) :
    ∀ d ∈ '<' :: (t ++ clsAttr c ++ ['>']), d ≠ '\n' := by
  intro d hd
  rcases List.mem_cons.mp hd with h1 | h1
  · subst h1
    decide
  · rcases List.mem_append.mp h1 with h2 | h2
    · rcases List.mem_append.mp h2 with h3 | h3
      · exact tag_nlfree ht d h3
      · exact clsAttr_nlfree hc d h3
    · rcases List.mem_singleton.mp h2 with h3
      subst h3
      decide

theorem closeTag_nlfree {t : Str} (ht : t.all isLowerAlpha = true) :
    ∀ d ∈ '<' :: '/' :: (t ++ ['>']), d ≠ '\n' := by
  intro d hd
  rcases List.mem_cons.mp hd with h1 | h1
  · subst h1
    decide
  · rcases List.mem_cons.mp h1 with h2 | h2
    · subst h2
      decide
    · rcases List.mem_append.mp h2 with h3 | h3
      · exact tag_nlfree ht d h3
      · rcases List.mem_singleton.mp h3 with h4
        subst h4
        decide

theorem serNode_elem_getLast (t : Str) (c : List Str) (ch : HForest) :
    (serNode (.helem t c ch)).getLast? = some '>' := by
  show ((('<' :: (t ++ clsAttr c ++ ['>'])) ++ serForest ch) ++
    ('<' :: '/' :: (t ++ ['>']))).getLast? = some '>'
  rw [List.getLast?_append_of_ne_nil _ (by simp)]
  rw [show ('<' :: '/' :: (t ++ ['>'])) = ('<' :: '/' :: t) ++ ['>'] by simp]
  exact List.getLast?_concat _

theorem serNode_elem_head (t : Str) (c : List Str) (ch : HForest) :
    (serNode (.helem t c ch)).head? = some '<' := rfl

theorem openTag_getLast (t : Str) (c : List Str) :
    ('<' :: (t ++ clsAttr c ++ ['>'])).getLast? = some '>' := by
  rw [show ('<' :: (t ++ clsAttr c ++ ['>'])) =
    ('<' :: (t ++ clsAttr c)) ++ ['>'] by simp]
  exact List.getLast?_concat _

theorem noNl3_serForest (f : HForest) (hv : validF f = true)
    (hn : normedF f = true) (ht : txtOkF f) : noNl3 (serForest f) := by
  refine (hdoc_mutual_ind
    (fun n => validN n = true → normedN n = true → txtOkN n → noNl3 (serNode n))
    (fun f => validF f = true → normedF f = true → txtOkF f →
      noNl3 (serForest f))
    ?_ ?_ ?_ ?_).2 f hv hn ht
  · intro s _ _ hok
    exact noNl3_escape hok
  · intro t c ch ihch hvn hnn hokn
    obtain ⟨hne, hlow, hcls, hvch⟩ := validN_elem_parts hvn
    have hnch : normedF ch = true := hnn
    have hok : txtOkF ch := hokn
    have hchnl : noNl3 (serForest ch) := ihch hvch hnch hok
    have hcw : ∀ w ∈ c, ∀ d ∈ w, pyIsSpace d = false := by
      intro w hw d hd
      exact ((hcls w hw).2 d hd).1
    have hopen : noNl3 ('<' :: (t ++ clsAttr c ++ ['>'])) :=
      noNl3_nlfree (openTag_nlfree hlow hcw)
    have hclose : noNl3 ('<' :: '/' :: (t ++ ['>'])) :=
      noNl3_nlfree (closeTag_nlfree hlow)
    show noNl3 ((('<' :: (t ++ clsAttr c ++ ['>'])) ++ serForest ch) ++
      ('<' :: '/' :: (t ++ ['>'])))
    have hedge2 : ('<' :: '/' :: (t ++ ['>'])).head? ≠ some '\n' := by
      rw [show ('<' :: '/' :: (t ++ ['>'])).head? = some '<' from rfl]
      decide
    refine noNl3_append_headne ?_ hclose hedge2
    have hedge1 : ('<' :: (t ++ clsAttr c ++ ['>'])).getLast? ≠ some '\n' := by
      rw [openTag_getLast]
      decide
    exact noNl3_append_lastne hopen hchnl hedge1
  · intro _ _ _
    exact noNl3_short (by decide)
  · intro n tl ihn ihtl hv hn ht
    have hv' : (validN n && validF tl) = true := hv
    rw [Bool.and_eq_true] at hv'
    have hn' : ((normedN n && !(isTextN n && textHeadF tl)) && normedF tl) =
        true := hn
    rw [Bool.and_eq_true, Bool.and_eq_true] at hn'
    have hN : noNl3 (serNode n) := ihn hv'.1 hn'.1.1 ht.1
    have hT : noNl3 (serForest tl) := ihtl hv'.2 hn'.2 ht.2
    show noNl3 (serNode n ++ serForest tl)
    cases n with
    | helem t c ch =>
      refine noNl3_append_lastne hN hT ?_
      rw [serNode_elem_getLast]
      decide
    | htext s =>
      cases tl with
      | hnil =>
        show noNl3 (serNode (.htext s) ++ [])
        rw [List.append_nil]
        exact hN
      | hcons m tl2 =>
        cases m with
        | htext s2 =>
          exfalso
          have hbad := hn'.1.2
          simp [isTextN, textHeadF] at hbad
        | helem t2 c2 ch2 =>
          refine noNl3_append_headne hN hT ?_
          have hh : (serForest (HForest.hcons (HNode.helem t2 c2 ch2)
              tl2)).head? = some '<' := rfl
          rw [hh]
          decide

-- ── Commuting collapse and strip with serialization ─────────────────────────

theorem collapseNl_nlfree {s : Str} (h : ∀ c ∈ s, c ≠ '\n') :
    collapseNl s = s := collapseNl_fixed (noNl3_nlfree h)

theorem collapseNl_serForest (f : HForest) (hv : validF f = true)
    (hn : normedF f = true) :
    collapseNl (serForest f) = serForest (collapseF f) := by
  refine (hdoc_mutual_ind
    (fun n => validN n = true → normedN n = true →
      collapseNl (serNode n) = serNode (collapseN n))
    (fun f => validF f = true → normedF f = true →
      collapseNl (serForest f) = serForest (collapseF f))
    ?_ ?_ ?_ ?_).2 f hv hn
  · intro s _ _
    show collapseNl (escape s) = escape (collapseNl s)
    exact collapse_escape s 0
  · intro t c ch ihch hvn hnn
    obtain ⟨hne, hlow, hcls, hvch⟩ := validN_elem_parts hvn
    have hnch : normedF ch = true := hnn
    have hcw : ∀ w ∈ c, ∀ d ∈ w, pyIsSpace d = false :=
      fun w hw d hd => ((hcls w hw).2 d hd).1
    have hopen := openTag_nlfree hlow hcw
    have hclose := closeTag_nlfree hlow
    show collapseNl ((('<' :: (t ++ clsAttr c ++ ['>'])) ++ serForest ch) ++
        ('<' :: '/' :: (t ++ ['>']))) =
      (('<' :: (t ++ clsAttr c ++ ['>'])) ++ serForest (collapseF ch)) ++
        ('<' :: '/' :: (t ++ ['>']))
    have hedgeA : ('<' :: (t ++ clsAttr c ++ ['>'])).getLast? ≠ some '\n' := by
      rw [openTag_getLast]
      decide
    have hedgeB : ('<' :: '/' :: (t ++ ['>'])).head? ≠ some '\n' := by
      rw [show ('<' :: '/' :: (t ++ ['>'])).head? = some '<' from rfl]
      decide
    rw [List.append_assoc, collapseNl_split (Or.inl hedgeA),
      collapseNl_nlfree hopen, collapseNl_split (Or.inr hedgeB),
      collapseNl_nlfree hclose, ihch hvch hnch]
    exact (List.append_assoc _ _ _).symm
  · intro _ _
    rfl
  · intro n tl ihn ihtl hv hn
    have hv' : (validN n && validF tl) = true := hv
    rw [Bool.and_eq_true] at hv'
    have hn' : ((normedN n && !(isTextN n && textHeadF tl)) && normedF tl) =
        true := hn
    rw [Bool.and_eq_true, Bool.and_eq_true] at hn'
    have ihn' := ihn hv'.1 hn'.1.1
    have ihtl' := ihtl hv'.2 hn'.2
    show collapseNl (serNode n ++ serForest tl) =
      serNode (collapseN n) ++ serForest (collapseF tl)
    cases n with
    | helem t c ch =>
      have hedge : (serNode (.helem t c ch)).getLast? ≠ some '\n' := by
        rw [serNode_elem_getLast]
        decide
      rw [collapseNl_split (Or.inl hedge), ihn', ihtl']
    | htext s =>
      cases tl with
      | hnil =>
        show collapseNl (serNode (.htext s) ++ []) =
          serNode (collapseN (.htext s)) ++ []
        rw [List.append_nil, List.append_nil]
        exact ihn'
      | hcons m tl2 =>
        cases m with
        | htext s2 =>
          exfalso
          have hbad := hn'.1.2
          simp [isTextN, textHeadF] at hbad
        | helem t2 c2 ch2 =>
          have hedge : (serForest (HForest.hcons (HNode.helem t2 c2 ch2)
              tl2)).head? ≠ some '\n' := by
            rw [show (serForest (HForest.hcons (HNode.helem t2 c2 ch2)
              tl2)).head? = some '<' from rfl]
            decide
          rw [collapseNl_split (Or.inr hedge), ihn', ihtl']

theorem serForest_eq_nil_iff (g : HForest) (h : normedF g = true) :
    serForest g = [] ↔ g = .hnil := by
  cases g with
  | hnil => exact ⟨fun _ => rfl, fun _ => rfl⟩
  | hcons n tl =>
    constructor
    · intro hser
      exfalso
      cases n with
      | htext s =>
        have h' : ((normedN (.htext s) && !(isTextN (.htext s) &&
            textHeadF tl)) && normedF tl) = true := h
        rw [Bool.and_eq_true, Bool.and_eq_true] at h'
        have hs : s ≠ [] := of_decide_eq_true h'.1.1
        have hser' : escape s ++ serForest tl = [] := hser
        simp only [List.append_eq_nil] at hser'
        exact escape_ne_nil hs hser'.1
      | helem t c ch =>
        have hser' : ((('<' :: (t ++ clsAttr c ++ ['>'])) ++ serForest ch) ++
          ('<' :: '/' :: (t ++ ['>']))) ++ serForest tl = [] := hser
        simp at hser'
    · intro hcontra
      exact HForest.noConfusion hcontra

theorem pyLStrip_fixed_no_texthead (f : HForest) (h : textHeadF f = false) :
    pyLStrip (serForest f) = serForest f := by
  cases f with
  | hnil => rfl
  | hcons n tl =>
    cases n with
    | htext s => exact absurd h (by simp [textHeadF])
    | helem t c ch =>
      apply pyLStrip_headne
      intro c0 hc0
      have hh : (serForest (.hcons (.helem t c ch) tl)).head? = some '<' := rfl
      rw [hh] at hc0
      injection hc0 with hc0
      subst hc0
      decide

theorem pyLStrip_serForest (f : HForest) (hn : normedF f = true) :
    pyLStrip (serForest f) = serForest (lstripF f) := by
  cases f with
  | hnil => rfl
  | hcons n tl =>
    cases n with
    | helem t c ch =>
      show pyLStrip (serForest (.hcons (.helem t c ch) tl)) =
        serForest (.hcons (.helem t c ch) tl)
      exact pyLStrip_fixed_no_texthead (.hcons (.helem t c ch) tl) rfl
    | htext s =>
      have h' : ((normedN (.htext s) && !(isTextN (.htext s) &&
          textHeadF tl)) && normedF tl) = true := hn
      rw [Bool.and_eq_true, Bool.and_eq_true] at h'
      show pyLStrip (escape s ++ serForest tl) =
        serForest (if pyLStrip s = [] then tl
          else .hcons (.htext (pyLStrip s)) tl)
      rw [pyLStrip_append]
      by_cases hls : pyLStrip s = []
      · have hesc : pyLStrip (escape s) = [] := by
          rw [pyLStrip_escape, hls]
          rfl
        rw [if_pos hesc, if_pos hls]
        have hth : textHeadF tl = false := by
          have hx := h'.1.2
          rw [Bool.not_eq_true'] at hx
          rwa [show isTextN (HNode.htext s) = true from rfl, Bool.true_and]
            at hx
        exact pyLStrip_fixed_no_texthead tl hth
      · have hesc : pyLStrip (escape s) ≠ [] := by
          rw [pyLStrip_escape]
          exact escape_ne_nil hls
        rw [if_neg hesc, if_neg hls, pyLStrip_escape]
        rfl

theorem pyRStrip_serForest : ∀ f : HForest, normedF f = true →
    pyRStrip (serForest f) = serForest (rstripF f)
  | .hnil, _ => rfl
  | .hcons n .hnil, h => by
    cases n with
    | htext s =>
      show pyRStrip (escape s ++ []) =
        serForest (if pyRStrip s = [] then HForest.hnil
          else .hcons (.htext (pyRStrip s)) .hnil)
      rw [List.append_nil, pyRStrip_escape]
      by_cases hrs : pyRStrip s = []
      · rw [if_pos hrs, hrs]
        rfl
      · rw [if_neg hrs]
        show escape (pyRStrip s) = escape (pyRStrip s) ++ []
        rw [List.append_nil]
    | helem t c ch =>
      show pyRStrip (serNode (.helem t c ch) ++ []) =
        serNode (.helem t c ch) ++ []
      rw [List.append_nil]
      apply pyRStrip_lastne
      intro c0 hc0
      rw [serNode_elem_getLast] at hc0
      injection hc0 with hc0
      subst hc0
      decide
  | .hcons n (.hcons m tl), h => by
    have h' : ((normedN n && !(isTextN n && textHeadF (.hcons m tl))) &&
        normedF (.hcons m tl)) = true := h
    rw [Bool.and_eq_true, Bool.and_eq_true] at h'
    have ih := pyRStrip_serForest (.hcons m tl) h'.2
    show pyRStrip (serNode n ++ serForest (.hcons m tl)) =
      serNode n ++ serForest (rstripF (.hcons m tl))
    rw [pyRStrip_append, ih]
    by_cases hb : serForest (rstripF (.hcons m tl)) = []
    · rw [if_pos hb, hb, List.append_nil]
      have hrnil : rstripF (.hcons m tl) = .hnil :=
        (serForest_eq_nil_iff _ (normedF_rstripF _ h'.2)).mp hb
      cases n with
      | helem t c ch =>
        apply pyRStrip_lastne
        intro c0 hc0
        rw [serNode_elem_getLast] at hc0
        injection hc0 with hc0
        subst hc0
        decide
      | htext s =>
        exfalso
        have hth : textHeadF (.hcons m tl) = false := by
          have hx := h'.1.2
          rw [Bool.not_eq_true'] at hx
          rwa [show isTextN (HNode.htext s) = true from rfl, Bool.true_and]
            at hx
        cases m with
        | htext s2 => exact absurd hth (by simp [textHeadF])
        | helem t2 c2 ch2 =>
          cases tl with
          | hnil => exact HForest.noConfusion hrnil
          | hcons k tl2 => exact HForest.noConfusion hrnil
    · rw [if_neg hb]

-- ── Round trip: the parser recovers a serialized valid document ─────────────

theorem takeWhile_all_append {p : Char → Bool} : ∀ {a : Str},
    (∀ c ∈ a, p c = true) → ∀ b : Str,
    (a ++ b).takeWhile p = a ++ b.takeWhile p
  | [], _, b => by simp
  | c :: a', h, b => by
    have hc : p c = true := h c (by simp)
    rw [List.cons_append, List.takeWhile_cons, if_pos hc,
      takeWhile_all_append (fun d hd => h d (by simp [hd])) b]
    rfl

theorem dropWhile_all_append {p : Char → Bool} : ∀ {a : Str},
    (∀ c ∈ a, p c = true) → ∀ b : Str,
    (a ++ b).dropWhile p = b.dropWhile p
  | [], _, b => by simp
  | c :: a', h, b => by
    have hc : p c = true := h c (by simp)
    rw [List.cons_append, List.dropWhile_cons, if_pos hc]
    exact dropWhile_all_append (fun d hd => h d (by simp [hd])) b

theorem startsWith_append_self : ∀ (p s : Str), startsWith p (p ++ s) = true
  | [], s => rfl
  | c :: p', s => by
    show (decide (c = c) && startsWith p' (p' ++ s)) = true
    rw [decide_eq_true rfl, startsWith_append_self p' s]
    rfl

theorem splitWsAux_cons_nonspace {c : Char} (hc : pyIsSpace c = false)
    (cur rest : Str) :
    splitWsAux cur (c :: rest) = splitWsAux (c :: cur) rest := by
  show (if pyIsSpace c then _ else splitWsAux (c :: cur) rest) = _
  rw [if_neg (by rw [hc]; exact Bool.false_ne_true)]

theorem splitWsAux_cons_space {c : Char} (hc : pyIsSpace c = true)
    (cur rest : Str) :
    splitWsAux cur (c :: rest) =
      if cur = [] then splitWsAux [] rest
      else cur.reverse :: splitWsAux [] rest := by
  show (if pyIsSpace c then
    (if cur = [] then splitWsAux [] rest
     else cur.reverse :: splitWsAux [] rest) else _) = _
  rw [if_pos hc]

theorem splitWsAux_word : ∀ (w : Str), (∀ d ∈ w, pyIsSpace d = false) →
    ∀ (cur s : Str), splitWsAux cur (w ++ s) = splitWsAux (w.reverse ++ cur) s
  | [], _, cur, s => by simp
  | c :: w', h, cur, s => by
    have hc : pyIsSpace c = false := h c (by simp)
    rw [List.cons_append, splitWsAux_cons_nonspace hc,
      splitWsAux_word w' (fun d hd => h d (by simp [hd])) (c :: cur) s]
    simp

theorem splitWsAux_nil_arg (cur : Str) :
    splitWsAux cur [] = if cur = [] then [] else [cur.reverse] := rfl

theorem splitOnWs_joinSpace : ∀ {cls : List Str},
    (∀ w ∈ cls, w ≠ [] ∧ ∀ d ∈ w, pyIsSpace d = false) →
    splitOnWs (joinSpace cls) = cls
  | [], _ => rfl
  | [w], h => by
    obtain ⟨hne, hns⟩ := h w (by simp)
    show splitWsAux [] (joinSpace [w]) = [w]
    rw [show joinSpace [w] = w ++ [] by simp [joinSpace],
      splitWsAux_word w hns [] [], splitWsAux_nil_arg,
      if_neg (by simp [hne])]
    simp
  | w :: v :: rest, h => by
    obtain ⟨hne, hns⟩ := h w (by simp)
    have ih : splitOnWs (joinSpace (v :: rest)) = v :: rest :=
      splitOnWs_joinSpace (fun u hu => h u (List.mem_cons_of_mem w hu))
    show splitWsAux [] (w ++ ' ' :: joinSpace (v :: rest)) = w :: v :: rest
    rw [splitWsAux_word w hns [] (' ' :: joinSpace (v :: rest)),
      splitWsAux_cons_space (by decide)]
    rw [if_neg (by simp [hne])]
    rw [show splitWsAux [] (joinSpace (v :: rest)) = splitOnWs
      (joinSpace (v :: rest)) from rfl, ih]
    simp

theorem parseAttrs_space (rest : Str) :
    parseAttrs (' ' :: rest) =
      (if startsWith "class=\"".toList ((' ' :: rest).dropWhile pyIsSpace) then
        match (((' ' :: rest).dropWhile pyIsSpace).drop 7).dropWhile
            (fun x => x ≠ '"') with
        | '"' :: '>' :: r4 =>
          some (splitOnWs ((((' ' :: rest).dropWhile pyIsSpace).drop 7).takeWhile
            (fun x => x ≠ '"')), r4)
        | _ => none
      else none) := rfl

theorem parseAttrs_ser {c : List Str}
    (hcls : ∀ w ∈ c, w ≠ [] ∧ ∀ d ∈ w, pyIsSpace d = false ∧ d ≠ '"')
    (r : Str) :
    parseAttrs (clsAttr c ++ '>' :: r) = some (c, r) := by
  by_cases hc : c = []
  · subst hc
    rfl
  · have hJ : ∀ d ∈ joinSpace c, decide (d ≠ '"') = true := by
      intro d hd
      rcases mem_joinSpace hd with h1 | ⟨w, hw, hdw⟩
      · subst h1
        decide
      · exact decide_eq_true ((hcls w hw).2 d hdw).2
    have hJs : ∀ w ∈ c, w ≠ [] ∧ ∀ d ∈ w, pyIsSpace d = false :=
      fun w hw => ⟨(hcls w hw).1, fun d hd => ((hcls w hw).2 d hd).1⟩
    rw [show clsAttr c = " class=\"".toList ++ joinSpace c ++ "\"".toList from
      by unfold clsAttr; rw [if_neg hc]]
    rw [show (" class=\"".toList ++ joinSpace c ++ "\"".toList) ++ '>' :: r =
      ' ' :: ("class=\"".toList ++ (joinSpace c ++ ('"' :: '>' :: r))) from by
        rw [show (" class=\"".toList : Str) = ' ' :: "class=\"".toList from
          by decide, show ("\"".toList : Str) = ['"'] from by decide]
        simp]
    rw [parseAttrs_space]
    rw [show (' ' :: ("class=\"".toList ++ (joinSpace c ++
      ('"' :: '>' :: r)))).dropWhile pyIsSpace =
      "class=\"".toList ++ (joinSpace c ++ ('"' :: '>' :: r)) from rfl]
    rw [if_pos (startsWith_append_self _ _)]
    rw [show ("class=\"".toList ++ (joinSpace c ++ ('"' :: '>' :: r))).drop 7 =
      joinSpace c ++ ('"' :: '>' :: r) from rfl]
    rw [dropWhile_all_append hJ ('"' :: '>' :: r)]
    rw [show (('"' :: '>' :: r).dropWhile (fun x => x ≠ '"')) = '"' :: '>' :: r
      from rfl]
    rw [takeWhile_all_append hJ ('"' :: '>' :: r)]
    rw [show (('"' :: '>' :: r).takeWhile (fun x => x ≠ '"')) = [] from rfl]
    rw [List.append_nil, splitOnWs_joinSpace hJs]
    rfl

theorem tryTag_cons_lt (rest : Str) :
    tryTag ('<' :: rest) =
      (if rest.takeWhile isLowerAlpha = [] then none
       else match parseAttrs (rest.dropWhile isLowerAlpha) with
         | some (cls, r2) => some (rest.takeWhile isLowerAlpha, cls, r2)
         | none => none) := rfl

theorem clsAttr_gt_takeWhile (c : List Str) (r : Str) :
    (clsAttr c ++ '>' :: r).takeWhile isLowerAlpha = [] := by
  by_cases hc : c = []
  · subst hc
    rfl
  · rw [show clsAttr c = " class=\"".toList ++ joinSpace c ++ "\"".toList from
      by unfold clsAttr; rw [if_neg hc]]
    rw [show ((" class=\"".toList ++ joinSpace c ++ "\"".toList) ++ '>' :: r :
        Str) = ' ' :: (("class=\"".toList ++ joinSpace c ++ "\"".toList) ++
        '>' :: r) from by
      rw [show (" class=\"".toList : Str) = ' ' :: "class=\"".toList from
        by decide]
      simp]
    rw [List.takeWhile_cons, if_neg (by decide)]

theorem clsAttr_gt_dropWhile (c : List Str) (r : Str) :
    (clsAttr c ++ '>' :: r).dropWhile isLowerAlpha = clsAttr c ++ '>' :: r := by
  by_cases hc : c = []
  · subst hc
    show (('>' :: r) : Str).dropWhile isLowerAlpha = '>' :: r
    rw [List.dropWhile_cons, if_neg (by decide)]
  · rw [show clsAttr c = " class=\"".toList ++ joinSpace c ++ "\"".toList from
      by unfold clsAttr; rw [if_neg hc]]
    rw [show ((" class=\"".toList ++ joinSpace c ++ "\"".toList) ++ '>' :: r :
        Str) = ' ' :: (("class=\"".toList ++ joinSpace c ++ "\"".toList) ++
        '>' :: r) from by
      rw [show (" class=\"".toList : Str) = ' ' :: "class=\"".toList from
        by decide]
      simp]
    rw [List.dropWhile_cons, if_neg (by decide)]

theorem tryTag_ser {t : Str} {c : List Str} (hne : t ≠ [])
    (hlow : t.all isLowerAlpha = true)
    (hcls : ∀ w ∈ c, w ≠ [] ∧ ∀ d ∈ w, pyIsSpace d = false ∧ d ≠ '"')
    (r : Str) :
    tryTag ('<' :: (t ++ (clsAttr c ++ '>' :: r))) = some (t, c, r) := by
  have htall : ∀ d ∈ t, isLowerAlpha d = true :=
    fun d hd => List.all_eq_true.mp hlow d hd
  have htw : (t ++ (clsAttr c ++ '>' :: r)).takeWhile isLowerAlpha = t := by
    rw [takeWhile_all_append htall, clsAttr_gt_takeWhile, List.append_nil]
  have hdw : (t ++ (clsAttr c ++ '>' :: r)).dropWhile isLowerAlpha =
      clsAttr c ++ '>' :: r := by
    rw [dropWhile_all_append htall, clsAttr_gt_dropWhile]
  rw [tryTag_cons_lt, htw, hdw, if_neg hne, parseAttrs_ser hcls r]

theorem consumeClose_ser {t : Str} (hlow : t.all isLowerAlpha = true)
    (r : Str) :
    consumeClose ('<' :: '/' :: (t ++ '>' :: r)) = r := by
  have hT : ∀ d ∈ t, decide (d ≠ '>') = true := by
    intro d hd
    refine decide_eq_true ?_
    intro hdq
    have := List.all_eq_true.mp hlow d hd
    rw [hdq] at this
    exact absurd this (by decide)
  show ((t ++ '>' :: r).dropWhile (fun x => x ≠ '>')).drop 1 = r
  rw [dropWhile_all_append hT ('>' :: r)]
  rw [show (('>' :: r).dropWhile (fun x => x ≠ '>')) = '>' :: r from by
    rw [List.dropWhile_cons, if_neg (by simp)]]
  rfl

theorem consTextF_nomerge {s : Str} (hs : s ≠ []) {f : HForest}
    (hf : textHeadF f = false) : consTextF s f = .hcons (.htext s) f := by
  unfold consTextF
  rw [if_neg hs]
  cases f with
  | hnil => rfl
  | hcons n tl =>
    cases n with
    | htext s2 => exact absurd hf (by simp [textHeadF])
    | helem t c ch => rfl

theorem parseMany_nil_input : ∀ fuel : Nat, parseMany fuel [] = (.hnil, [])
  | 0 => rfl
  | _ + 1 => rfl

theorem parseMany_cons_text {c : Char} (hc : c ≠ '<') (fuel : Nat)
    (rest : Str) :
    parseMany (fuel + 1) (c :: rest) =
      (consTextF (decodeEnt ((c :: rest).takeWhile (fun x => x ≠ '<')))
        (parseMany fuel ((c :: rest).dropWhile (fun x => x ≠ '<'))).1,
       (parseMany fuel ((c :: rest).dropWhile (fun x => x ≠ '<'))).2) := by
  show (if c = '<' then _ else _) = _
  rw [if_neg hc]

theorem parseMany_cons_lt (fuel : Nat) (body : Str) :
    parseMany (fuel + 1) ('<' :: body) =
      (if body.head? = some '/' then ((.hnil : HForest), '<' :: body)
       else match tryTag ('<' :: body) with
         | some (name, cls, afterGt) =>
           (.hcons (.helem name cls (parseMany fuel afterGt).1)
             (parseMany fuel (consumeClose (parseMany fuel afterGt).2)).1,
            (parseMany fuel (consumeClose (parseMany fuel afterGt).2)).2)
         | none =>
           (consTextF ['<'] (parseMany fuel body).1,
            (parseMany fuel body).2)) := rfl

theorem parseMany_ser : ∀ (fuel : Nat) (f : HForest) (rest : Str),
    (serForest f).length < fuel → validF f = true → normedF f = true →
    (rest = [] ∨ ∃ r2, rest = '<' :: '/' :: r2) →
    parseMany fuel (serForest f ++ rest) = (f, rest)
  | 0, _, _, hlen, _, _, _ => absurd hlen (by omega)
  | fuel + 1, .hnil, rest, _, _, _, hrest => by
    show parseMany (fuel + 1) ([] ++ rest) = (.hnil, rest)
    rw [List.nil_append]
    rcases hrest with h | ⟨r2, h⟩
    · subst h
      exact parseMany_nil_input (fuel + 1)
    · subst h
      rw [parseMany_cons_lt,
        if_pos (show ('/' :: r2).head? = some '/' from rfl)]
  | fuel + 1, .hcons (.htext s) tl, rest, hlen, hv, hn, hrest => by
    have hv' : (validN (.htext s) && validF tl) = true := hv
    rw [Bool.and_eq_true] at hv'
    have hn' : ((normedN (.htext s) && !(isTextN (.htext s) &&
        textHeadF tl)) && normedF tl) = true := hn
    rw [Bool.and_eq_true, Bool.and_eq_true] at hn'
    have hs : s ≠ [] := of_decide_eq_true hn'.1.1
    have hth : textHeadF tl = false := by
      have hx := hn'.1.2
      rw [Bool.not_eq_true'] at hx
      rwa [show isTextN (HNode.htext s) = true from rfl, Bool.true_and] at hx
    rcases hesc : escape s with _ | ⟨d, es⟩
    · exact absurd hesc (escape_ne_nil hs)
    have hd : d ≠ '<' := by
      intro hcontra
      subst hcontra
      exact lt_not_mem_escape s (by rw [hesc]; simp)
    have hY : serForest tl ++ rest = [] ∨
        (serForest tl ++ rest).head? = some '<' := by
      cases tl with
      | hnil =>
        rcases hrest with h | ⟨r2, h⟩
        · left
          rw [h]
          rfl
        · right
          rw [h]
          rfl
      | hcons m tl2 =>
        cases m with
        | htext s2 => exact absurd hth (by simp [textHeadF])
        | helem t2 c2 ch2 =>
          right
          rfl
    have hYt : (serForest tl ++ rest).takeWhile
        (fun x => decide (x ≠ '<')) = [] := by
      rcases hY with h | h
      · rw [h]
        rfl
      · cases hl : serForest tl ++ rest with
        | nil => rfl
        | cons z zs =>
          rw [hl] at h
          injection h with h
          subst h
          rw [List.takeWhile_cons, if_neg (by decide)]
    have hYd : (serForest tl ++ rest).dropWhile
        (fun x => decide (x ≠ '<')) = serForest tl ++ rest := by
      rcases hY with h | h
      · rw [h]
        rfl
      · cases hl : serForest tl ++ rest with
        | nil => rfl
        | cons z zs =>
          rw [hl] at h
          injection h with h
          subst h
          rw [List.dropWhile_cons, if_neg (by decide)]
    have hstail : ∀ x ∈ d :: es, decide (x ≠ '<') = true := by
      rw [← hesc]
      intro x hx
      refine decide_eq_true ?_
      intro hq
      subst hq
      exact lt_not_mem_escape s hx
    have hlen' : (serForest tl).length < fuel := by
      have h1 : (serForest (HForest.hcons (HNode.htext s) tl)).length =
          (escape s).length + (serForest tl).length := by
        show (escape s ++ serForest tl).length = _
        simp
      rw [h1, hesc] at hlen
      simp only [List.length_cons] at hlen
      omega
    have hIH := parseMany_ser fuel tl rest hlen' hv'.2 hn'.2 hrest
    show parseMany (fuel + 1) ((escape s ++ serForest tl) ++ rest) = _
    rw [List.append_assoc, hesc, List.cons_append, parseMany_cons_text hd,
      ← List.cons_append, takeWhile_all_append hstail,
      dropWhile_all_append hstail, hYt, hYd, List.append_nil, ← hesc,
      decode_escape, hIH]
    show (consTextF s tl, rest) = _
    rw [consTextF_nomerge hs hth]
  | fuel + 1, .hcons (.helem t c ch) tl, rest, hlen, hv, hn, hrest => by
    have hv' : (validN (.helem t c ch) && validF tl) = true := hv
    rw [Bool.and_eq_true] at hv'
    obtain ⟨hne, hlow, hcls, hvch⟩ := validN_elem_parts hv'.1
    have hn' : ((normedN (.helem t c ch) && !(isTextN (.helem t c ch) &&
        textHeadF tl)) && normedF tl) = true := hn
    rw [Bool.and_eq_true, Bool.and_eq_true] at hn'
    have hnch : normedF ch = true := hn'.1.1
    have hlens : (serForest ch).length < fuel ∧
        (serForest tl).length < fuel := by
      have h0 : (serForest (HForest.hcons (HNode.helem t c ch) tl)).length =
          ((('<' :: (t ++ clsAttr c ++ ['>'])) ++ serForest ch) ++
           (('<' :: '/' :: (t ++ ['>'])) ++ serForest tl)).length := by
        show ((('<' :: (t ++ clsAttr c ++ ['>'])) ++ serForest ch) ++
          ('<' :: '/' :: (t ++ ['>'])) ++ serForest tl).length = _
        rw [List.append_assoc]
      rw [h0] at hlen
      simp only [List.length_append, List.length_cons] at hlen
      omega
    have hin : serForest (.hcons (.helem t c ch) tl) ++ rest =
        '<' :: (t ++ (clsAttr c ++ '>' :: (serForest ch ++
          ('<' :: '/' :: (t ++ '>' :: (serForest tl ++ rest)))))) := by
      show (((('<' :: (t ++ clsAttr c ++ ['>'])) ++ serForest ch) ++
        ('<' :: '/' :: (t ++ ['>']))) ++ serForest tl) ++ rest = _
      simp [List.append_assoc]
    have hbody : (t ++ (clsAttr c ++ '>' :: (serForest ch ++
        ('<' :: '/' :: (t ++ '>' :: (serForest tl ++ rest)))))).head? ≠
        some '/' := by
      cases t with
      | nil => exact absurd rfl hne
      | cons t0 t' =>
        intro hq
        have hh : ((t0 :: t') ++ (clsAttr c ++ '>' :: (serForest ch ++
          ('<' :: '/' :: ((t0 :: t') ++ '>' :: (serForest tl ++
            rest)))))).head? = some t0 := rfl
        rw [hh] at hq
        injection hq with hq
        have := List.all_eq_true.mp hlow t0 (by simp)
        rw [hq] at this
        exact absurd this (by decide)
    have htag := tryTag_ser hne hlow hcls (serForest ch ++
      ('<' :: '/' :: (t ++ '>' :: (serForest tl ++ rest))))
    have hinner := parseMany_ser fuel ch
      ('<' :: '/' :: (t ++ '>' :: (serForest tl ++ rest))) hlens.1 hvch hnch
      (Or.inr ⟨t ++ '>' :: (serForest tl ++ rest), rfl⟩)
    have houter := parseMany_ser fuel tl rest hlens.2 hv'.2 hn'.2 hrest
    rw [hin, parseMany_cons_lt, if_neg hbody, htag]
    show (HForest.hcons (HNode.helem t c (parseMany fuel (serForest ch ++
        ('<' :: '/' :: (t ++ '>' :: (serForest tl ++ rest))))).1)
        (parseMany fuel (consumeClose (parseMany fuel (serForest ch ++
          ('<' :: '/' :: (t ++ '>' :: (serForest tl ++ rest))))).2)).1,
      (parseMany fuel (consumeClose (parseMany fuel (serForest ch ++
        ('<' :: '/' :: (t ++ '>' :: (serForest tl ++ rest))))).2)).2) = _
    rw [hinner]
    have hcc : consumeClose ((ch, '<' :: '/' :: (t ++ '>' ::
        (serForest tl ++ rest))) : HForest × Str).2 =
        serForest tl ++ rest := by
      show consumeClose ('<' :: '/' :: (t ++ '>' :: (serForest tl ++
        rest))) = serForest tl ++ rest
      exact consumeClose_ser hlow (serForest tl ++ rest)
    rw [hcc, houter]

theorem parseDoc_serForest (f : HForest) (hv : validF f = true)
    (hn : normedF f = true) : parseDoc (serForest f) = f := by
  have hm := parseMany_ser ((serForest f).length + 1) f [] (by omega) hv hn
    (Or.inl rfl)
  rw [List.append_nil] at hm
  show parseTop ((serForest f).length + 1) (serForest f) = f
  simp only [parseTop]
  rw [hm]

-- ── Validity of the parser's output ─────────────────────────────────────────

theorem mem_takeWhile_pred {p : Char → Bool} : ∀ {l : Str} {a : Char},
    a ∈ l.takeWhile p → p a = true := by
  intro l
  induction l with
  | nil => intro a ha; simp at ha
  | cons c rest ih =>
    intro a ha
    rw [List.takeWhile_cons] at ha
    by_cases hp : p c = true
    · rw [if_pos hp] at ha
      rcases List.mem_cons.mp ha with h1 | h1
      · subst h1
        exact hp
      · exact ih h1
    · rw [if_neg hp] at ha
      simp at ha

theorem splitWsAux_sound {P : Char → Prop} : ∀ (s cur : Str),
    (∀ d ∈ cur, pyIsSpace d = false ∧ P d) → (∀ d ∈ s, P d) →
    ∀ w ∈ splitWsAux cur s, w ≠ [] ∧ ∀ d ∈ w, pyIsSpace d = false ∧ P d
  | [], cur, hcur, _, w, hw => by
    rw [splitWsAux_nil_arg] at hw
    by_cases hc : cur = []
    · rw [if_pos hc] at hw
      simp at hw
    · rw [if_neg hc] at hw
      simp only [List.mem_singleton] at hw
      subst hw
      refine ⟨by simp [hc], ?_⟩
      intro d hd
      exact hcur d (by simpa using hd)
  | c :: s', cur, hcur, hs, w, hw => by
    by_cases hsp : pyIsSpace c = true
    · rw [splitWsAux_cons_space hsp] at hw
      by_cases hc : cur = []
      · rw [if_pos hc] at hw
        exact splitWsAux_sound s' [] (by simp)
          (fun d hd => hs d (by simp [hd])) w hw
      · rw [if_neg hc] at hw
        rcases List.mem_cons.mp hw with h1 | h1
        · subst h1
          refine ⟨by simp [hc], fun d hd => hcur d (by simpa using hd)⟩
        · exact splitWsAux_sound s' [] (by simp)
            (fun d hd => hs d (by simp [hd])) w h1
    · rw [splitWsAux_cons_nonspace (Bool.eq_false_iff.mpr hsp)] at hw
      refine splitWsAux_sound s' (c :: cur) ?_
        (fun d hd => hs d (by simp [hd])) w hw
      intro d hd
      rcases List.mem_cons.mp hd with h1 | h1
      · subst h1
        exact ⟨Bool.eq_false_iff.mpr hsp, hs _ (List.mem_cons_self _ _)⟩
      · exact hcur d h1

theorem parseAttrs_sound {s : Str} {cls : List Str} {r : Str}
    (h : parseAttrs s = some (cls, r)) :
    ∀ w ∈ cls, w ≠ [] ∧ ∀ d ∈ w, pyIsSpace d = false ∧ d ≠ '"' := by
  rw [parseAttrs.eq_def] at h
  split at h
  · injection h with h'
    injection h' with h1 h2
    subst h1
    intro w hw
    simp at hw
  · split at h
    · split at h
      · split at h
        · injection h with h'
          injection h' with h1 h2
          subst h1
          intro w hw
          refine splitWsAux_sound (P := fun d => d ≠ '"') _ [] (by simp)
            ?_ w hw
          intro d hd
          exact of_decide_eq_true (mem_takeWhile_pred hd)
        · exact absurd h (by simp)
      · exact absurd h (by simp)
    · exact absurd h (by simp)
  · exact absurd h (by simp)

theorem tryTag_sound {s : Str} {name : Str} {cls : List Str} {r : Str}
    (h : tryTag s = some (name, cls, r)) :
    name ≠ [] ∧ name.all isLowerAlpha = true ∧
    ∀ w ∈ cls, w ≠ [] ∧ ∀ d ∈ w, pyIsSpace d = false ∧ d ≠ '"' := by
  rw [tryTag.eq_def] at h
  split at h
  · split at h
    · exact absurd h (by simp)
    · rename_i hname
      split at h
      · rename_i cls2 r2 hpa
        injection h with h'
        injection h' with h1 h2
        injection h2 with h2 h3
        subst h1
        subst h2
        subst h3
        refine ⟨hname, ?_, parseAttrs_sound hpa⟩
        exact List.all_eq_true.mpr (fun d hd => mem_takeWhile_pred hd)
      · exact absurd h (by simp)
  · exact absurd h (by simp)

theorem validF_parseMany : ∀ (fuel : Nat) (s : Str),
    validF (parseMany fuel s).1 = true
  | 0, _ => rfl
  | fuel + 1, s => by
    cases s with
    | nil => rfl
    | cons c rest =>
      by_cases hc : c = '<'
      · subst hc
        rw [parseMany_cons_lt]
        by_cases hh : rest.head? = some '/'
        · rw [if_pos hh]
          rfl
        · rw [if_neg hh]
          rcases htag : tryTag ('<' :: rest) with _ | ⟨name, cls, afterGt⟩
          · show validF (consTextF ['<'] (parseMany fuel rest).1) = true
            rw [validF_consTextF]
            exact validF_parseMany fuel rest
          · obtain ⟨hname, hlow, hcls⟩ := tryTag_sound htag
            show (validN (.helem name cls (parseMany fuel afterGt).1) &&
              validF (parseMany fuel (consumeClose
                (parseMany fuel afterGt).2)).1) = true
            rw [Bool.and_eq_true]
            constructor
            · show (decide (name ≠ []) && name.all isLowerAlpha &&
                cls.all (fun w => decide (w ≠ []) &&
                  w.all (fun d => !pyIsSpace d && decide (d ≠ '"'))) &&
                validF (parseMany fuel afterGt).1) = true
              rw [Bool.and_eq_true, Bool.and_eq_true, Bool.and_eq_true]
              refine ⟨⟨⟨decide_eq_true hname, hlow⟩, ?_⟩,
                validF_parseMany fuel afterGt⟩
              refine List.all_eq_true.mpr (fun w hw => ?_)
              obtain ⟨hw1, hw2⟩ := hcls w hw
              rw [Bool.and_eq_true]
              refine ⟨decide_eq_true hw1, List.all_eq_true.mpr
                (fun d hd => ?_)⟩
              rw [Bool.and_eq_true]
              exact ⟨by rw [(hw2 d hd).1]; rfl,
                decide_eq_true (hw2 d hd).2⟩
            · exact validF_parseMany fuel (consumeClose
                (parseMany fuel afterGt).2)
      · rw [parseMany_cons_text hc]
        show validF (consTextF (decodeEnt ((c :: rest).takeWhile
          (fun x => x ≠ '<'))) (parseMany fuel ((c :: rest).dropWhile
            (fun x => x ≠ '<'))).1) = true
        rw [validF_consTextF]
        exact validF_parseMany fuel ((c :: rest).dropWhile
          (fun x => x ≠ '<'))

theorem validF_parseTop : ∀ (fuel : Nat) (s : Str),
    validF (parseTop fuel s) = true
  | 0, _ => rfl
  | fuel + 1, s => by
    simp only [parseTop]
    cases hr : (parseMany (fuel + 1) s).2 with
    | nil =>
      exact validF_parseMany (fuel + 1) s
    | cons z zs =>
      show validF (happend (parseMany (fuel + 1) s).1
        (parseTop fuel (consumeClose (z :: zs)))) = true
      rw [validF_happend, Bool.and_eq_true]
      exact ⟨validF_parseMany (fuel + 1) s,
        validF_parseTop fuel (consumeClose (z :: zs))⟩

theorem validF_parseDoc (s : Str) : validF (parseDoc s) = true :=
  validF_parseTop (s.length + 1) s

-- ── Stripped edges: strips are idempotent on the document ───────────────────

theorem pyLStrip_head_nonspace : ∀ (s : Str) {c : Char},
    (pyLStrip s).head? = some c → pyIsSpace c = false
  | [], c, h => by simp [pyLStrip] at h
  | d :: rest, c, h => by
    by_cases hd : pyIsSpace d
    · rw [show pyLStrip (d :: rest) = pyLStrip rest from by
        unfold pyLStrip; rw [List.dropWhile_cons, if_pos hd]] at h
      exact pyLStrip_head_nonspace rest h
    · rw [show pyLStrip (d :: rest) = d :: rest from by
        unfold pyLStrip; rw [List.dropWhile_cons, if_neg hd]] at h
      injection h with h
      subst h
      exact Bool.eq_false_iff.mpr hd

theorem pyRStrip_head_eq {s : Str} (h : pyRStrip s ≠ []) :
    (pyRStrip s).head? = s.head? := by
  conv_rhs => rw [pyRStrip_splits s]
  cases hp : pyRStrip s with
  | nil => exact absurd hp h
  | cons z zs => rfl

theorem pyRStrip_last_nonspace : ∀ (s : Str) {c : Char},
    (pyRStrip s).getLast? = some c → pyIsSpace c = false := by
  intro s c h
  unfold pyRStrip at h
  rw [List.getLast?_reverse] at h
  exact pyLStrip_head_nonspace _ h

/-- A leading top-level text node does not start with whitespace. -/
def goodHeadF : HForest → Bool
  | .hcons (.htext s) _ =>
    match s.head? with
    | some c => !pyIsSpace c
    | none => true
  | _ => true

/-- A trailing top-level text node does not end with whitespace. -/
def goodLastF : HForest → Bool
  | .hnil => true
  | .hcons (.htext s) .hnil =>
    (match s.getLast? with
     | some c => !pyIsSpace c
     | none => true)
  | .hcons _ .hnil => true
  | .hcons _ tl => goodLastF tl

theorem goodHeadF_lstripF (f : HForest) (hn : normedF f = true) :
    goodHeadF (lstripF f) = true := by
  cases f with
  | hnil => rfl
  | hcons n tl =>
    cases n with
    | helem t c ch => rfl
    | htext s =>
      have h' : ((normedN (.htext s) && !(isTextN (.htext s) &&
          textHeadF tl)) && normedF tl) = true := hn
      rw [Bool.and_eq_true, Bool.and_eq_true] at h'
      show goodHeadF (if pyLStrip s = [] then tl
        else .hcons (.htext (pyLStrip s)) tl) = true
      by_cases hls : pyLStrip s = []
      · rw [if_pos hls]
        have hth : textHeadF tl = false := by
          have hx := h'.1.2
          rw [Bool.not_eq_true'] at hx
          rwa [show isTextN (HNode.htext s) = true from rfl, Bool.true_and]
            at hx
        cases tl with
        | hnil => rfl
        | hcons m tl2 =>
          cases m with
          | htext s2 => exact absurd hth (by simp [textHeadF])
          | helem t2 c2 ch2 => rfl
      · rw [if_neg hls]
        show (match (pyLStrip s).head? with
          | some c => !pyIsSpace c
          | none => true) = true
        cases hh : (pyLStrip s).head? with
        | none => rfl
        | some c0 =>
          show (!pyIsSpace c0) = true
          rw [pyLStrip_head_nonspace s hh]
          rfl

theorem goodHeadF_rstripF : ∀ f : HForest, goodHeadF f = true →
    goodHeadF (rstripF f) = true
  | .hnil, _ => rfl
  | .hcons n .hnil, h => by
    cases n with
    | helem t c ch => rfl
    | htext s =>
      show goodHeadF (if pyRStrip s = [] then HForest.hnil
        else .hcons (.htext (pyRStrip s)) .hnil) = true
      by_cases hrs : pyRStrip s = []
      · rw [if_pos hrs]
        rfl
      · rw [if_neg hrs]
        show (match (pyRStrip s).head? with
          | some c => !pyIsSpace c
          | none => true) = true
        rw [pyRStrip_head_eq hrs]
        exact h
  | .hcons n (.hcons m tl), h => by
    show goodHeadF (.hcons n (rstripF (.hcons m tl))) = true
    cases n with
    | helem t c ch => rfl
    | htext s => exact h

theorem goodLastF_rstripF : ∀ f : HForest, normedF f = true →
    goodLastF (rstripF f) = true
  | .hnil, _ => rfl
  | .hcons n .hnil, hn => by
    cases n with
    | helem t c ch => rfl
    | htext s =>
      show goodLastF (if pyRStrip s = [] then HForest.hnil
        else .hcons (.htext (pyRStrip s)) .hnil) = true
      by_cases hrs : pyRStrip s = []
      · rw [if_pos hrs]
        rfl
      · rw [if_neg hrs]
        show (match (pyRStrip s).getLast? with
          | some c => !pyIsSpace c
          | none => true) = true
        cases hh : (pyRStrip s).getLast? with
        | none => rfl
        | some c0 =>
          show (!pyIsSpace c0) = true
          rw [pyRStrip_last_nonspace s hh]
          rfl
  | .hcons n (.hcons m tl), hn => by
    have hn' : ((normedN n && !(isTextN n && textHeadF (.hcons m tl))) &&
        normedF (.hcons m tl)) = true := hn
    rw [Bool.and_eq_true, Bool.and_eq_true] at hn'
    have hrec := goodLastF_rstripF (.hcons m tl) hn'.2
    show goodLastF (.hcons n (rstripF (.hcons m tl))) = true
    cases hri : rstripF (.hcons m tl) with
    | hnil =>
      cases n with
      | helem t c ch => rfl
      | htext s =>
        exfalso
        have hth : textHeadF (.hcons m tl) = false := by
          have hx := hn'.1.2
          rw [Bool.not_eq_true'] at hx
          rwa [show isTextN (HNode.htext s) = true from rfl, Bool.true_and]
            at hx
        cases m with
        | htext s2 => exact absurd hth (by simp [textHeadF])
        | helem t2 c2 ch2 =>
          cases tl with
          | hnil => exact HForest.noConfusion hri
          | hcons k tl2 => exact HForest.noConfusion hri
    | hcons k tl2 =>
      cases n with
      | htext s =>
        show goodLastF (.hcons k tl2) = true
        rw [← hri]
        exact hrec
      | helem t c ch =>
        show goodLastF (.hcons k tl2) = true
        rw [← hri]
        exact hrec

theorem lstripF_fixed (f : HForest) (hn : normedF f = true)
    (hg : goodHeadF f = true) : lstripF f = f := by
  cases f with
  | hnil => rfl
  | hcons n tl =>
    cases n with
    | helem t c ch => rfl
    | htext s =>
      have h' : ((normedN (.htext s) && !(isTextN (.htext s) &&
          textHeadF tl)) && normedF tl) = true := hn
      rw [Bool.and_eq_true, Bool.and_eq_true] at h'
      have hs : s ≠ [] := of_decide_eq_true h'.1.1
      have hfix : pyLStrip s = s := by
        apply pyLStrip_headne
        intro c0 hc0
        have hg' : (match s.head? with
          | some c => !pyIsSpace c
          | none => true) = true := hg
        rw [hc0] at hg'
        have hg'' : (!pyIsSpace c0) = true := hg'
        rw [Bool.not_eq_true'] at hg''
        intro hq
        rw [hq] at hg''
        exact Bool.noConfusion hg''
      show (if pyLStrip s = [] then tl
        else .hcons (.htext (pyLStrip s)) tl) = .hcons (.htext s) tl
      rw [hfix, if_neg hs]

theorem rstripF_fixed : ∀ f : HForest, normedF f = true →
    goodLastF f = true → rstripF f = f
  | .hnil, _, _ => rfl
  | .hcons n .hnil, hn, hg => by
    cases n with
    | helem t c ch => rfl
    | htext s =>
      have h' : ((normedN (.htext s) && !(isTextN (.htext s) &&
          textHeadF .hnil)) && normedF .hnil) = true := hn
      rw [Bool.and_eq_true, Bool.and_eq_true] at h'
      have hs : s ≠ [] := of_decide_eq_true h'.1.1
      have hfix : pyRStrip s = s := by
        apply pyRStrip_lastne
        intro c0 hc0
        have hg' : (match s.getLast? with
          | some c => !pyIsSpace c
          | none => true) = true := hg
        rw [hc0] at hg'
        have hg'' : (!pyIsSpace c0) = true := hg'
        rw [Bool.not_eq_true'] at hg''
        intro hq
        rw [hq] at hg''
        exact Bool.noConfusion hg''
      show (if pyRStrip s = [] then HForest.hnil
        else .hcons (.htext (pyRStrip s)) .hnil) = .hcons (.htext s) .hnil
      rw [hfix, if_neg hs]
  | .hcons n (.hcons m tl), hn, hg => by
    have hn' : ((normedN n && !(isTextN n && textHeadF (.hcons m tl))) &&
        normedF (.hcons m tl)) = true := hn
    rw [Bool.and_eq_true, Bool.and_eq_true] at hn'
    have hg' : goodLastF (.hcons m tl) = true := by
      cases n with
      | htext s => exact hg
      | helem t c ch => exact hg
    show HForest.hcons n (rstripF (.hcons m tl)) = .hcons n (.hcons m tl)
    rw [rstripF_fixed (.hcons m tl) hn'.2 hg']

-- ── Claim C6: idempotence of the sanitizer ──────────────────────────────────

/-- The sanitizer's output is the serialization of the fully normalized,
collapsed and stripped document. -/
theorem sanitized_form (u : HForest) (hv : validF u = true) :
    pyStrip (collapseNl (serForest u)) =
      serForest (rstripF (lstripF (collapseF (normalizeF u)))) := by
  have hvn : validF (normalizeF u) = true := by
    rw [validF_normalizeF]
    exact hv
  have hnn : normedF (normalizeF u) = true := normedF_normalizeF u
  have hng : normedF (collapseF (normalizeF u)) = true :=
    normedF_collapseF _ hnn
  have hnl : normedF (lstripF (collapseF (normalizeF u))) = true :=
    normedF_lstripF _ hng
  rw [show collapseNl (serForest u) = collapseNl (serForest (normalizeF u))
    from by rw [serForest_normalizeF]]
  rw [collapseNl_serForest _ hvn hnn]
  show pyRStrip (pyLStrip (serForest (collapseF (normalizeF u)))) = _
  rw [pyLStrip_serForest _ hng, pyRStrip_serForest _ hnl]

/-- A document in sanitized normal form is a fixed point of the whole
cleaning pipeline. -/
theorem sanitize_fixed (v : HForest) (hv : validF v = true)
    (hn : normedF v = true) (hEt : noEtPbF v = true) (hDv : divsOkF v = true)
    (ht : txtOkF v) (hgh : goodHeadF v = true) (hgl : goodLastF v = true) :
    wp_clean_html (serForest v) = serForest v := by
  by_cases hnil : serForest v = []
  · rw [hnil]
    rfl
  · unfold wp_clean_html
    rw [if_neg hnil]
    rw [parseDoc_serForest v hv hn, unwrapF_id v hEt, remEmptyF_id v hDv,
      collapseNl_fixed (noNl3_serForest v hv hn ht)]
    show pyRStrip (pyLStrip (serForest v)) = serForest v
    rw [pyLStrip_serForest v hn, lstripF_fixed v hn hgh,
      pyRStrip_serForest v hn, rstripF_fixed v hn hgl]

/-- Claim C6: `wp_clean_html` (lines 179–197 of `wp_migrate.py`) is
idempotent — for every HTML input `x`, cleaning the cleaned output is a
no-op: `wp_clean_html (wp_clean_html x) = wp_clean_html x`. -/
theorem c6_sanitize_idempotent (html : Str) :
    wp_clean_html (wp_clean_html html) = wp_clean_html html := by
  by_cases h0 : html = []
  · subst h0
    rfl
  · have hv : validF (remEmptyF (unwrapF (parseDoc html))) = true :=
      validF_remEmptyF _ (validF_unwrapF _ (validF_parseDoc html))
    have hy : wp_clean_html html =
        serForest (rstripF (lstripF (collapseF (normalizeF
          (remEmptyF (unwrapF (parseDoc html))))))) := by
      unfold wp_clean_html
      rw [if_neg h0]
      exact sanitized_form _ hv
    rw [hy]
    have hvn : validF (normalizeF (remEmptyF (unwrapF (parseDoc html)))) =
        true := by
      rw [validF_normalizeF]
      exact hv
    have hnn := normedF_normalizeF (remEmptyF (unwrapF (parseDoc html)))
    have hng : normedF (collapseF (normalizeF (remEmptyF (unwrapF
        (parseDoc html))))) = true := normedF_collapseF _ hnn
    have hnl : normedF (lstripF (collapseF (normalizeF (remEmptyF (unwrapF
        (parseDoc html)))))) = true := normedF_lstripF _ hng
    have hnv : normedF (rstripF (lstripF (collapseF (normalizeF (remEmptyF
        (unwrapF (parseDoc html))))))) = true := normedF_rstripF _ hnl
    have hvv : validF (rstripF (lstripF (collapseF (normalizeF (remEmptyF
        (unwrapF (parseDoc html))))))) = true :=
      validF_rstripF _ (validF_lstripF _ (by rw [validF_collapseF]; exact hvn))
    have hEt : noEtPbF (remEmptyF (unwrapF (parseDoc html))) = true :=
      noEtPbF_remEmptyF _ (noEtPbF_unwrapF _)
    have hEtv : noEtPbF (rstripF (lstripF (collapseF (normalizeF (remEmptyF
        (unwrapF (parseDoc html))))))) = true :=
      noEtPbF_rstripF _ (noEtPbF_lstripF _
        (by rw [noEtPbF_collapseF, noEtPbF_normalizeF]; exact hEt))
    have hDvv : divsOkF (rstripF (lstripF (collapseF (normalizeF (remEmptyF
        (unwrapF (parseDoc html))))))) = true :=
      divsOkF_rstripF _ (divsOkF_lstripF _
        (by rw [divsOkF_collapseF, divsOkF_normalizeF]
            exact divsOkF_remEmptyF _))
    have htv : txtOkF (rstripF (lstripF (collapseF (normalizeF (remEmptyF
        (unwrapF (parseDoc html))))))) :=
      txtOkF_rstripF _ (txtOkF_lstripF _ (txtOkF_collapseF _))
    have hghv : goodHeadF (rstripF (lstripF (collapseF (normalizeF (remEmptyF
        (unwrapF (parseDoc html))))))) = true :=
      goodHeadF_rstripF _ (goodHeadF_lstripF _ hng)
    have hglv : goodLastF (rstripF (lstripF (collapseF (normalizeF (remEmptyF
        (unwrapF (parseDoc html))))))) = true := goodLastF_rstripF _ hnl
    exact sanitize_fixed _ hvv hnv hEtv hDvv htv hghv hglv
